import Mathlib

/-!
libfyaml primitives used by the YPath front end

A shallow embedding of the UTF-8 decoder (`fy-utf8.c`), the escape parser
(`fy-utf8.c`), the tag scanner (`fy-utils.c`) and the expression-kind
predicates (`fy-walk.h`) of the Cfyaml sources.

Conventions of the embedding:

* a byte buffer is a `List Nat` whose entries are bytes (each below 256);
* C `int` values are `Int`; the negative decoder results are the `FYUG_*`
  constants;
* a read cursor `s` together with the fixed end pointer `e` is the list of
  the bytes from `s` to `e`, so `e - s` is the length of that list and
  `s += w` drops `w` bytes from it;
* buffer lengths are below 2^31, so the conversions between `size_t`,
  pointer differences and `int` in the sources are exact;
* loops whose trip count is not syntactically bounded take a fuel argument
  and return `none` when it runs out; the public functions supply one unit
  of fuel per input byte plus one.
-/

namespace Cfyaml

/-! ## fy-utf8.h (declarations used by the sources) -/

/-- Modelled from the spec: `fy-utf8.h` is not among the sources; the decoder
outcome `EndOfInput` is the negative constant `FYUG_EOF`. -/
def FYUG_EOF : Int := -1

/-- Modelled from the spec: `fy-utf8.h` is not among the sources; the decoder
outcome `Invalid` is the negative constant `FYUG_INV`. -/
def FYUG_INV : Int := -2

/-- Modelled from the spec: `fy-utf8.h` is not among the sources; the decoder
outcome `Partial` is the negative constant `FYUG_PARTIAL`. -/
def FYUG_PARTIAL : Int := -3

/-- Modelled from the spec: `fy_utf8_width_by_first_octet` of `fy-utf8.h` is
the lead-byte classifier 0xxxxxxx->1, 110xxxxx->2, 1110xxxx->3, 11110xxx->4,
otherwise 0. -/
def fy_utf8_width_by_first_octet (c : Nat) : Nat :=
  if c &&& 0x80 = 0x00 then 1
  else if c &&& 0xe0 = 0xc0 then 2
  else if c &&& 0xf0 = 0xe0 then 3
  else if c &&& 0xf8 = 0xf0 then 4
  else 0

/-! ## fy-utf8.c -/

/-- The `for (i = 1; i < width; i++)` loop of `fy_utf8_get_generic`: `p` is
the read pointer, `n` the number of iterations left, `value` the accumulator.
`none` is the `return FYUG_INV` inside the loop. -/
def fy_utf8_get_generic_loop : List Nat → Nat → Nat → Option Nat
  | _, 0, value => some value
  | p, n + 1, value =>
    if p.headD 0 &&& 0xc0 ≠ 0x80 then none
    else fy_utf8_get_generic_loop p.tail n ((value <<< 6) ||| (p.headD 0 &&& 0x3f))

/-- Embedding of `fy_utf8_get_generic(ptr, left, widthp)`. The result is the
returned `int` paired with the value stored through `widthp`; the second
component is 0 when nothing is stored (every negative return). -/
def fy_utf8_get_generic (p : List Nat) (left : Int) : Int × Nat :=
  if left < 1 then (FYUG_EOF, 0)
  else
    let width := fy_utf8_width_by_first_octet (p.headD 0)
    if width = 0 then (FYUG_INV, 0)
    else if (width : Int) > left then (FYUG_PARTIAL, 0)
    else
      match fy_utf8_get_generic_loop p.tail (width - 1) (p.headD 0 &&& (0x7f >>> width)) with
      | none => (FYUG_INV, 0)
      | some value =>
        if (width = 4 ∧ value < 0x10000) ∨
           (width = 3 ∧ value < 0x800) ∨
           (width = 2 ∧ value < 0x80) ∨
           (value ≥ 0xd800 ∧ value ≤ 0xdfff) ∨ value ≥ 0x110000 then (FYUG_INV, 0)
        else ((value : Int), width)

/-- Modelled from the spec: `fy_utf8_get` of `fy-utf8.h` is the inline wrapper
that returns an ASCII byte directly with width 1 and otherwise defers to
`fy_utf8_get_generic`. -/
def fy_utf8_get (p : List Nat) (left : Int) : Int × Nat :=
  if left ≤ 0 then (FYUG_EOF, 0)
  else if p.headD 0 &&& 0x80 = 0 then (((p.headD 0 &&& 0x7f : Nat) : Int), 1)
  else fy_utf8_get_generic p left

/-! ## Reference notions of UTF-8 (RFC 3629), used to state the claims -/

/-- A Unicode scalar value: at most 0x10FFFF and not a surrogate. -/
def utf8_is_scalar (c : Nat) : Prop :=
  c < 0x110000 ∧ ¬ (0xD800 ≤ c ∧ c ≤ 0xDFFF)

instance (c : Nat) : Decidable (utf8_is_scalar c) := by
  unfold utf8_is_scalar; infer_instance

/-- The shortest-form UTF-8 encoding of a code point (1 to 4 bytes). -/
def utf8_encode (c : Nat) : List Nat :=
  if c < 0x80 then [c]
  else if c < 0x800 then [0xC0 + c / 64, 0x80 + c % 64]
  else if c < 0x10000 then [0xE0 + c / 4096, 0x80 + c / 64 % 64, 0x80 + c % 64]
  else [0xF0 + c / 262144, 0x80 + c / 4096 % 64, 0x80 + c / 64 % 64, 0x80 + c % 64]

/-- Well-formed UTF-8: a concatenation of shortest-form encodings of Unicode
scalar values. -/
inductive utf8_well_formed : List Nat → Prop
  | nil : utf8_well_formed []
  | cons (c : Nat) (rest : List Nat) :
      utf8_is_scalar c → utf8_well_formed rest → utf8_well_formed (utf8_encode c ++ rest)

/-! ## libfyaml.h (declarations used by the sources) -/

/-- Modelled from the spec: `enum fy_utf8_escape` of `libfyaml.h` is not among
the sources; these are the escape policies the sources name. -/
inductive fy_utf8_escape
  | fyue_none
  | fyue_singlequote
  | fyue_doublequote
  | fyue_doublequote_json
  | fyue_doublequote_yaml_1_1
  deriving DecidableEq, Repr

open fy_utf8_escape

/-! ## fy-ctype.h (declarations used by the sources) -/

/-- Modelled from the spec: `fy_utf8_strchr` of `fy-utf8.h` tells whether the
code point `c` occurs in the (ASCII) string `s`. -/
def fy_utf8_strchr (s : List Int) (c : Int) : Bool :=
  s.contains c

/-- Modelled from the spec: `fy_is_first_alpha` of `fy-ctype.h`, the
first-alpha characters: ASCII letters and underscore. -/
def fy_is_first_alpha (c : Int) : Bool :=
  decide ((0x61 ≤ c ∧ c ≤ 0x7a) ∨ (0x41 ≤ c ∧ c ≤ 0x5a) ∨ c = 0x5f)

/-- Modelled from the spec: `fy_is_alnum` of `fy-ctype.h`, the alphanumerics:
first-alpha characters, the dash and the decimal digits. -/
def fy_is_alnum (c : Int) : Bool :=
  fy_is_first_alpha c || decide (c = 0x2d) || decide (0x30 ≤ c ∧ c ≤ 0x39)

/-- Modelled from the spec: `fy_is_hex` of `fy-ctype.h`, the hexadecimal
digits in either case. -/
def fy_is_hex (c : Int) : Bool :=
  decide ((0x30 ≤ c ∧ c ≤ 0x39) ∨ (0x61 ≤ c ∧ c ≤ 0x66) ∨ (0x41 ≤ c ∧ c ≤ 0x46))

/-- Modelled from the spec: `fy_is_ws` of `fy-ctype.h`, space or tab. -/
def fy_is_ws (c : Int) : Bool :=
  decide (c = 0x20 ∨ c = 0x09)

/-- Modelled from the spec: `fy_is_blank` of `fy-ctype.h`, space or tab. -/
def fy_is_blank (c : Int) : Bool :=
  decide (c = 0x20 ∨ c = 0x09)

/-- Modelled from the spec: `fy_is_z` of `fy-ctype.h`, NUL or a negative
decoder result (end of input). -/
def fy_is_z (c : Int) : Bool :=
  decide (c ≤ 0)

/-- Modelled from the spec: `fy_is_any_lb` of `fy-ctype.h`, the line breaks
CR, LF, NEL, LS and PS. -/
def fy_is_any_lb (c : Int) : Bool :=
  decide (c = 0x0d ∨ c = 0x0a ∨ c = 0x85 ∨ c = 0x2028 ∨ c = 0x2029)

/-- Modelled from the spec: `fy_is_uri` of `fy-ctype.h`, the URI characters:
alphanumerics and the characters of ";/?:@&=+$,.!~*'()[]%" (so '>' is not
one). -/
def fy_is_uri (c : Int) : Bool :=
  fy_is_alnum c ||
    fy_utf8_strchr [0x3b, 0x2f, 0x3f, 0x3a, 0x40, 0x26, 0x3d, 0x2b, 0x24, 0x2c, 0x2e,
      0x21, 0x7e, 0x2a, 0x27, 0x28, 0x29, 0x5b, 0x5d, 0x25] c

/-! ## fy-utf8.c: fy_utf8_parse_escape -/

/-- Reinterpretation of a 32-bit pattern as a C `int`. -/
def int32_of_bits (u : Nat) : Int :=
  if u % 2 ^ 32 < 2 ^ 31 then ((u % 2 ^ 32 : Nat) : Int) else ((u % 2 ^ 32 : Nat) : Int) - 2 ^ 32

/-- The hexadecimal loops of `fy_utf8_parse_escape`: `n` digits are still to
be read at offset `s` of `str`; `value` is the 32-bit pattern accumulated so
far. The result is `(completed, s, value)`; `completed = false` is the final
`else` branch, taken after `c = *s++` and `value <<= 4`. -/
def fy_utf8_parse_escape_hex : Nat → List Nat → Nat → Nat → Bool × Nat × Nat
  | 0, _, s, value => (true, s, value)
  | n + 1, str, s, value =>
    let c := str.getD s 0
    let s := s + 1
    let value := (value <<< 4) % 2 ^ 32
    if 0x30 ≤ c ∧ c ≤ 0x39 then
      fy_utf8_parse_escape_hex n str s (value ||| (c - 0x30))
    else if 0x61 ≤ c ∧ c ≤ 0x66 then
      fy_utf8_parse_escape_hex n str s (value ||| (10 + c - 0x61))
    else if 0x41 ≤ c ∧ c ≤ 0x46 then
      fy_utf8_parse_escape_hex n str s (value ||| (10 + c - 0x41))
    else (false, s, value)

/-- The first `switch` of `fy_utf8_parse_escape` (common YAML and JSON
escapes); `-1` when no case applies. -/
def fy_utf8_parse_escape_common (c : Nat) : Int :=
  if c = 0x62 then 0x08
  else if c = 0x66 then 0x0c
  else if c = 0x6e then 0x0a
  else if c = 0x72 then 0x0d
  else if c = 0x74 then 0x09
  else if c = 0x22 then 0x22
  else if c = 0x2f then 0x2f
  else if c = 0x5c then 0x5c
  else -1

/-- The second `switch` of `fy_utf8_parse_escape` (YAML-only escapes), entered
under `fyue_doublequote` and `fyue_doublequote_yaml_1_1`; `str` and `len` are
the arguments of the call, `c` is the byte after the backslash. -/
def fy_utf8_parse_escape_yaml (str : List Nat) (len : Nat) (esc : fy_utf8_escape)
    (c : Nat) : Int :=
  if c = 0x30 then 0x00
  else if c = 0x61 then 0x07
  else if c = 0x09 then 0x09
  else if c = 0x76 then 0x0b
  else if c = 0x65 then 0x1b
  else if c = 0x20 then 0x20
  else if c = 0x4e then 0x85
  else if c = 0x5f then 0xa0
  else if c = 0x4c then 0x2028
  else if c = 0x50 then 0x2029
  else if c ≥ 0x80 then
    if esc = fyue_doublequote then -1
    else
      let cc := (fy_utf8_get (str.drop 1) ((len : Int) - 1)).1
      if cc = 0x2028 ∨ cc = 0x2029 ∨ cc = 0x85 ∨ cc = 0xa0 then cc else -1
  else -1

/-- Embedding of `fy_utf8_parse_escape(strp, len, esc)`, with `str` the bytes
at `*strp`. The result is the returned `int` paired with the number of bytes
by which `*strp` has advanced (0 on the paths that return without storing
it). -/
def fy_utf8_parse_escape (str : List Nat) (len : Nat) (esc : fy_utf8_escape) : Int × Nat :=
  if esc = fyue_none then (-1, 0)
  else if len < 2 then (-1, 0)
  else if esc = fyue_singlequote then
    if str.getD 0 0 ≠ 0x27 then (-1, 1)
    else if str.getD 1 0 ≠ 0x27 then (-1, 2)
    else (0x27, 2)
  else if str.getD 0 0 ≠ 0x5c then (-1, 1)
  else
    let c := str.getD 1 0
    let value := fy_utf8_parse_escape_common c
    if value ≥ 0 then (value, 2)
    else
      let value :=
        if esc = fyue_doublequote ∨ esc = fyue_doublequote_yaml_1_1 then
          fy_utf8_parse_escape_yaml str len esc c
        else value
      if (esc = fyue_doublequote ∨ esc = fyue_doublequote_yaml_1_1) ∧ value ≥ 0 then (value, 2)
      else if (esc = fyue_doublequote ∨ esc = fyue_doublequote_yaml_1_1) ∧
          c ≠ 0x78 ∧ c ≠ 0x75 ∧ c ≠ 0x55 then (-1, 0)
      else
        let code_length : Nat :=
          if esc = fyue_doublequote ∨ esc = fyue_doublequote_yaml_1_1 then
            (if c = 0x78 then 2 else if c = 0x75 then 4 else 8)
          else if esc = fyue_doublequote_json ∧ c = 0x75 then 4
          else 0
        if code_length = 0 ∨ (code_length : Int) > (len : Int) - 2 then (value, 2)
        else
          match fy_utf8_parse_escape_hex code_length str 2 0 with
          | (false, s, value) => (int32_of_bits value, s)
          | (true, s, value) =>
            if code_length = 4 ∧ int32_of_bits value ≥ 0xd800 ∧ int32_of_bits value ≤ 0xdbff ∧
                (len : Int) - s ≥ 6 ∧ str.getD s 0 = 0x5c ∧ str.getD (s + 1) 0 = 0x75 then
              let hi_surrogate := value
              match fy_utf8_parse_escape_hex code_length str (s + 2) 0 with
              | (false, _, _) => (-1, 0)
              | (true, s, value) =>
                let lo_surrogate := value
                (int32_of_bits ((0x10000 + (hi_surrogate - 0xd800) * 0x400 +
                    (lo_surrogate + 2 ^ 32 - 0xdc00)) % 2 ^ 32), s)
            else (int32_of_bits value, s)

/-! ## fy-utils.c: tag scanning -/

/-- The `for (j = 0; j < 2; j++)` loop of `fy_tag_uri_is_valid`: `j` digits
are still to be read at cursor `s`; `w` is the width last stored by
`fy_utf8_get`, `octet` the `uint8_t` accumulator. `none` is the `return false`
inside the loop. -/
def fy_tag_uri_is_valid_hex : Nat → List Nat → Nat → Nat → Option (List Nat × Nat × Nat)
  | 0, s, w, octet => some (s, w, octet)
  | j + 1, s, _, octet =>
    let cw := fy_utf8_get s s.length
    let c := cw.1
    if !fy_is_hex c then none
    else
      let octet := (octet <<< 4) % 256
      let octet :=
        if 0x30 ≤ c ∧ c ≤ 0x39 then (octet ||| (c - 0x30).toNat) % 256
        else if 0x61 ≤ c ∧ c ≤ 0x66 then (octet ||| (10 + c - 0x61).toNat) % 256
        else (octet ||| (10 + c - 0x41).toNat) % 256
      fy_tag_uri_is_valid_hex j (s.drop cw.2) cw.2 octet

/-- The `do { ... } while (--width > 0)` loop of `fy_tag_uri_is_valid`, entered
with the cursor `s` on a '%' of width `w`. `esc_octets` is the four-byte
array, `k` its fill index. The result is `none` when the fuel runs out,
`some none` for `return false`, and `some (some (s, esc_octets, k))` when the
loop is left normally. -/
def fy_tag_uri_is_valid_escape :
    Nat → List Nat → Nat → Nat → Nat → List Nat → Option (Option (List Nat × List Nat × Nat))
  | 0, _, _, _, _, _ => none
  | fuel + 1, s, w, width, k, esc_octets =>
    if (s.length : Int) < 3 then some none
    else
      let cw := if width > 0 then fy_utf8_get s s.length else (0x25, w)
      if cw.1 ≠ 0x25 then some none
      else
        let s := s.drop cw.2
        match fy_tag_uri_is_valid_hex 2 s cw.2 0 with
        | none => some none
        | some (s, w, octet) =>
          let first := decide (width = 0)
          let width := if first then fy_utf8_width_by_first_octet octet else width
          if first ∧ (width < 1 ∨ width > 4) then some none
          else
            let k := if first then 0 else k
            let esc_octets := esc_octets.set k octet
            let k := k + 1
            let width := width - 1
            if width > 0 then fy_tag_uri_is_valid_escape fuel s w width k esc_octets
            else some (some (s, esc_octets, k))

/-- The outer `while` loop of `fy_tag_uri_is_valid` at cursor `s`; `none`
when the fuel runs out. -/
def fy_tag_uri_is_valid_loop : Nat → List Nat → Option Bool
  | 0, _ => none
  | fuel + 1, s =>
    let cw := fy_utf8_get s s.length
    if cw.1 ≥ 0 then
      if cw.1 ≠ 0x25 then fy_tag_uri_is_valid_loop fuel (s.drop cw.2)
      else
        match fy_tag_uri_is_valid_escape 4 s cw.2 0 0 [0, 0, 0, 0] with
        | none => none
        | some none => some false
        | some (some (s, esc_octets, k)) =>
          if (fy_utf8_get esc_octets k).1 < 0 then some false
          else fy_tag_uri_is_valid_loop fuel s
    else some true

/-- Embedding of `fy_tag_uri_is_valid(data, len)`, with `data` the `len` bytes
of the buffer. -/
def fy_tag_uri_is_valid (data : List Nat) : Option Bool :=
  fy_tag_uri_is_valid_loop (data.length + 1) data

/-- The `while (fy_is_alnum(c = fy_utf8_get(s, e - s, &w)))` loop of
`fy_tag_handle_length`, followed by the `if (c == '!') s += w;` after it. The
result is the final cursor. -/
def fy_tag_handle_length_loop : Nat → List Nat → Option (List Nat)
  | 0, _ => none
  | fuel + 1, s =>
    let cw := fy_utf8_get s s.length
    if fy_is_alnum cw.1 then fy_tag_handle_length_loop fuel (s.drop cw.2)
    else if cw.1 = 0x21 then some (s.drop cw.2)
    else some s

/-- Embedding of `fy_tag_handle_length(data, len)`, with `data` the `len` bytes
of the buffer. -/
def fy_tag_handle_length (data : List Nat) : Option Int :=
  let cw := fy_utf8_get data data.length
  if cw.1 ≠ 0x21 then some (-1)
  else
    let s := data.drop cw.2
    let cw := fy_utf8_get s s.length
    if fy_is_ws cw.1 then some ((data.length : Int) - s.length)
    else if cw.1 = 0x21 then some ((data.length : Int) - (s.drop cw.2).length)
    else if !fy_is_first_alpha cw.1 then some (-1)
    else
      match fy_tag_handle_length_loop (data.length + 1) (s.drop cw.2) with
      | none => none
      | some s => some ((data.length : Int) - s.length)

/-- The `while (fy_is_uri(c = fy_utf8_get(s, e - s, &w)))` loop of
`fy_tag_uri_length`. The result is the final cursor. -/
def fy_tag_uri_length_loop : Nat → List Nat → Option (List Nat)
  | 0, _ => none
  | fuel + 1, s =>
    let cw := fy_utf8_get s s.length
    if fy_is_uri cw.1 then
      let cn := (fy_utf8_get (s.drop cw.2) ((s.length : Int) - cw.2)).1
      if (fy_is_z cn || fy_is_blank cn || fy_is_any_lb cn) &&
          fy_utf8_strchr [0x2c, 0x7d, 0x5d] cw.1 then some s
      else fy_tag_uri_length_loop fuel (s.drop cw.2)
    else some s

/-- Embedding of `fy_tag_uri_length(data, len)`, with `data` the `len` bytes
of the buffer. -/
def fy_tag_uri_length (data : List Nat) : Option Int :=
  match fy_tag_uri_length_loop (data.length + 1) data with
  | none => none
  | some s =>
    let uri_length : Int := (data.length : Int) - s.length
    match fy_tag_uri_is_valid (data.take uri_length.toNat) with
    | none => none
    | some valid => if !valid then some (-1) else some uri_length

/-- The record `struct fy_tag_scan_info` filled by `fy_tag_scan`. -/
structure fy_tag_scan_info where
  total_length : Int
  handle_length : Int
  uri_length : Int
  prefix_length : Int
  suffix_length : Int
  deriving DecidableEq, Repr

/-- Embedding of `fy_tag_scan(data, len, info)`, with `data` the `len` bytes of
the buffer. The result is the returned `int` paired with the contents of
`*info` after the call (unchanged when -1 is returned). -/
def fy_tag_scan (data : List Nat) (info : fy_tag_scan_info) : Option (Int × fy_tag_scan_info) :=
  let cw := fy_utf8_get data data.length
  if cw.1 ≠ 0x21 then some (-1, info)
  else
    let cn := (fy_utf8_get (data.drop cw.2) ((data.length : Int) - cw.2)).1
    let prefix_length : Int := if cn = 0x3c then 2 else 0
    let suffix_length : Int := if cn = 0x3c then 1 else 0
    let handle := if prefix_length ≠ 0 then some (0 : Int) else fy_tag_handle_length data
    match handle with
    | none => none
    | some handle_length =>
      if prefix_length = 0 ∧ handle_length ≤ 0 then some (-1, info)
      else
        let s := data.drop (if prefix_length ≠ 0 then prefix_length else handle_length).toNat
        match fy_tag_uri_length s with
        | none => none
        | some uri_length =>
          if uri_length < 0 then some (-1, info)
          else
            let adjust := decide (prefix_length = 0 ∧
              (handle_length = 0 ∨ data.getD (handle_length - 1).toNat 0 ≠ 0x21))
            let special := decide (handle_length = 1 ∧ uri_length = 0)
            let handle_length' : Int := if adjust then (if special then 0 else 1) else handle_length
            let uri_length' : Int :=
              if adjust then (if special then 1 else handle_length - 1 + uri_length)
              else uri_length
            let total_length := prefix_length + handle_length' + uri_length' + suffix_length
            if total_length ≠ (data.length : Int) then some (-1, info)
            else some (0, ⟨total_length, handle_length', uri_length', prefix_length, suffix_length⟩)

/-! ## fy-walk.h: expression kinds -/

/-- The enumerators of `enum fy_path_expr_type`, in declaration order. -/
def fpet_none : Int := 0
def fpet_root : Int := 1
def fpet_this : Int := 2
def fpet_parent : Int := 3
def fpet_every_child : Int := 4
def fpet_every_child_r : Int := 5
def fpet_filter_collection : Int := 6
def fpet_filter_scalar : Int := 7
def fpet_filter_sequence : Int := 8
def fpet_filter_mapping : Int := 9
def fpet_seq_index : Int := 10
def fpet_map_key : Int := 11
def fpet_seq_slice : Int := 12
def fpet_alias : Int := 13
def fpet_multi : Int := 14
def fpet_chain : Int := 15
def fpet_logical_or : Int := 16
def fpet_logical_and : Int := 17

/-- Embedding of `fy_path_expr_type_is_valid`. -/
def fy_path_expr_type_is_valid (type : Int) : Bool :=
  decide (type ≥ fpet_root ∧ type ≤ fpet_logical_and)

/-- Embedding of `fy_path_expr_type_is_single_result`. -/
def fy_path_expr_type_is_single_result (type : Int) : Bool :=
  decide (type = fpet_root ∨
    type = fpet_this ∨
    type = fpet_parent ∨
    type = fpet_map_key ∨
    type = fpet_seq_index ∨
    type = fpet_alias ∨
    type = fpet_filter_collection ∨
    type = fpet_filter_scalar ∨
    type = fpet_filter_sequence ∨
    type = fpet_filter_mapping)

/-- Embedding of `fy_path_expr_type_is_parent`. -/
def fy_path_expr_type_is_parent (type : Int) : Bool :=
  decide (type = fpet_multi ∨
    type = fpet_chain ∨
    type = fpet_logical_or ∨
    type = fpet_logical_and)

/-! ## Reference notions used to state the malformed-input claims -/

/-- A continuation byte, 10xxxxxx. -/
def utf8_is_cont (b : Nat) : Prop :=
  0x80 ≤ b ∧ b < 0xC0

/-- The width a lead byte announces, by value range: 0 for a continuation
byte and for 0xF8 and above. -/
def utf8_lead_width (b : Nat) : Nat :=
  if b < 0x80 then 1 else if b < 0xC0 then 0 else if b < 0xE0 then 2
  else if b < 0xF0 then 3 else if b < 0xF8 then 4 else 0

/-- The value spelled by the payload bits of the sequence that starts the
buffer: the low bits of the lead byte followed by six bits of each of the
bytes after it. -/
def utf8_payload (p : List Nat) : Nat :=
  match utf8_lead_width (p.getD 0 0) with
  | 1 => p.getD 0 0 % 128
  | 2 => (p.getD 0 0 % 32) * 64 + p.getD 1 0 % 64
  | 3 => ((p.getD 0 0 % 16) * 64 + p.getD 1 0 % 64) * 64 + p.getD 2 0 % 64
  | 4 => (((p.getD 0 0 % 8) * 64 + p.getD 1 0 % 64) * 64 + p.getD 2 0 % 64) * 64 + p.getD 3 0 % 64
  | _ => 0

/-- The malformed starts of a buffer of which `left` bytes are readable: a
continuation byte or a byte from 0xF8 up in first position; a lead byte whose
sequence fits in `left` and has a non-continuation byte after the lead; a
sequence that fits in `left` and spells an overlong value, a surrogate, or a
value from 0x110000 up. -/
def utf8_malformed (p : List Nat) (left : Int) : Prop :=
  utf8_is_cont (p.getD 0 0) ∨ 0xF8 ≤ p.getD 0 0 ∨
  ((utf8_lead_width (p.getD 0 0) : Int) ≤ left ∧
    ∃ i, 1 ≤ i ∧ i < utf8_lead_width (p.getD 0 0) ∧ ¬ utf8_is_cont (p.getD i 0)) ∨
  ((utf8_lead_width (p.getD 0 0) : Int) ≤ left ∧
    ((utf8_lead_width (p.getD 0 0) = 2 ∧ utf8_payload p < 0x80) ∨
     (utf8_lead_width (p.getD 0 0) = 3 ∧ utf8_payload p < 0x800) ∨
     (utf8_lead_width (p.getD 0 0) = 4 ∧ utf8_payload p < 0x10000) ∨
     (0xD800 ≤ utf8_payload p ∧ utf8_payload p ≤ 0xDFFF) ∨
     0x110000 ≤ utf8_payload p))

/-! ## Reference notions used to state the percent-escape claims -/

/-- The value of a hexadecimal digit, upper or lower case; `none` for any
other byte. -/
def hex_digit_value (h : Nat) : Option Nat :=
  if 0x30 ≤ h ∧ h ≤ 0x39 then some (h - 0x30)
  else if 0x61 ≤ h ∧ h ≤ 0x66 then some (h - 0x61 + 10)
  else if 0x41 ≤ h ∧ h ≤ 0x46 then some (h - 0x41 + 10)
  else none

/-- The text `text` writes each byte of `B` as '%' followed by the two
hexadecimal digits of the byte, each digit in either case. -/
def is_percent_encoding : List Nat → List Nat → Bool
  | [], [] => true
  | p :: h1 :: h2 :: text, b :: B =>
    p == 0x25 && hex_digit_value h1 == some (b / 16) && hex_digit_value h2 == some (b % 16) &&
      is_percent_encoding text B
  | _, _ => false

/-- The buffer starts with two hexadecimal digits. -/
def starts_with_two_hex : List Nat → Bool
  | h1 :: h2 :: _ => (hex_digit_value h1).isSome && (hex_digit_value h2).isSome
  | _ => false

/-- The buffer contains a '%' that is not immediately followed by two
hexadecimal digits. -/
def has_bad_percent : List Nat → Bool
  | [] => false
  | b :: rest => (b == 0x25 && !starts_with_two_hex rest) || has_bad_percent rest

/-- The four-byte array `esc_octets` after the bytes `bs` have been stored in
it from index `k` on (auxiliary, used to describe the escape loop). -/
def store_octets (octs : List Nat) (k : Nat) : List Nat → List Nat
  | [] => octs
  | b :: bs => store_octets (octs.set k b) (k + 1) bs

/-! ## fy-utf8.h, libfyaml.h: further declarations used by the sources -/

/-- Modelled from the spec: `fy_utf8_is_valid` of `fy-utf8.h` accepts the valid
code points: not negative, not a surrogate, below 0x110000. -/
def fy_utf8_is_valid (c : Int) : Bool :=
  decide (c ≥ 0 ∧ ¬ ((c ≥ 0xd800 ∧ c ≤ 0xdfff) ∨ c ≥ 0x110000))

/-- Modelled from the spec: `fy_utf8_put_unchecked` of `fy-utf8.h` stores the
UTF-8 encoding of the code point `c`; the result is the bytes stored. -/
def fy_utf8_put_unchecked (c : Int) : List Nat :=
  utf8_encode c.toNat

/-- Modelled from the spec: `fy_utf8_escape_is_any_doublequote` of `libfyaml.h`
holds for the three double-quote policies. -/
def fy_utf8_escape_is_any_doublequote (esc : fy_utf8_escape) : Bool :=
  decide (esc = fyue_doublequote ∨ esc = fyue_doublequote_json ∨
    esc = fyue_doublequote_yaml_1_1)

/-! ## fy-utf8.c: escape map and formatting -/

/-- The record `struct fy_utf8_fmt_esc_map`: two parallel arrays. -/
structure fy_utf8_fmt_esc_map where
  ch : List Int
  map : List Int

/-- The table `esc_all`: the code points that have an escape, ended by -1, and
their escape letters, ended by 0. -/
def esc_all : fy_utf8_fmt_esc_map where
  ch := [0x5c, 0x00, 0x08, 0x0d, 0x09, 0x0c, 0x0a, 0x0b, 0x07, 0x1b, 0x85, 0xa0, 0x2028,
    0x2029, -1]
  map := [0x5c, 0x30, 0x62, 0x72, 0x74, 0x66, 0x6e, 0x76, 0x61, 0x65, 0x4e, 0x5f, 0x4c,
    0x50, 0]

/-- The `while ((cc = *ch++) >= 0)` loop of `esc_map`: `ch` is the rest of the
array still to be read, `i` the index of its first entry. -/
def esc_map_loop (esc_map : fy_utf8_fmt_esc_map) (c : Int) : List Int → Nat → Int
  | [], _ => -1
  | cc :: ch, i =>
    if cc ≥ 0 then
      if cc = c then esc_map.map.getD i 0
      else esc_map_loop esc_map c ch (i + 1)
    else -1

/-- Embedding of `esc_map(esc_map, c)`. -/
def esc_map (esc_map : fy_utf8_fmt_esc_map) (c : Int) : Int :=
  esc_map_loop esc_map c esc_map.ch 0

/-- Embedding of `fy_utf8_esc_map(c, esc)`. -/
def fy_utf8_esc_map (c : Int) (esc : fy_utf8_escape) : Int :=
  if esc = fyue_none then -1
  else if esc = fyue_singlequote ∧ c = 0x27 then 0x27
  else if fy_utf8_escape_is_any_doublequote esc = true ∧ c = 0x22 then 0x22
  else esc_map esc_all c

/-- The `while (s < e)` loop of `fy_utf8_format_text_length` at cursor `s`
with running length `l`; the result is the final `l`. -/
def fy_utf8_format_text_length_loop (esc : fy_utf8_escape) : Nat → List Nat → Int → Option Int
  | 0, _, _ => none
  | fuel + 1, s, l =>
    if s.length > 0 then
      let cw := fy_utf8_get s s.length
      if cw.2 = 0 ∨ cw.1 < 0 then some l
      else
        let w : Int := if fy_utf8_esc_map cw.1 esc ≠ 0 then 2 else cw.2
        fy_utf8_format_text_length_loop esc fuel (s.drop cw.2) (l + w)
    else some l

/-- Embedding of `fy_utf8_format_text_length(buf, len, esc)`, with `buf` the
`len` bytes of the text. -/
def fy_utf8_format_text_length (buf : List Nat) (esc : fy_utf8_escape) : Option Int :=
  match fy_utf8_format_text_length_loop esc (buf.length + 1) buf 0 with
  | none => none
  | some l => some (l + 1)

/-- The `while (s < e)` loop of `fy_utf8_format_text` at cursor `s`; `out` is
the output written so far (`os - out` is its length) and `maxsz` the size of
the output buffer. The result is the output when the loop is left. -/
def fy_utf8_format_text_loop (maxsz : Int) (esc : fy_utf8_escape) :
    Nat → List Nat → List Nat → Option (List Nat)
  | 0, _, _ => none
  | fuel + 1, s, out =>
    if s.length > 0 then
      let cw := fy_utf8_get s s.length
      if cw.2 = 0 ∨ cw.1 < 0 then some out
      else
        let cc := fy_utf8_esc_map cw.1 esc
        if cc > 0 then
          if (out.length : Int) + 2 > maxsz - 1 then some out
          else fy_utf8_format_text_loop maxsz esc fuel (s.drop cw.2)
            (out ++ [0x5c, (cc % 256).toNat])
        else if (out.length : Int) + cw.2 > maxsz - 1 then some out
        else fy_utf8_format_text_loop maxsz esc fuel (s.drop cw.2)
          (out ++ fy_utf8_put_unchecked cw.1)
    else some out

/-- Embedding of `fy_utf8_format_text(buf, len, out, maxsz, esc)`, with `buf`
the `len` bytes of the text. The result is the bytes stored in `out` before
the terminating NUL. -/
def fy_utf8_format_text (buf : List Nat) (maxsz : Int) (esc : fy_utf8_escape) :
    Option (List Nat) :=
  fy_utf8_format_text_loop maxsz esc (buf.length + 1) buf []

/-- Embedding of `fy_utf8_format(c, buf, esc)`: the bytes stored in `buf` before
the terminating NUL. -/
def fy_utf8_format (c : Int) (esc : fy_utf8_escape) : List Nat :=
  if !fy_utf8_is_valid c then []
  else
    let cc := fy_utf8_esc_map c esc
    if cc > 0 then [0x5c, (cc % 256).toNat]
    else fy_utf8_put_unchecked c

/-- Embedding of `fy_utf8_format_text_alloc(buf, len, esc)` with `malloc`
succeeding: `some none` is the NULL return, `some (some out)` the bytes of
the allocated string before its terminating NUL. -/
def fy_utf8_format_text_alloc (buf : List Nat) (esc : fy_utf8_escape) :
    Option (Option (List Nat)) :=
  match fy_utf8_format_text_length buf esc with
  | none => none
  | some outsz =>
    if outsz < 0 then some none
    else
      match fy_utf8_format_text buf outsz esc with
      | none => none
      | some out => some (some out)

/-! ## fy-utf8.c: fy_utf8_get_right_generic -/

/-- The `while (p >= s && (e - p) <= 4)` loop of `fy_utf8_get_right_generic`
on the buffer `ptr` of `left` bytes: `k` is `e - p`, the first argument bounds
the number of iterations left (the loop makes at most four). -/
def fy_utf8_get_right_generic_loop (ptr : List Nat) (left : Nat) : Nat → Nat → Int × Nat
  | 0, _ => (FYUG_PARTIAL, 0)
  | n + 1, k =>
    if k ≤ left ∧ k ≤ 4 then
      if ptr.getD (left - k) 0 &&& 0xc0 ≠ 0x80 then
        fy_utf8_get (ptr.drop (left - k)) k
      else fy_utf8_get_right_generic_loop ptr left n (k + 1)
    else (FYUG_PARTIAL, 0)

/-- Embedding of `fy_utf8_get_right_generic(ptr, left, widthp)`; the result is
the returned `int` paired with the value stored through `widthp` (0 when
nothing is stored). -/
def fy_utf8_get_right_generic (ptr : List Nat) (left : Int) : Int × Nat :=
  if left < 1 then (FYUG_EOF, 0)
  else fy_utf8_get_right_generic_loop ptr left.toNat 5 1

/-! ## fy-utils.c: memstream -/

/-- The record `struct memstream` (the fields `ptr` and `sizeloc` only mirror
`contents` and `size` for the caller and are left out). The `size_t` fields
hold values below 2^64. -/
structure memstream where
  position : Nat
  size : Nat
  capacity : Nat
  contents : List Nat
  deriving DecidableEq, Repr

/-- Reinterpretation of a 64-bit pattern as an `fpos_t` (a signed 64-bit
integer). -/
def int64_of_bits (u : Nat) : Int :=
  if u % 2 ^ 64 < 2 ^ 63 then ((u % 2 ^ 64 : Nat) : Int) else ((u % 2 ^ 64 : Nat) : Int) - 2 ^ 64

/-- Conversion of an integer to `size_t`: its 64-bit pattern. -/
def size_of_int (i : Int) : Nat := (i % 2 ^ 64).toNat

/-- The `while (newcap <= minsize + 1) newcap *= 2;` loop of `memstream_grow`,
in `size_t` arithmetic. After 64 doublings `newcap` is 0 and the loop no longer
ends, so 66 rounds of fuel decide it: `none` is the loop that never ends. -/
def memstream_grow_loop : Nat → Nat → Nat → Option Nat
  | 0, _, _ => none
  | fuel + 1, newcap, minsize =>
    if newcap ≤ (minsize + 1) % 2 ^ 64 then
      memstream_grow_loop fuel (newcap * 2 % 2 ^ 64) minsize
    else some newcap

/-- Embedding of `memstream_grow(ms, minsize)` with `realloc` succeeding (the
return value is then 0): the old bytes are kept and the added ones zeroed. -/
def memstream_grow (ms : memstream) (minsize : Nat) : Option memstream :=
  match memstream_grow_loop 66 (ms.capacity * 2 % 2 ^ 64) minsize with
  | none => none
  | some newcap =>
    some { ms with
      contents := ms.contents.take newcap ++ List.replicate (newcap - ms.capacity) 0
      capacity := newcap }

/-- The effect of `memcpy(dst + pos, buf, count)` on the bytes `dst`. -/
def memcpy_at (dst : List Nat) (pos : Nat) (buf : List Nat) : List Nat :=
  dst.take pos ++ buf ++ dst.drop (pos + buf.length)

/-- Embedding of `memstream_read(cookie, buf, count)`: the returned `int`, the
bytes copied into `buf`, and the stream afterwards. -/
def memstream_read (ms : memstream) (count : Nat) : Int × List Nat × memstream :=
  let n := min ((ms.size + 2 ^ 64 - ms.position) % 2 ^ 64) count
  if n < 1 then (0, [], ms)
  else ((n : Int), ms.contents.take n, { ms with position := (ms.position + n) % 2 ^ 64 })

/-- Embedding of `memstream_write(cookie, buf, count)` with `buf` the `count`
bytes written and every reallocation succeeding: the returned `int` and the
stream afterwards (`none` when `memstream_grow` does not return). -/
def memstream_write (ms : memstream) (buf : List Nat) : Option (Int × memstream) :=
  let grown :=
    if ms.capacity ≤ (ms.position + buf.length) % 2 ^ 64 then
      memstream_grow ms ((ms.position + buf.length) % 2 ^ 64)
    else some ms
  match grown with
  | none => none
  | some ms =>
    let contents := memcpy_at ms.contents ms.position buf
    let position := (ms.position + buf.length) % 2 ^ 64
    let contents := contents.set position 0
    some ((buf.length : Int),
      { ms with
        contents := contents
        position := position
        size := if ms.size < position then position else ms.size })

/-- The position computed by the `switch (whence)` of `memstream_seek`
(`SEEK_SET` = 0, `SEEK_CUR` = 1, `SEEK_END` = 2), the sum being made in
`size_t` and stored in the `fpos_t`; `none` for any other `whence`. -/
def memstream_seek_pos (ms : memstream) (offset : Int) (whence : Int) : Option Int :=
  if whence = 0 then some offset
  else if whence = 1 then some (int64_of_bits (size_of_int ((ms.position : Int) + offset)))
  else if whence = 2 then some (int64_of_bits (size_of_int ((ms.size : Int) + offset)))
  else none

/-- Embedding of `memstream_seek(cookie, offset, whence)` with every
reallocation succeeding: the returned `fpos_t` and the stream afterwards
(`none` when `memstream_grow` does not return). -/
def memstream_seek (ms : memstream) (offset : Int) (whence : Int) : Option (Int × memstream) :=
  match memstream_seek_pos ms offset whence with
  | none => some (-1, ms)
  | some pos =>
    let grown :=
      if pos ≥ int64_of_bits ms.capacity then memstream_grow ms (size_of_int pos)
      else some ms
    match grown with
    | none => none
    | some ms =>
      let position := size_of_int pos
      some (pos,
        { ms with
          position := position
          size := if ms.size < position then position else ms.size })

/-- The stream state created by `open_memstream`. -/
def open_memstream : memstream where
  position := 0
  size := 0
  capacity := 4096
  contents := List.replicate 4096 0

/-- A call made on the stream: a write of the given bytes or a seek. -/
inductive memstream_op
  | write (buf : List Nat)
  | seek (offset : Int) (whence : Int)

/-- The stream after one call. -/
def memstream_apply (ms : memstream) : memstream_op → Option memstream
  | .write buf => (memstream_write ms buf).map Prod.snd
  | .seek offset whence => (memstream_seek ms offset whence).map Prod.snd

/-- The stream after a sequence of calls. -/
def memstream_run : memstream → List memstream_op → Option memstream
  | ms, [] => some ms
  | ms, op :: ops =>
    match memstream_apply ms op with
    | none => none
    | some ms' => memstream_run ms' ops

/-- The call is one the stream can receive: a write whose `count` is a
non-negative `int`, or a seek whose offset is an `fpos_t` and whose resulting
position is non-negative. -/
def memstream_op_valid (ms : memstream) : memstream_op → Bool
  | .write buf => decide (buf.length < 2 ^ 31)
  | .seek offset whence =>
    decide (-2 ^ 63 ≤ offset ∧ offset < 2 ^ 63) &&
      match memstream_seek_pos ms offset whence with
      | some pos => decide (0 ≤ pos)
      | none => true

/-- The position the call asks for: the end of the bytes written, or the
position sought. -/
def memstream_op_target (ms : memstream) : memstream_op → Int
  | .write buf => (ms.position : Int) + buf.length
  | .seek offset whence =>
    match memstream_seek_pos ms offset whence with
    | some pos => pos
    | none => ms.position

/-- The test `p` holds of every call of the sequence, in the state the call is
made in. -/
def memstream_calls_all (p : memstream → memstream_op → Bool) :
    memstream → List memstream_op → Bool
  | _, [] => true
  | ms, op :: ops =>
    p ms op &&
      match memstream_apply ms op with
      | some ms' => memstream_calls_all p ms' ops
      | none => true

/-- Every call of the sequence, made from `ms` on, is a write or a seek whose
resulting position is non-negative. -/
def memstream_seeks_non_negative (ms : memstream) (ops : List memstream_op) : Bool :=
  memstream_calls_all memstream_op_valid ms ops

/-- Every call of the sequence, made from `ms` on, asks for a position that
leaves the capacity needed below `bound`. -/
def memstream_calls_below (bound : Int) (ms : memstream) (ops : List memstream_op) : Bool :=
  memstream_calls_all (fun ms op => decide (memstream_op_target ms op + 1 < bound)) ms ops

/-- The state invariant of the stream: the position is within the data, a byte
is left after the data, and every byte from `size` on is zero. -/
def memstream_invariant (ms : memstream) : Prop :=
  ms.position ≤ ms.size ∧ ms.size < ms.capacity ∧ ms.contents.length = ms.capacity ∧
    ∀ i, ms.size ≤ i → i < ms.capacity → ms.contents.getD i 1 = 0

/-- The capacity is a power of two, at most 2^K. -/
def memstream_capacity_pow (K : Nat) (ms : memstream) : Prop :=
  ∃ k, k ≤ K ∧ ms.capacity = 2 ^ k

/-! ## Reference notions used to state the formatting and escape claims -/

/-- The escape table of the claims: the code points that have an escape
letter, with that letter (backslash, NUL, BS, CR, TAB, FF, LF, VT, BEL, ESC,
0x85, 0xA0, 0x2028, 0x2029). -/
def escape_table : List (Int × Nat) :=
  [(0x5c, 0x5c), (0x00, 0x30), (0x08, 0x62), (0x0d, 0x72), (0x09, 0x74), (0x0c, 0x66),
   (0x0a, 0x6e), (0x0b, 0x76), (0x07, 0x61), (0x1b, 0x65), (0x85, 0x4e), (0xa0, 0x5f),
   (0x2028, 0x4c), (0x2029, 0x50)]

/-- The quote character of an escape policy: the single quote under
`fyue_singlequote`, the double quote under the double-quote policies. -/
def escape_own_quote : fy_utf8_escape → Option Int
  | fyue_none => none
  | fyue_singlequote => some 0x27
  | fyue_doublequote => some 0x22
  | fyue_doublequote_json => some 0x22
  | fyue_doublequote_yaml_1_1 => some 0x22

/-- The number spelled by a string of hexadecimal digits (either case) read
after the value `acc`; `none` when a byte is not a hexadecimal digit. -/
def hex_string_value_from (acc : Nat) : List Nat → Option Nat
  | [] => some acc
  | d :: ds =>
    match hex_digit_value d with
    | some v => hex_string_value_from (acc * 16 + v) ds
    | none => none

/-- The number spelled by a string of hexadecimal digits. -/
def hex_string_value (digits : List Nat) : Option Nat :=
  hex_string_value_from 0 digits

/-! ## The executor (fy-walk.h declares `fy_path_expr_execute` only) -/

/-- Modelled from the spec: the runtime failures of the executor (section 7),
distinct from an empty result. -/
inductive exec_error
  | unresolved_alias
  | depth_exceeded
  deriving DecidableEq, Repr

/-- Modelled from the spec: an expression node (section 3): its kind, one of
the enumerators of `enum fy_path_expr_type`, its ordered children, and the
token retained from parsing (`struct fy_path_expr` of `fy-walk.h`). -/
inductive fy_path_expr (τ : Type) where
  | mk (type : Int) (children : List (fy_path_expr τ)) (fyt : τ) : fy_path_expr τ

/-- Modelled from the spec: multi (section 4.3) evaluates each child against
the same input and concatenates the children's results in child order. -/
def exec_multi {ν ε : Type} (eval : ε → List ν → Except exec_error (List ν)) :
    List ε → List ν → Except exec_error (List ν)
  | [], _ => .ok []
  | c :: cs, input =>
    match eval c input with
    | .error e => .error e
    | .ok r =>
      match exec_multi eval cs input with
      | .error e => .error e
      | .ok rs => .ok (r ++ rs)

/-- Modelled from the spec: chain (section 4.3) feeds the output of each child
to the next one; the last child's output is the result. -/
def exec_chain {ν ε : Type} (eval : ε → List ν → Except exec_error (List ν)) :
    List ε → List ν → Except exec_error (List ν)
  | [], input => .ok input
  | c :: cs, input =>
    match eval c input with
    | .error e => .error e
    | .ok r => exec_chain eval cs r

/-- Modelled from the spec: logical-or (section 4.3) evaluates the children
left to right and returns the first result that is non-empty; the result is
empty when all are. -/
def exec_logical_or {ν ε : Type} (eval : ε → List ν → Except exec_error (List ν)) :
    List ε → List ν → Except exec_error (List ν)
  | [], _ => .ok []
  | c :: cs, input =>
    match eval c input with
    | .error e => .error e
    | .ok r => if r.isEmpty then exec_logical_or eval cs input else .ok r

/-- Modelled from the spec: logical-and (section 4.3) evaluates the children
left to right; the result is empty as soon as a child's result is, and the
last child's result otherwise. -/
def exec_logical_and {ν ε : Type} (eval : ε → List ν → Except exec_error (List ν)) :
    List ε → List ν → Except exec_error (List ν)
  | [], _ => .ok []
  | [c], input => eval c input
  | c :: c' :: cs, input =>
    match eval c input with
    | .error e => .error e
    | .ok r => if r.isEmpty then .ok [] else exec_logical_and eval (c' :: cs) input

/-- Modelled from the spec: `fy_path_expr_execute` is declared in `fy-walk.h`
and defined outside the sources; section 4.3 gives it as `eval(node, input)`.
`leaf` is the evaluation of the leaf kinds, which rests on the document-tree
collaborator; `depth` is the configured recursion limit still available, and
running out of it is the error `depth_exceeded`. -/
def fy_path_expr_execute {ν τ : Type}
    (leaf : Int → τ → List ν → Except exec_error (List ν)) :
    Nat → fy_path_expr τ → List ν → Except exec_error (List ν)
  | 0, _, _ => .error exec_error.depth_exceeded
  | depth + 1, fy_path_expr.mk type children fyt, input =>
    if type = fpet_multi then exec_multi (fy_path_expr_execute leaf depth) children input
    else if type = fpet_chain then exec_chain (fy_path_expr_execute leaf depth) children input
    else if type = fpet_logical_or then
      exec_logical_or (fy_path_expr_execute leaf depth) children input
    else if type = fpet_logical_and then
      exec_logical_and (fy_path_expr_execute leaf depth) children input
    else leaf type fyt input

end Cfyaml

/-! ## Bit-level facts used by the decoder -/

namespace Cfyaml

set_option maxRecDepth 100000 in
theorem width_by_first_octet_eq (b : Nat) (hb : b < 256) :
    fy_utf8_width_by_first_octet b =
      if b < 0x80 then 1 else if b < 0xC0 then 0 else if b < 0xE0 then 2
      else if b < 0xF0 then 3 else if b < 0xF8 then 4 else 0 := by
  revert b
  decide

set_option maxRecDepth 100000 in
theorem and_c0_eq_80_iff (b : Nat) (hb : b < 256) :
    (b &&& 0xc0 = 0x80) ↔ (0x80 ≤ b ∧ b < 0xC0) := by
  revert b
  decide

set_option maxRecDepth 100000 in
theorem and_80_eq_zero_iff (b : Nat) (hb : b < 256) :
    (b &&& 0x80 = 0) ↔ b < 0x80 := by
  revert b
  decide

theorem and_3f (b : Nat) : b &&& 0x3f = b % 64 := Nat.and_pow_two_sub_one_eq_mod b 6

theorem and_1f (b : Nat) : b &&& 0x1f = b % 32 := Nat.and_pow_two_sub_one_eq_mod b 5

theorem and_0f (b : Nat) : b &&& 0x0f = b % 16 := Nat.and_pow_two_sub_one_eq_mod b 4

theorem and_07 (b : Nat) : b &&& 0x07 = b % 8 := Nat.and_pow_two_sub_one_eq_mod b 3

theorem and_7f (b : Nat) : b &&& 0x7f = b % 128 := Nat.and_pow_two_sub_one_eq_mod b 7

theorem shl6_or (v b : Nat) : (v <<< 6) ||| (b % 64) = v * 64 + b % 64 := by
  have h : b % 64 < 2 ^ 6 := by omega
  rw [Nat.shiftLeft_eq, Nat.mul_comm v, ← Nat.mul_add_lt_is_or h v]

/-- One step of the continuation loop, in arithmetic form. -/
theorem get_generic_loop_cons (b : Nat) (hb : b < 256) (t : List Nat) (n v : Nat) :
    fy_utf8_get_generic_loop (b :: t) (n + 1) v =
      if 0x80 ≤ b ∧ b < 0xC0 then fy_utf8_get_generic_loop t n (v * 64 + b % 64) else none := by
  simp only [fy_utf8_get_generic_loop, List.headD_cons, List.tail_cons, and_3f, shl6_or]
  by_cases h : 0x80 ≤ b ∧ b < 0xC0
  · have := (and_c0_eq_80_iff b hb).2 h
    simp [this, h]
  · have : ¬ (b &&& 0xc0 = 0x80) := fun e => h ((and_c0_eq_80_iff b hb).1 e)
    simp [this, h]

theorem get_generic_loop_zero (p : List Nat) (v : Nat) :
    fy_utf8_get_generic_loop p 0 v = some v := by
  unfold fy_utf8_get_generic_loop; rfl

theorem get_generic_loop_one (b : Nat) (hb : b < 256) (t : List Nat) (v : Nat) :
    fy_utf8_get_generic_loop (b :: t) 1 v =
      if 0x80 ≤ b ∧ b < 0xC0 then some (v * 64 + b % 64) else none := by
  rw [get_generic_loop_cons b hb t 0 v, get_generic_loop_zero]

theorem get_generic_loop_two (b : Nat) (hb : b < 256) (t : List Nat) (v : Nat) :
    fy_utf8_get_generic_loop (b :: t) 2 v =
      if 0x80 ≤ b ∧ b < 0xC0 then fy_utf8_get_generic_loop t 1 (v * 64 + b % 64) else none :=
  get_generic_loop_cons b hb t 1 v

theorem get_generic_loop_three (b : Nat) (hb : b < 256) (t : List Nat) (v : Nat) :
    fy_utf8_get_generic_loop (b :: t) 3 v =
      if 0x80 ≤ b ∧ b < 0xC0 then fy_utf8_get_generic_loop t 2 (v * 64 + b % 64) else none :=
  get_generic_loop_cons b hb t 2 v

/-- The decoder on a one-byte (ASCII) lead: the mask `0x7f >> 1` keeps six
bits only. -/
theorem get_generic_width1 (b : Nat) (t : List Nat) (left : Int) (hb : b < 0x80)
    (hl : 1 ≤ left) :
    fy_utf8_get_generic (b :: t) left = (((b % 64 : Nat) : Int), 1) := by
  have hw : fy_utf8_width_by_first_octet b = 1 := by
    rw [width_by_first_octet_eq b (by omega)]; simp [hb]
  have h7 : (0x7f >>> 1 : Nat) = 0x3f := by decide
  unfold fy_utf8_get_generic
  simp only [List.headD_cons, List.tail_cons, hw, h7, and_3f]
  have h1 : ¬ left < 1 := by omega
  have h2 : ¬ ((1 : Nat) : Int) > left := by omega
  simp only [h1, h2, if_false, fy_utf8_get_generic_loop]
  have : b % 64 < 64 := by omega
  simp
  omega

/-- The decoder on a continuation byte or a byte from 0xF8 up. -/
theorem get_generic_width0 (b : Nat) (t : List Nat) (left : Int) (hb : b < 256)
    (h : (0x80 ≤ b ∧ b < 0xC0) ∨ 0xF8 ≤ b) (hl : 1 ≤ left) :
    fy_utf8_get_generic (b :: t) left = (FYUG_INV, 0) := by
  have hw : fy_utf8_width_by_first_octet b = 0 := by
    rw [width_by_first_octet_eq b hb]
    split_ifs <;> omega
  unfold fy_utf8_get_generic
  have h1 : ¬ left < 1 := by omega
  simp [hw, h1]

/-- The decoder on a two-byte lead, in arithmetic form. -/
theorem get_generic_width2 (b0 b1 : Nat) (t : List Nat) (left : Int)
    (h0 : 0xC0 ≤ b0 ∧ b0 < 0xE0) (h1 : b1 < 256) (hl : 2 ≤ left) :
    fy_utf8_get_generic (b0 :: b1 :: t) left =
      if (0x80 ≤ b1 ∧ b1 < 0xC0) ∧ 0x80 ≤ (b0 % 32) * 64 + b1 % 64
      then ((((b0 % 32) * 64 + b1 % 64 : Nat) : Int), 2) else (FYUG_INV, 0) := by
  have hw : fy_utf8_width_by_first_octet b0 = 2 := by
    rw [width_by_first_octet_eq b0 (by omega)]
    split_ifs <;> omega
  have h7 : (0x7f >>> 2 : Nat) = 0x1f := by decide
  unfold fy_utf8_get_generic
  have hl1 : ¬ left < 1 := by omega
  have hl2 : ¬ ((2 : Nat) : Int) > left := by omega
  simp only [List.headD_cons, List.tail_cons, hw, h7, and_1f, hl1, hl2, if_false,
    Nat.reduceSub, Nat.reduceEqDiff, false_and, false_or, get_generic_loop_one b1 h1]
  by_cases hc : 0x80 ≤ b1 ∧ b1 < 0xC0
  · simp only [hc, and_self, if_true, true_and]
    have : (b0 % 32) * 64 + b1 % 64 < 0x800 := by omega
    by_cases hv : 0x80 ≤ (b0 % 32) * 64 + b1 % 64
    · rw [if_pos hv]; split_ifs <;> first | rfl | omega
    · rw [if_neg hv]; split_ifs <;> first | rfl | omega
  · simp [hc]

/-- The decoder on a three-byte lead, in arithmetic form. -/
theorem get_generic_width3 (b0 b1 b2 : Nat) (t : List Nat) (left : Int)
    (h0 : 0xE0 ≤ b0 ∧ b0 < 0xF0) (h1 : b1 < 256) (h2 : b2 < 256) (hl : 3 ≤ left) :
    fy_utf8_get_generic (b0 :: b1 :: b2 :: t) left =
      if (0x80 ≤ b1 ∧ b1 < 0xC0) ∧ (0x80 ≤ b2 ∧ b2 < 0xC0) ∧
          0x800 ≤ ((b0 % 16) * 64 + b1 % 64) * 64 + b2 % 64 ∧
          ¬ (0xD800 ≤ ((b0 % 16) * 64 + b1 % 64) * 64 + b2 % 64 ∧
             ((b0 % 16) * 64 + b1 % 64) * 64 + b2 % 64 ≤ 0xDFFF)
      then (((((b0 % 16) * 64 + b1 % 64) * 64 + b2 % 64 : Nat) : Int), 3)
      else (FYUG_INV, 0) := by
  have hw : fy_utf8_width_by_first_octet b0 = 3 := by
    rw [width_by_first_octet_eq b0 (by omega)]
    split_ifs <;> omega
  have h7 : (0x7f >>> 3 : Nat) = 0x0f := by decide
  unfold fy_utf8_get_generic
  have hl1 : ¬ left < 1 := by omega
  have hl2 : ¬ ((3 : Nat) : Int) > left := by omega
  simp only [List.headD_cons, List.tail_cons, hw, h7, and_0f, hl1, hl2, if_false,
    Nat.reduceSub, Nat.reduceEqDiff, false_and, false_or, get_generic_loop_two b1 h1, get_generic_loop_one b2 h2]
  by_cases hc1 : 0x80 ≤ b1 ∧ b1 < 0xC0
  · by_cases hc2 : 0x80 ≤ b2 ∧ b2 < 0xC0
    · simp only [hc1, hc2, and_self, if_true, true_and]
      have : ((b0 % 16) * 64 + b1 % 64) * 64 + b2 % 64 < 0x10000 := by omega
      by_cases hv : 0x800 ≤ ((b0 % 16) * 64 + b1 % 64) * 64 + b2 % 64 ∧
          ¬ (0xD800 ≤ ((b0 % 16) * 64 + b1 % 64) * 64 + b2 % 64 ∧
             ((b0 % 16) * 64 + b1 % 64) * 64 + b2 % 64 ≤ 0xDFFF)
      · rw [if_pos hv]; split_ifs <;> first | rfl | omega
      · rw [if_neg hv]; split_ifs <;> first | rfl | omega
    · simp [hc1, hc2]
  · simp [hc1]

/-- The decoder on a four-byte lead, in arithmetic form. -/
theorem get_generic_width4 (b0 b1 b2 b3 : Nat) (t : List Nat) (left : Int)
    (h0 : 0xF0 ≤ b0 ∧ b0 < 0xF8) (h1 : b1 < 256) (h2 : b2 < 256) (h3 : b3 < 256)
    (hl : 4 ≤ left) :
    fy_utf8_get_generic (b0 :: b1 :: b2 :: b3 :: t) left =
      if (0x80 ≤ b1 ∧ b1 < 0xC0) ∧ (0x80 ≤ b2 ∧ b2 < 0xC0) ∧ (0x80 ≤ b3 ∧ b3 < 0xC0) ∧
          0x10000 ≤ (((b0 % 8) * 64 + b1 % 64) * 64 + b2 % 64) * 64 + b3 % 64 ∧
          (((b0 % 8) * 64 + b1 % 64) * 64 + b2 % 64) * 64 + b3 % 64 < 0x110000
      then ((((((b0 % 8) * 64 + b1 % 64) * 64 + b2 % 64) * 64 + b3 % 64 : Nat) : Int), 4)
      else (FYUG_INV, 0) := by
  have hw : fy_utf8_width_by_first_octet b0 = 4 := by
    rw [width_by_first_octet_eq b0 (by omega)]
    split_ifs <;> omega
  have h7 : (0x7f >>> 4 : Nat) = 0x07 := by decide
  unfold fy_utf8_get_generic
  have hl1 : ¬ left < 1 := by omega
  have hl2 : ¬ ((4 : Nat) : Int) > left := by omega
  simp only [List.headD_cons, List.tail_cons, hw, h7, and_07, hl1, hl2, if_false,
    Nat.reduceSub, Nat.reduceEqDiff, false_and, false_or, get_generic_loop_three b1 h1,
    get_generic_loop_two b2 h2, get_generic_loop_one b3 h3]
  by_cases hc1 : 0x80 ≤ b1 ∧ b1 < 0xC0
  · by_cases hc2 : 0x80 ≤ b2 ∧ b2 < 0xC0
    · by_cases hc3 : 0x80 ≤ b3 ∧ b3 < 0xC0
      · simp only [hc1, hc2, hc3, and_self, if_true, true_and]
        have : (((b0 % 8) * 64 + b1 % 64) * 64 + b2 % 64) * 64 + b3 % 64 < 0x200000 := by omega
        by_cases hv : 0x10000 ≤ (((b0 % 8) * 64 + b1 % 64) * 64 + b2 % 64) * 64 + b3 % 64 ∧
            (((b0 % 8) * 64 + b1 % 64) * 64 + b2 % 64) * 64 + b3 % 64 < 0x110000
        · rw [if_pos hv]; split_ifs <;> first | rfl | omega
        · rw [if_neg hv]; split_ifs <;> first | rfl | omega
      · simp [hc1, hc2, hc3]
    · simp [hc1, hc2]
  · simp [hc1]

end Cfyaml

/-! ## The decoder on encodings of scalar values -/

namespace Cfyaml

theorem utf8_encode_length_pos (c : Nat) : 1 ≤ (utf8_encode c).length := by
  unfold utf8_encode; split_ifs <;> simp

theorem utf8_encode_length_le (c : Nat) : (utf8_encode c).length ≤ 4 := by
  unfold utf8_encode; split_ifs <;> simp

/-- The generic decoder returns every scalar value from 0x80 up from its
encoding. -/
theorem get_generic_encode_multibyte (c : Nat) (rest : List Nat) (left : Int)
    (hc : utf8_is_scalar c) (h80 : 0x80 ≤ c) (hl : ((utf8_encode c).length : Int) ≤ left) :
    fy_utf8_get_generic (utf8_encode c ++ rest) left = ((c : Int), (utf8_encode c).length) := by
  obtain ⟨hmax, hsur⟩ := hc
  unfold utf8_encode at hl ⊢
  by_cases h1 : c < 0x80
  · omega
  by_cases h2 : c < 0x800
  · simp only [h1, h2, if_true, if_false, List.length_cons, List.length_nil, List.cons_append,
      List.nil_append] at hl ⊢
    rw [get_generic_width2 _ _ _ _ (by omega) (by omega) (by omega)]
    have hv : (0xC0 + c / 64) % 32 * 64 + (0x80 + c % 64) % 64 = c := by omega
    rw [hv, if_pos (by omega)]
  by_cases h3 : c < 0x10000
  · simp only [h1, h2, h3, if_true, if_false, List.length_cons, List.length_nil,
      List.cons_append, List.nil_append] at hl ⊢
    rw [get_generic_width3 _ _ _ _ _ (by omega) (by omega) (by omega) (by omega)]
    have hv : ((0xE0 + c / 4096) % 16 * 64 + (0x80 + c / 64 % 64) % 64) * 64 +
        (0x80 + c % 64) % 64 = c := by omega
    rw [hv, if_pos (by omega)]
  · simp only [h1, h2, h3, if_false, List.length_cons, List.length_nil,
      List.cons_append, List.nil_append] at hl ⊢
    rw [get_generic_width4 _ _ _ _ _ _ (by omega) (by omega) (by omega) (by omega) (by omega)]
    have hv : (((0xF0 + c / 262144) % 8 * 64 + (0x80 + c / 4096 % 64) % 64) * 64 +
        (0x80 + c / 64 % 64) % 64) * 64 + (0x80 + c % 64) % 64 = c := by omega
    rw [hv, if_pos (by omega)]

/-- The generic decoder stops with `FYUG_PARTIAL` on a lead byte whose width
exceeds `left`. -/
theorem get_generic_short_input (b : Nat) (t : List Nat) (left : Int) (hl : 1 ≤ left)
    (hw : fy_utf8_width_by_first_octet b ≠ 0)
    (hgt : (fy_utf8_width_by_first_octet b : Int) > left) :
    fy_utf8_get_generic (b :: t) left = (FYUG_PARTIAL, 0) := by
  unfold fy_utf8_get_generic
  have h1 : ¬ left < 1 := by omega
  simp [h1, hw, hgt]

/-- C1 (as amended): for every Unicode scalar value c outside 0x40..0x7F and
every buffer that begins with the shortest-form UTF-8 encoding of c,
`fy_utf8_get_generic` called with `left` at least the encoding's length
returns c and stores the encoding's length in `*widthp`. -/
theorem C1_get_generic_decodes_encoding (c : Nat) (rest : List Nat) (left : Int)
    (hc : utf8_is_scalar c) (hrange : ¬ (0x40 ≤ c ∧ c < 0x80))
    (hl : ((utf8_encode c).length : Int) ≤ left) :
    fy_utf8_get_generic (utf8_encode c ++ rest) left = ((c : Int), (utf8_encode c).length) := by
  by_cases h80 : 0x80 ≤ c
  · exact get_generic_encode_multibyte c rest left hc h80 hl
  · have h40 : c < 0x40 := by omega
    have he : utf8_encode c = [c] := by unfold utf8_encode; simp; omega
    rw [he] at hl ⊢
    simp only [List.length_cons, List.length_nil, List.cons_append, List.nil_append] at hl ⊢
    rw [get_generic_width1 c rest left (by omega) (by omega)]
    have : c % 64 = c := by omega
    rw [this]

/-- C1, witness: the encoding E2 82 AC of U+20AC followed by one more byte. -/
theorem C1_get_generic_decodes_encoding_witness :
    utf8_is_scalar 0x20AC ∧ utf8_encode 0x20AC = [0xE2, 0x82, 0xAC] ∧
      fy_utf8_get_generic (utf8_encode 0x20AC ++ [0x41]) 4 =
        (((0x20AC : Nat) : Int), (utf8_encode 0x20AC).length) :=
  ⟨by decide, by decide,
    C1_get_generic_decodes_encoding 0x20AC [0x41] 4 (by decide) (by decide) (by decide)⟩

/-- C1, counterexample to the claim as stated: 'A' (U+0041) is a scalar value
whose encoding is the single byte 0x41, and `fy_utf8_get_generic` returns 1
for it, not 0x41. -/
theorem C1_counterexample :
    utf8_is_scalar 0x41 ∧ utf8_encode 0x41 = [0x41] ∧
      ((utf8_encode 0x41).length : Int) ≤ 1 ∧
      fy_utf8_get_generic (utf8_encode 0x41 ++ []) 1 = (1, 1) ∧
      fy_utf8_get_generic (utf8_encode 0x41 ++ []) 1 ≠
        (((0x41 : Nat) : Int), (utf8_encode 0x41).length) := by
  decide

/-- C2: `fy_utf8_get_generic` returns `FYUG_INV` for every buffer with
`left >= 1` readable bytes that starts with a malformed sequence of sufficient
length: a continuation byte or a byte from 0xF8 up in first position, a lead
byte followed within its width by a non-continuation byte, an overlong 2-, 3-
or 4-byte sequence, an encoded surrogate, or a value from 0x110000 up. -/
theorem C2_get_generic_rejects_malformed (p : List Nat) (left : Int)
    (hbytes : ∀ b ∈ p, b < 256) (hl : 1 ≤ left) (hlen : left ≤ (p.length : Int))
    (hbad : utf8_malformed p left) :
    (fy_utf8_get_generic p left).1 = FYUG_INV := by
  match p, hbytes, hlen, hbad with
  | [], _, hlen, _ => simp at hlen; omega
  | b0 :: t, hbytes, hlen, hbad =>
    have hb0 : b0 < 256 := hbytes b0 (by simp)
    unfold utf8_malformed utf8_is_cont at hbad
    simp only [List.getD_cons_zero] at hbad
    by_cases hz : (0x80 ≤ b0 ∧ b0 < 0xC0) ∨ 0xF8 ≤ b0
    · rw [get_generic_width0 b0 t left hb0 hz hl]
    have hnz1 : ¬ (0x80 ≤ b0 ∧ b0 < 0xC0) := fun h => hz (Or.inl h)
    have hnz2 : ¬ 0xF8 ≤ b0 := fun h => hz (Or.inr h)
    by_cases hA : b0 < 0x80
    · -- a one-byte sequence is never malformed
      exfalso
      have hw : utf8_lead_width b0 = 1 := by unfold utf8_lead_width; simp [hA]
      have hp : utf8_payload (b0 :: t) = b0 % 128 := by
        unfold utf8_payload; simp [hw]
      rw [hw, hp] at hbad
      rcases hbad with h | h | ⟨_, i, h1, h2, _⟩ | ⟨_, h⟩
      · exact hnz1 h
      · exact hnz2 h
      · omega
      · omega
    by_cases hB : b0 < 0xE0
    · have hw : utf8_lead_width b0 = 2 := by
        unfold utf8_lead_width; split_ifs <;> omega
      have hfit : (2 : Int) ≤ left := by
        rw [hw] at hbad
        rcases hbad with h | h | ⟨h, _⟩ | ⟨h, _⟩
        · exact absurd h hnz1
        · exact absurd h hnz2
        · exact_mod_cast h
        · exact_mod_cast h
      match t, hbytes, hlen, hbad with
      | [], _, hlen, _ => simp at hlen; omega
      | b1 :: t, hbytes, _, hbad =>
        have hb1 : b1 < 256 := hbytes b1 (by simp)
        have hp : utf8_payload (b0 :: b1 :: t) = (b0 % 32) * 64 + b1 % 64 := by
          unfold utf8_payload; simp [hw]
        rw [get_generic_width2 b0 b1 t left (by omega) hb1 hfit]
        rw [hw, hp] at hbad
        rw [if_neg]
        rintro ⟨hc1, hv⟩
        rcases hbad with h | h | ⟨_, i, h1, h2, h3⟩ | ⟨_, h⟩
        · exact hnz1 h
        · exact hnz2 h
        · have : i = 1 := by omega
          subst this
          simp at h3
          omega
        · omega
    by_cases hC : b0 < 0xF0
    · have hw : utf8_lead_width b0 = 3 := by
        unfold utf8_lead_width; split_ifs <;> omega
      have hfit : (3 : Int) ≤ left := by
        rw [hw] at hbad
        rcases hbad with h | h | ⟨h, _⟩ | ⟨h, _⟩
        · exact absurd h hnz1
        · exact absurd h hnz2
        · exact_mod_cast h
        · exact_mod_cast h
      match t, hbytes, hlen, hbad with
      | [], _, hlen, _ => simp at hlen; omega
      | [_], _, hlen, _ => simp at hlen; omega
      | b1 :: b2 :: t, hbytes, _, hbad =>
        have hb1 : b1 < 256 := hbytes b1 (by simp)
        have hb2 : b2 < 256 := hbytes b2 (by simp)
        have hp : utf8_payload (b0 :: b1 :: b2 :: t) =
            ((b0 % 16) * 64 + b1 % 64) * 64 + b2 % 64 := by
          unfold utf8_payload; simp [hw]
        rw [get_generic_width3 b0 b1 b2 t left (by omega) hb1 hb2 hfit]
        rw [hw, hp] at hbad
        rw [if_neg]
        rintro ⟨hc1, hc2, hv, hs⟩
        rcases hbad with h | h | ⟨_, i, h1, h2, h3⟩ | ⟨_, h⟩
        · exact hnz1 h
        · exact hnz2 h
        · have : i = 1 ∨ i = 2 := by omega
          rcases this with rfl | rfl <;> simp at h3 <;> omega
        · omega
    · have hw : utf8_lead_width b0 = 4 := by
        unfold utf8_lead_width; split_ifs <;> omega
      have hfit : (4 : Int) ≤ left := by
        rw [hw] at hbad
        rcases hbad with h | h | ⟨h, _⟩ | ⟨h, _⟩
        · exact absurd h hnz1
        · exact absurd h hnz2
        · exact_mod_cast h
        · exact_mod_cast h
      match t, hbytes, hlen, hbad with
      | [], _, hlen, _ => simp at hlen; omega
      | [_], _, hlen, _ => simp at hlen; omega
      | [_, _], _, hlen, _ => simp at hlen; omega
      | b1 :: b2 :: b3 :: t, hbytes, _, hbad =>
        have hb1 : b1 < 256 := hbytes b1 (by simp)
        have hb2 : b2 < 256 := hbytes b2 (by simp)
        have hb3 : b3 < 256 := hbytes b3 (by simp)
        have hp : utf8_payload (b0 :: b1 :: b2 :: b3 :: t) =
            (((b0 % 8) * 64 + b1 % 64) * 64 + b2 % 64) * 64 + b3 % 64 := by
          unfold utf8_payload; simp [hw]
        rw [get_generic_width4 b0 b1 b2 b3 t left (by omega) hb1 hb2 hb3 hfit]
        rw [hw, hp] at hbad
        rw [if_neg]
        rintro ⟨hc1, hc2, hc3, hv, hs⟩
        rcases hbad with h | h | ⟨_, i, h1, h2, h3⟩ | ⟨_, h⟩
        · exact hnz1 h
        · exact hnz2 h
        · have : i = 1 ∨ i = 2 ∨ i = 3 := by omega
          rcases this with rfl | rfl | rfl <;> simp at h3 <;> omega
        · omega

/-- C2, witness: the overlong two-byte sequence C0 80. -/
theorem C2_get_generic_rejects_malformed_witness :
    (fy_utf8_get_generic [0xC0, 0x80] 2).1 = FYUG_INV :=
  C2_get_generic_rejects_malformed [0xC0, 0x80] 2 (by decide) (by decide) (by decide)
    (Or.inr (Or.inr (Or.inr ⟨by decide, Or.inl ⟨by decide, by decide⟩⟩)))

end Cfyaml

namespace Cfyaml

/-- The four ways `fy_utf8_get_generic` can end, with the conditions under
which each is taken. -/
theorem get_generic_fst_cases (p : List Nat) (left : Int) :
    (left < 1 ∧ (fy_utf8_get_generic p left).1 = -1) ∨
    (1 ≤ left ∧ fy_utf8_width_by_first_octet (p.headD 0) ≠ 0 ∧
      (fy_utf8_width_by_first_octet (p.headD 0) : Int) > left ∧
      (fy_utf8_get_generic p left).1 = -3) ∨
    (1 ≤ left ∧ ¬ (fy_utf8_width_by_first_octet (p.headD 0) ≠ 0 ∧
      (fy_utf8_width_by_first_octet (p.headD 0) : Int) > left) ∧
      ((fy_utf8_get_generic p left).1 = -2 ∨ 0 ≤ (fy_utf8_get_generic p left).1)) := by
  unfold fy_utf8_get_generic
  dsimp only
  generalize fy_utf8_width_by_first_octet (p.headD 0) = w
  generalize fy_utf8_get_generic_loop p.tail (w - 1) (p.headD 0 &&& (0x7f >>> w)) = r
  by_cases h1 : left < 1
  · left; rw [if_pos h1]; exact ⟨h1, rfl⟩
  rw [if_neg h1]
  by_cases h2 : w = 0
  · right; right; rw [if_pos h2]; exact ⟨by omega, fun h => h.1 h2, Or.inl rfl⟩
  rw [if_neg h2]
  by_cases h3 : (w : Int) > left
  · rw [if_pos h3]; right; left; exact ⟨by omega, h2, h3, rfl⟩
  rw [if_neg h3]
  right; right
  refine ⟨by omega, fun h => h3 h.2, ?_⟩
  cases r with
  | none => exact Or.inl rfl
  | some v =>
    dsimp only
    split_ifs
    · exact Or.inl rfl
    · exact Or.inr (Int.natCast_nonneg v)

/-- C3: `fy_utf8_get_generic` returns `FYUG_EOF` exactly when `left < 1`, and
`FYUG_PARTIAL` exactly when `left >= 1` and the first byte is a lead byte
whose announced width exceeds `left`; every non-empty proper prefix of the
encoding of a scalar value is reported as `FYUG_PARTIAL`. -/
theorem C3_get_generic_eof_partial_outcomes (p : List Nat) (left : Int) :
    ((fy_utf8_get_generic p left).1 = FYUG_EOF ↔ left < 1) ∧
    ((fy_utf8_get_generic p left).1 = FYUG_PARTIAL ↔
      (1 ≤ left ∧ fy_utf8_width_by_first_octet (p.headD 0) ≠ 0 ∧
        (fy_utf8_width_by_first_octet (p.headD 0) : Int) > left)) ∧
    (∀ c k : Nat, utf8_is_scalar c → 1 ≤ k → k < (utf8_encode c).length →
      fy_utf8_get_generic ((utf8_encode c).take k) k = (FYUG_PARTIAL, 0)) := by
  refine ⟨?_, ?_, ?_⟩
  · unfold FYUG_EOF
    rcases get_generic_fst_cases p left with ⟨h, e⟩ | ⟨h, _, _, e⟩ | ⟨h, _, e⟩
    · exact ⟨fun _ => h, fun _ => e⟩
    · exact ⟨fun e' => by omega, fun h' => by omega⟩
    · exact ⟨fun e' => by omega, fun h' => by omega⟩
  · unfold FYUG_PARTIAL
    rcases get_generic_fst_cases p left with ⟨h, e⟩ | ⟨h, hw, hgt, e⟩ | ⟨h, hn, e⟩
    · exact ⟨fun e' => by omega, fun h' => by omega⟩
    · exact ⟨fun _ => ⟨h, hw, hgt⟩, fun _ => e⟩
    · exact ⟨fun e' => by omega, fun h' => absurd h'.2 hn⟩
  · intro c k hc hk1 hk2
    obtain ⟨hmax, hsur⟩ := hc
    unfold utf8_encode at hk2 ⊢
    by_cases h1 : c < 0x80
    · simp [h1] at hk2; omega
    by_cases h2 : c < 0x800
    · simp only [h1, h2, if_true, if_false, List.length_cons, List.length_nil] at hk2 ⊢
      have hk : k = 1 := by omega
      subst hk
      simp only [List.take_succ_cons, List.take_zero]
      apply get_generic_short_input _ _ _ (by simp) <;>
        rw [width_by_first_octet_eq _ (by omega)] <;> split_ifs <;> simp <;> omega
    by_cases h3 : c < 0x10000
    · simp only [h1, h2, h3, if_true, if_false, List.length_cons, List.length_nil] at hk2 ⊢
      have hk : k = 1 ∨ k = 2 := by omega
      rcases hk with rfl | rfl <;>
      · simp only [List.take_succ_cons, List.take_zero]
        apply get_generic_short_input _ _ _ (by simp) <;>
          rw [width_by_first_octet_eq _ (by omega)] <;> split_ifs <;> simp <;> omega
    · simp only [h1, h2, h3, if_false, List.length_cons, List.length_nil] at hk2 ⊢
      have hk : k = 1 ∨ k = 2 ∨ k = 3 := by omega
      rcases hk with rfl | rfl | rfl <;>
      · simp only [List.take_succ_cons, List.take_zero]
        apply get_generic_short_input _ _ _ (by simp) <;>
          rw [width_by_first_octet_eq _ (by omega)] <;> split_ifs <;> simp <;> omega

/-- C3, witness: the first two bytes E2 82 of the encoding of U+20AC. -/
theorem C3_get_generic_eof_partial_outcomes_witness :
    utf8_is_scalar 0x20AC ∧ (utf8_encode 0x20AC).take 2 = [0xE2, 0x82] ∧
      fy_utf8_get_generic ((utf8_encode 0x20AC).take 2) (2 : Nat) = (FYUG_PARTIAL, 0) :=
  ⟨by decide, by decide,
    (C3_get_generic_eof_partial_outcomes [] 0).2.2 0x20AC 2 (by decide) (by decide) (by decide)⟩

end Cfyaml

/-! ## The escape parser on malformed hexadecimal escapes -/

namespace Cfyaml

open fy_utf8_escape

/-- C4 (the code at the failing inputs): on a backslash-x / backslash-u escape
whose first following byte is 'Z', not a hexadecimal digit,
`fy_utf8_parse_escape` leaves the digit loop through `goto out` with the
value accumulated so far and returns 0, a non-negative value, under each of
the three double-quote policies. -/
theorem C4_parse_escape_bad_hex_returns_zero :
    fy_utf8_parse_escape [0x5c, 0x78, 0x5a, 0x5a] 4 fyue_doublequote = (0, 3) ∧
    fy_utf8_parse_escape [0x5c, 0x78, 0x5a, 0x5a] 4 fyue_doublequote_yaml_1_1 = (0, 3) ∧
    fy_utf8_parse_escape [0x5c, 0x75, 0x5a, 0x5a, 0x5a, 0x5a] 6 fyue_doublequote_json = (0, 3) ∧
    fy_utf8_parse_escape [0x5c, 0x75, 0x34, 0x31, 0x5a, 0x5a] 6 fyue_doublequote = (0x410, 5) := by
  decide

end Cfyaml

/-! ## The inline decoder on single bytes -/

namespace Cfyaml

/-- The wrapper returns an ASCII byte itself. -/
theorem get_ascii (b : Nat) (t : List Nat) (left : Int) (hb : b < 0x80) (hl : 1 ≤ left) :
    fy_utf8_get (b :: t) left = ((b : Int), 1) := by
  unfold fy_utf8_get
  have h1 : ¬ left ≤ 0 := by omega
  have h2 : b &&& 0x80 = 0 := (and_80_eq_zero_iff b (by omega)).2 hb
  have h3 : b % 128 = b := by omega
  simp only [h1, if_false, List.headD_cons, h2, if_true, and_7f, h3]

/-- The wrapper at the end of the input. -/
theorem get_nil (left : Int) (hl : left ≤ 0) : fy_utf8_get [] left = (-1, 0) := by
  unfold fy_utf8_get
  simp only [hl, if_true, FYUG_EOF]

/-- A byte from 0x80 up never decodes to an ASCII code point. -/
theorem get_high_lead (b : Nat) (t : List Nat) (left : Int) (h80 : 0x80 ≤ b) (hb : b < 256) :
    (fy_utf8_get (b :: t) left).1 < 0 ∨ 0x80 ≤ (fy_utf8_get (b :: t) left).1 := by
  unfold fy_utf8_get
  by_cases h1 : left ≤ 0
  · left; rw [if_pos h1]; decide
  rw [if_neg h1]
  have h2 : ¬ (b &&& 0x80 = 0) := fun e => by
    have := (and_80_eq_zero_iff b hb).1 e
    omega
  simp only [List.headD_cons, h2, if_false]
  unfold fy_utf8_get_generic
  dsimp only
  simp only [List.headD_cons, List.tail_cons]
  have hw := width_by_first_octet_eq b hb
  generalize fy_utf8_width_by_first_octet b = w at hw ⊢
  generalize fy_utf8_get_generic_loop t (w - 1) (b &&& (0x7f >>> w)) = r
  have hw1 : w ≠ 1 := by
    rw [hw]; split_ifs <;> omega
  have hw4 : w ≤ 4 := by
    rw [hw]; split_ifs <;> omega
  by_cases c1 : left < 1
  · left; rw [if_pos c1]; decide
  rw [if_neg c1]
  by_cases c2 : w = 0
  · left; rw [if_pos c2]; decide
  rw [if_neg c2]
  by_cases c3 : (w : Int) > left
  · left; rw [if_pos c3]; decide
  rw [if_neg c3]
  cases r with
  | none => left; exact (by decide : FYUG_INV < 0)
  | some v =>
    dsimp only
    split_ifs with c4
    · left; exact (by decide : FYUG_INV < 0)
    · right
      show (128 : Int) ≤ (v : Int)
      have : w = 2 ∨ w = 3 ∨ w = 4 := by omega
      have : 128 ≤ v := by omega
      exact_mod_cast this

/-! ## Character classes on bytes -/

theorem strchr_iff_mem (s : List Int) (c : Int) : fy_utf8_strchr s c = true ↔ c ∈ s := by
  simp [fy_utf8_strchr]

theorem uri_byte (b : Nat) (h : fy_is_uri (b : Int) = true) :
    0 < b ∧ b < 0x80 ∧ b ≠ 0x3e ∧ b ≠ 0x3c ∧ b ≠ 0x7d ∧ fy_is_z (b : Int) = false ∧
      fy_is_blank (b : Int) = false ∧ fy_is_any_lb (b : Int) = false := by
  simp only [fy_is_uri, fy_is_alnum, fy_is_first_alpha, strchr_iff_mem, Bool.or_eq_true,
    decide_eq_true_eq, List.mem_cons, List.mem_singleton, List.not_mem_nil, or_false] at h
  simp only [fy_is_z, fy_is_blank, fy_is_any_lb, decide_eq_false_iff_not]
  refine ⟨?_, ?_, ?_, ?_, ?_, ?_, ?_, ?_⟩ <;> omega

theorem alnum_byte (b : Nat) (h : fy_is_alnum (b : Int) = true) :
    fy_is_uri (b : Int) = true ∧ b < 0x80 ∧ b ≠ 0x21 := by
  have hu : fy_is_uri (b : Int) = true := by
    unfold fy_is_uri; rw [h]; rfl
  refine ⟨hu, (uri_byte b hu).2.1, ?_⟩
  simp only [fy_is_alnum, fy_is_first_alpha, Bool.or_eq_true, decide_eq_true_eq] at h
  omega

theorem first_alpha_byte (b : Nat) (h : fy_is_first_alpha (b : Int) = true) :
    fy_is_alnum (b : Int) = true ∧ fy_is_ws (b : Int) = false := by
  constructor
  · unfold fy_is_alnum; rw [h]; rfl
  · simp only [fy_is_first_alpha, decide_eq_true_eq] at h
    simp only [fy_is_ws, decide_eq_false_iff_not]
    omega

end Cfyaml

/-! ## The tag scanner: the scanning loops -/

namespace Cfyaml

theorem one_le_length_cons (b : Nat) (t : List Nat) : (1 : Int) ≤ ((b :: t).length : Int) := by
  rw [List.length_cons]
  push_cast
  omega

theorem one_le_length_sub_one (a b : Nat) (t : List Nat) :
    (1 : Int) ≤ ((a :: b :: t).length : Int) - ((1 : Nat) : Int) := by
  simp only [List.length_cons]
  push_cast
  omega

/-- The first character of a non-empty run of URI bytes followed by `tail`,
when `tail` is empty or starts with an ASCII byte. -/
theorem uri_length_loop_stop (u : List Nat) (t0 : Nat) (rest : List Nat) (fuel : Nat)
    (hu : ∀ b ∈ u, fy_is_uri (b : Int) = true) (ht : t0 < 0x80)
    (hnu : fy_is_uri (t0 : Int) = false) (hz : fy_is_z (t0 : Int) = false)
    (hb : fy_is_blank (t0 : Int) = false) (hlb : fy_is_any_lb (t0 : Int) = false)
    (hf : u.length < fuel) :
    fy_tag_uri_length_loop fuel (u ++ t0 :: rest) = some (t0 :: rest) := by
  induction u generalizing fuel with
  | nil =>
    obtain ⟨f, rfl⟩ : ∃ f, fuel = f + 1 := ⟨fuel - 1, by simp at hf; omega⟩
    unfold fy_tag_uri_length_loop
    simp only [List.nil_append]
    rw [get_ascii t0 rest _ ht (one_le_length_cons _ _)]
    simp only [hnu]
    rfl
  | cons b u ih =>
    obtain ⟨f, rfl⟩ : ∃ f, fuel = f + 1 := ⟨fuel - 1, by simp at hf; omega⟩
    have hbu := uri_byte b (hu b (by simp))
    have hu' : ∀ x ∈ u, fy_is_uri (x : Int) = true := fun x hx => hu x (by simp [hx])
    unfold fy_tag_uri_length_loop
    simp only [List.cons_append]
    rw [get_ascii b _ _ hbu.2.1 (one_le_length_cons _ _)]
    simp only [hu b (by simp), if_true, List.drop_succ_cons, List.drop_zero]
    have hcn : ∃ n : Nat, (fy_utf8_get (u ++ t0 :: rest)
        (((b :: (u ++ t0 :: rest)).length : Nat) - ((1 : Nat) : Int))).1 = (n : Int) ∧
        fy_is_z (n : Int) = false ∧ fy_is_blank (n : Int) = false ∧
        fy_is_any_lb (n : Int) = false := by
      cases u with
      | nil =>
        refine ⟨t0, ?_, hz, hb, hlb⟩
        simp only [List.nil_append]
        rw [get_ascii t0 rest _ ht (one_le_length_sub_one _ _ _)]
      | cons b' u' =>
        have hb' := uri_byte b' (hu' b' (by simp))
        refine ⟨b', ?_, hb'.2.2.2.2.2.1, hb'.2.2.2.2.2.2.1, hb'.2.2.2.2.2.2.2⟩
        simp only [List.cons_append]
        rw [get_ascii b' _ _ hb'.2.1 (one_le_length_sub_one _ _ _)]
    obtain ⟨n, hn, hz', hb', hlb'⟩ := hcn
    rw [hn, hz', hb', hlb']
    simp only [Bool.or_self, Bool.false_and, Bool.false_eq_true, if_false]
    exact ih f hu' (by simp at hf; omega)

/-- The URI loop on a run of URI bytes that ends the input and does not end in
',', '}' or ']'. -/
theorem uri_length_loop_all (u : List Nat) (fuel : Nat)
    (hu : ∀ b ∈ u, fy_is_uri (b : Int) = true)
    (hlast : ∀ b, u.getLast? = some b → fy_utf8_strchr [0x2c, 0x7d, 0x5d] (b : Int) = false)
    (hf : u.length < fuel) :
    fy_tag_uri_length_loop fuel u = some [] := by
  induction u generalizing fuel with
  | nil =>
    obtain ⟨f, rfl⟩ : ∃ f, fuel = f + 1 := ⟨fuel - 1, by simp at hf; omega⟩
    unfold fy_tag_uri_length_loop
    rw [get_nil _ (by simp)]
    rfl
  | cons b u ih =>
    obtain ⟨f, rfl⟩ : ∃ f, fuel = f + 1 := ⟨fuel - 1, by simp at hf; omega⟩
    have hbu := uri_byte b (hu b (by simp))
    have hu' : ∀ x ∈ u, fy_is_uri (x : Int) = true := fun x hx => hu x (by simp [hx])
    unfold fy_tag_uri_length_loop
    rw [get_ascii b _ _ hbu.2.1 (one_le_length_cons _ _)]
    simp only [hu b (by simp), if_true, List.drop_succ_cons, List.drop_zero]
    cases u with
    | nil =>
      rw [get_nil _ (by simp)]
      have : fy_utf8_strchr [0x2c, 0x7d, 0x5d] (b : Int) = false := hlast b (by simp)
      rw [this]
      simp only [Bool.and_false, Bool.false_eq_true, if_false]
      exact ih f hu' (fun _ h => by simp at h) (by simp at hf ⊢; omega)
    | cons b' u' =>
      have hb' := uri_byte b' (hu' b' (by simp))
      rw [get_ascii b' _ _ hb'.2.1 (one_le_length_sub_one _ _ _)]
      rw [hb'.2.2.2.2.2.1, hb'.2.2.2.2.2.2.1, hb'.2.2.2.2.2.2.2]
      simp only [Bool.or_self, Bool.false_and, Bool.false_eq_true, if_false]
      exact ih f hu' (fun x h => hlast x (by simpa [List.getLast?_cons_cons] using h))
        (by simp at hf ⊢; omega)

/-- The handle loop over a run of alphanumeric bytes followed by `rest`, which
is empty or starts with an ASCII byte that is not alphanumeric. -/
theorem handle_length_loop_run (h rest : List Nat) (fuel : Nat)
    (hh : ∀ b ∈ h, fy_is_alnum (b : Int) = true)
    (hrest : ∀ b, rest.head? = some b → b < 0x80 ∧ fy_is_alnum (b : Int) = false)
    (hf : h.length < fuel) :
    fy_tag_handle_length_loop fuel (h ++ rest) =
      some (if rest.head? = some 0x21 then rest.tail else rest) := by
  induction h generalizing fuel with
  | nil =>
    obtain ⟨f, rfl⟩ : ∃ f, fuel = f + 1 := ⟨fuel - 1, by simp at hf; omega⟩
    unfold fy_tag_handle_length_loop
    simp only [List.nil_append]
    cases rest with
    | nil =>
      rw [get_nil _ (by simp)]
      rfl
    | cons t0 r =>
      obtain ⟨h1, h2⟩ := hrest t0 rfl
      rw [get_ascii t0 r _ h1 (one_le_length_cons _ _)]
      simp only [h2, Bool.false_eq_true, if_false, List.head?_cons, Option.some.injEq,
        List.tail_cons, List.drop_succ_cons, List.drop_zero]
      by_cases e : t0 = 0x21
      · subst e; rfl
      · have : ¬ ((t0 : Int) = 33) := by omega
        rw [if_neg this, if_neg e]
  | cons b h ih =>
    obtain ⟨f, rfl⟩ : ∃ f, fuel = f + 1 := ⟨fuel - 1, by simp at hf; omega⟩
    have hb := alnum_byte b (hh b (by simp))
    unfold fy_tag_handle_length_loop
    simp only [List.cons_append]
    rw [get_ascii b _ _ hb.2.1 (one_le_length_cons _ _)]
    simp only [hh b (by simp), if_true, List.drop_succ_cons, List.drop_zero]
    exact ih f (fun x hx => hh x (by simp [hx])) (by simp at hf; omega)

end Cfyaml

/-! ## The tag scanner: verbatim and shorthand tags -/

namespace Cfyaml

/-- `fy_tag_uri_length` on a run of URI bytes closed by '>'. -/
theorem uri_length_verbatim (u : List Nat) (hu : ∀ b ∈ u, fy_is_uri (b : Int) = true)
    (hv : fy_tag_uri_is_valid u = some true) :
    fy_tag_uri_length (u ++ [0x3e]) = some (u.length : Int) := by
  unfold fy_tag_uri_length
  rw [uri_length_loop_stop u 0x3e [] _ hu (by decide) (by decide) (by decide) (by decide)
    (by decide) (by simp only [List.length_append, List.length_cons, List.length_nil]; omega)]
  have e : ((u ++ [0x3e]).length : Int) - (([0x3e] : List Nat).length : Int) = (u.length : Int) := by
    simp
  simp only [e, Int.toNat_ofNat, List.take_left', hv]
  rfl

/-- `fy_tag_uri_length` on a run of URI bytes that ends the input and does not
end in ',', '}' or ']'. -/
theorem uri_length_all (s : List Nat) (hs : ∀ b ∈ s, fy_is_uri (b : Int) = true)
    (hlast : ∀ b, s.getLast? = some b → fy_utf8_strchr [0x2c, 0x7d, 0x5d] (b : Int) = false)
    (hv : fy_tag_uri_is_valid s = some true) :
    fy_tag_uri_length s = some (s.length : Int) := by
  unfold fy_tag_uri_length
  rw [uri_length_loop_all s _ hs hlast (by simp)]
  have e : (s.length : Int) - (([] : List Nat).length : Int) = (s.length : Int) := by simp
  simp only [e, Int.toNat_ofNat, List.take_length, hv]
  rfl

/-- C5: `fy_tag_scan` recognises the verbatim form: for every string u of URI
characters accepted by `fy_tag_uri_is_valid`, scanning "!<" ++ u ++ ">"
returns 0 and reports prefix_length = 2, handle_length = 0,
uri_length = |u|, suffix_length = 1 (total_length = |u| + 3). -/
theorem C5_tag_scan_verbatim (u : List Nat) (info : fy_tag_scan_info)
    (hu : ∀ b ∈ u, fy_is_uri (b : Int) = true)
    (hv : fy_tag_uri_is_valid u = some true) :
    fy_tag_scan ([0x21, 0x3c] ++ u ++ [0x3e]) info =
      some (0, { total_length := (u.length : Int) + 3, handle_length := 0,
                 uri_length := (u.length : Int), prefix_length := 2, suffix_length := 1 }) := by
  have hlen : ((([0x21, 0x3c] ++ u ++ [0x3e] : List Nat).length : Nat) : Int) =
      (u.length : Int) + 3 := by
    simp only [List.length_cons, List.length_append, List.length_nil]
    push_cast
    omega
  have g1 : fy_utf8_get ([0x21, 0x3c] ++ u ++ [0x3e])
      (([0x21, 0x3c] ++ u ++ [0x3e] : List Nat).length : Int) = (0x21, 1) :=
    get_ascii 0x21 _ _ (by decide) (one_le_length_cons _ _)
  have g2 : fy_utf8_get (List.drop 1 ([0x21, 0x3c] ++ u ++ [0x3e]))
      ((([0x21, 0x3c] ++ u ++ [0x3e] : List Nat).length : Int) - ((1 : Nat) : Int)) =
      (0x3c, 1) :=
    get_ascii 0x3c _ _ (by decide) (one_le_length_sub_one _ _ _)
  have g3 : fy_tag_uri_length (List.drop 2 ([0x21, 0x3c] ++ u ++ [0x3e])) =
      some (u.length : Int) := uri_length_verbatim u hu hv
  generalize [0x21, 0x3c] ++ u ++ [0x3e] = data at hlen g1 g2 g3 ⊢
  unfold fy_tag_scan
  simp only [g1]
  simp only [g2]
  have h0 : (Int.toNat 2) = 2 := rfl
  simp only [ne_eq, not_true_eq_false, if_true, if_false, OfNat.ofNat_ne_zero,
    not_false_eq_true, false_and, h0, g3, decide_False, Bool.false_eq_true]
  have h1 : ¬ ((u.length : Int) < 0) := by omega
  have h2 : (2 : Int) + 0 + (u.length : Int) + 1 = (u.length : Int) + 3 := by omega
  simp only [h1, h2, hlen, if_false, not_true_eq_false]

/-- C5, witness: the verbatim tag "!<a%41>". -/
theorem C5_tag_scan_verbatim_witness :
    fy_tag_uri_is_valid [0x61, 0x25, 0x34, 0x31] = some true ∧
    fy_tag_scan ([0x21, 0x3c] ++ [0x61, 0x25, 0x34, 0x31] ++ [0x3e]) ⟨0, 0, 0, 0, 0⟩ =
      some (0, { total_length := (([0x61, 0x25, 0x34, 0x31] : List Nat).length : Int) + 3,
                 handle_length := 0,
                 uri_length := (([0x61, 0x25, 0x34, 0x31] : List Nat).length : Int),
                 prefix_length := 2, suffix_length := 1 }) :=
  ⟨by decide,
    C5_tag_scan_verbatim [0x61, 0x25, 0x34, 0x31] ⟨0, 0, 0, 0, 0⟩ (by decide) (by decide)⟩

end Cfyaml

namespace Cfyaml

/-- `fy_tag_scan` once the handle and the URI have been measured, for an input
that starts with '!' not followed by '<': the handle ends in '!'. -/
theorem tag_scan_after_handle (data : List Nat) (info : fy_tag_scan_info) (hl ul : Int)
    (g1 : fy_utf8_get data (data.length : Int) = (0x21, 1))
    (g2 : (fy_utf8_get (List.drop 1 data) ((data.length : Int) - ((1 : Nat) : Int))).1 ≠ 0x3c)
    (gh : fy_tag_handle_length data = some hl) (hpos : 0 < hl)
    (g3 : fy_tag_uri_length (List.drop hl.toNat data) = some ul) (hul : 0 ≤ ul)
    (hsum : hl + ul = (data.length : Int))
    (gd : data.getD (hl - 1).toNat 0 = 0x21) :
    fy_tag_scan data info =
      some (0, { total_length := (data.length : Int), handle_length := hl, uri_length := ul,
                 prefix_length := 0, suffix_length := 0 }) := by
  unfold fy_tag_scan
  simp only [g1]
  simp only [ne_eq, not_true_eq_false, if_false, g2, gh]
  have h1 : ¬ hl ≤ 0 := by omega
  have h2 : ¬ ul < 0 := by omega
  have h3 : ¬ hl = 0 := by omega
  have h4 : (0 : Int) + hl + ul + 0 = (data.length : Int) := by omega
  simp only [h1, and_false, if_false, g3, h2, gd, not_true_eq_false, or_false, h3,
    decide_False, Bool.false_eq_true, h4]

/-- `fy_tag_scan` once the handle and the URI have been measured, for an input
that starts with '!' not followed by '<': the scanned handle does not end in
'!' and is folded into the suffix. -/
theorem tag_scan_after_word (data : List Nat) (info : fy_tag_scan_info) (hl ul : Int)
    (g1 : fy_utf8_get data (data.length : Int) = (0x21, 1))
    (g2 : (fy_utf8_get (List.drop 1 data) ((data.length : Int) - ((1 : Nat) : Int))).1 ≠ 0x3c)
    (gh : fy_tag_handle_length data = some hl) (hpos : 1 < hl)
    (g3 : fy_tag_uri_length (List.drop hl.toNat data) = some ul) (hul : 0 ≤ ul)
    (hsum : hl + ul = (data.length : Int))
    (gd : data.getD (hl - 1).toNat 0 ≠ 0x21) :
    fy_tag_scan data info =
      some (0, { total_length := (data.length : Int), handle_length := 1,
                 uri_length := (data.length : Int) - 1,
                 prefix_length := 0, suffix_length := 0 }) := by
  unfold fy_tag_scan
  simp only [g1]
  simp only [ne_eq, not_true_eq_false, if_false, g2, gh]
  have h1 : ¬ hl ≤ 0 := by omega
  have h2 : ¬ ul < 0 := by omega
  have h3 : ¬ hl = 0 := by omega
  have h5 : ¬ hl = 1 := by omega
  have h4 : (0 : Int) + 1 + (hl - 1 + ul) + 0 = (data.length : Int) := by omega
  have h6 : hl - 1 + ul = (data.length : Int) - 1 := by omega
  have h7 : (0 : Int) + 1 + ((data.length : Int) - 1) + 0 = (data.length : Int) := by omega
  simp only [h1, and_false, if_false, g3, h2, gd, not_false_eq_true, or_true, and_self,
    true_and, decide_True, h5, false_and, decide_False, Bool.false_eq_true, if_true, h4, h6,
    h7, not_true_eq_false]

/-- `fy_tag_handle_length` on "!!" followed by anything. -/
theorem handle_length_bang_bang (s : List Nat) :
    fy_tag_handle_length (0x21 :: 0x21 :: s) = some 2 := by
  unfold fy_tag_handle_length
  rw [get_ascii 0x21 _ _ (by decide) (one_le_length_cons _ _)]
  simp only [List.drop_succ_cons, List.drop_zero]
  rw [get_ascii 0x21 _ _ (by decide) (one_le_length_cons _ _)]
  have : fy_is_ws ((0x21 : Nat) : Int) = false := by decide
  simp only [this, List.drop_succ_cons, List.drop_zero, List.length_cons]
  simp only [ne_eq, Nat.cast_ofNat, not_true_eq_false, if_false, Bool.false_eq_true, if_true]
  congr 1
  push_cast
  omega

/-- `fy_tag_handle_length` on '!' followed by a word (a first-alpha byte and
alphanumeric bytes) and then `rest`, which is empty or starts with an ASCII
byte that is not alphanumeric. -/
theorem handle_length_word (h0 : Nat) (ht rest : List Nat)
    (hh0 : fy_is_first_alpha (h0 : Int) = true)
    (hht : ∀ b ∈ ht, fy_is_alnum (b : Int) = true)
    (hrest : ∀ b, rest.head? = some b → b < 0x80 ∧ fy_is_alnum (b : Int) = false) :
    fy_tag_handle_length (0x21 :: h0 :: (ht ++ rest)) =
      some ((ht.length : Int) + 2 + (if rest.head? = some 0x21 then 1 else 0)) := by
  have ha := first_alpha_byte h0 hh0
  have hb := alnum_byte h0 ha.1
  unfold fy_tag_handle_length
  rw [get_ascii 0x21 _ _ (by decide) (one_le_length_cons _ _)]
  simp only [List.drop_succ_cons, List.drop_zero]
  rw [get_ascii h0 _ _ hb.2.1 (one_le_length_cons _ _)]
  have hne : ¬ ((h0 : Int) = 33) := by omega
  simp only [ha.2, hh0, List.drop_succ_cons, List.drop_zero]
  simp only [ne_eq, Nat.cast_ofNat, not_true_eq_false, if_false, Bool.false_eq_true, hne,
    Bool.not_true]
  rw [handle_length_loop_run ht rest _ hht hrest
    (by simp only [List.length_cons, List.length_append]; omega)]
  simp only [Option.some.injEq]
  cases rest with
  | nil => simp; omega
  | cons t0 r =>
    by_cases e : t0 = 0x21
    · subst e
      simp only [List.head?_cons, if_true, List.tail_cons, List.length_cons, List.length_append]
      push_cast
      omega
    · have : ¬ (some t0 = some 33) := by simpa using e
      simp only [List.head?_cons, this, if_false, List.length_cons, List.length_append]
      push_cast
      omega

end Cfyaml

namespace Cfyaml

theorem strchr_close_false (b : Nat) (h1 : b ≠ 0x2c) (h2 : b ≠ 0x7d) (h3 : b ≠ 0x5d) :
    fy_utf8_strchr [0x2c, 0x7d, 0x5d] (b : Int) = false := by
  rw [Bool.eq_false_iff, ne_eq, strchr_iff_mem]
  simp only [List.mem_cons, List.mem_singleton, List.not_mem_nil, or_false]
  omega

/-- "!!" followed by a suffix: the handle is "!!". -/
theorem tag_scan_secondary (s : List Nat) (info : fy_tag_scan_info)
    (hs : ∀ b ∈ s, fy_is_uri (b : Int) = true)
    (hv : fy_tag_uri_is_valid s = some true)
    (hlast : ∀ b, s.getLast? = some b → fy_utf8_strchr [0x2c, 0x7d, 0x5d] (b : Int) = false) :
    fy_tag_scan (0x21 :: 0x21 :: s) info =
      some (0, { total_length := (s.length : Int) + 2, handle_length := 2,
                 uri_length := (s.length : Int), prefix_length := 0, suffix_length := 0 }) := by
  have hlen : (((0x21 :: 0x21 :: s : List Nat).length : Nat) : Int) = (s.length : Int) + 2 := by
    simp only [List.length_cons]; push_cast; omega
  rw [tag_scan_after_handle (0x21 :: 0x21 :: s) info 2 (s.length : Int)
    (get_ascii 0x21 _ _ (by decide) (one_le_length_cons _ _))
    (by
      simp only [List.drop_succ_cons, List.drop_zero]
      rw [get_ascii 0x21 _ _ (by decide) (one_le_length_sub_one _ _ _)]
      decide)
    (handle_length_bang_bang s) (by decide)
    (by
      have : (2 : Int).toNat = 2 := rfl
      rw [this]
      simp only [List.drop_succ_cons, List.drop_zero]
      exact uri_length_all s hs hlast hv)
    (by omega) (by omega) (by rfl), hlen]

/-- '!' word '!' followed by a suffix: the handle is "!word!". -/
theorem tag_scan_named (h0 : Nat) (ht s : List Nat) (info : fy_tag_scan_info)
    (hh0 : fy_is_first_alpha (h0 : Int) = true)
    (hht : ∀ b ∈ ht, fy_is_alnum (b : Int) = true)
    (hs : ∀ b ∈ s, fy_is_uri (b : Int) = true)
    (hv : fy_tag_uri_is_valid s = some true)
    (hlast : ∀ b, s.getLast? = some b → fy_utf8_strchr [0x2c, 0x7d, 0x5d] (b : Int) = false) :
    fy_tag_scan (0x21 :: h0 :: (ht ++ 0x21 :: s)) info =
      some (0, { total_length := (ht.length : Int) + 3 + (s.length : Int),
                 handle_length := (ht.length : Int) + 3,
                 uri_length := (s.length : Int), prefix_length := 0, suffix_length := 0 }) := by
  have ha := first_alpha_byte h0 hh0
  have hb := alnum_byte h0 ha.1
  have hlen : (((0x21 :: h0 :: (ht ++ 0x21 :: s) : List Nat).length : Nat) : Int) =
      (ht.length : Int) + 3 + (s.length : Int) := by
    simp only [List.length_cons, List.length_append]; push_cast; omega
  have hn : ((ht.length : Int) + 3).toNat = ht.length + 3 := by omega
  have hn' : ((ht.length : Int) + 3 - 1).toNat = ht.length + 2 := by omega
  have hsplit : (0x21 :: h0 :: (ht ++ 0x21 :: s) : List Nat) = (0x21 :: h0 :: ht) ++ (0x21 :: s) := by
    simp
  have hsplit' : (0x21 :: h0 :: (ht ++ 0x21 :: s) : List Nat) =
      (0x21 :: h0 :: (ht ++ [0x21])) ++ s := by
    simp
  have gh := handle_length_word h0 ht (0x21 :: s) hh0 hht
    (fun b hb => by
      simp only [List.head?_cons, Option.some.injEq] at hb
      subst hb
      exact ⟨by decide, by decide⟩)
  simp only [List.head?_cons, if_true] at gh
  have gh' : fy_tag_handle_length (0x21 :: h0 :: (ht ++ 0x21 :: s)) =
      some ((ht.length : Int) + 3) := by
    rw [gh]; congr 1
  rw [tag_scan_after_handle (0x21 :: h0 :: (ht ++ 0x21 :: s)) info ((ht.length : Int) + 3)
    (s.length : Int)
    (get_ascii 0x21 _ _ (by decide) (one_le_length_cons _ _))
    (by
      simp only [List.drop_succ_cons, List.drop_zero]
      rw [get_ascii h0 _ _ hb.2.1 (one_le_length_sub_one _ _ _)]
      show (h0 : Int) ≠ 60
      have := (uri_byte h0 hb.1).2.2.2.1
      omega)
    gh' (by omega)
    (by
      rw [hn, hsplit', List.drop_left' (by simp)]
      exact uri_length_all s hs hlast hv)
    (by omega) (by omega)
    (by
      rw [hn', hsplit, List.getD_append_right _ _ _ _ (by simp)]
      simp), hlen]

/-- '!' word followed by a suffix that does not continue the word: the handle
is "!" and the word belongs to the suffix. -/
theorem tag_scan_primary (h0 : Nat) (ht s : List Nat) (info : fy_tag_scan_info)
    (hh0 : fy_is_first_alpha (h0 : Int) = true)
    (hht : ∀ b ∈ ht, fy_is_alnum (b : Int) = true)
    (hs : ∀ b ∈ s, fy_is_uri (b : Int) = true)
    (hv : fy_tag_uri_is_valid s = some true)
    (hlast : ∀ b, s.getLast? = some b → fy_utf8_strchr [0x2c, 0x7d, 0x5d] (b : Int) = false)
    (hstart : ∀ b, s.head? = some b → b ≠ 0x21 ∧ fy_is_alnum (b : Int) = false) :
    fy_tag_scan (0x21 :: h0 :: (ht ++ s)) info =
      some (0, { total_length := (ht.length : Int) + 2 + (s.length : Int),
                 handle_length := 1,
                 uri_length := (ht.length : Int) + 2 + (s.length : Int) - 1,
                 prefix_length := 0, suffix_length := 0 }) := by
  have ha := first_alpha_byte h0 hh0
  have hb := alnum_byte h0 ha.1
  have hlen : (((0x21 :: h0 :: (ht ++ s) : List Nat).length : Nat) : Int) =
      (ht.length : Int) + 2 + (s.length : Int) := by
    simp only [List.length_cons, List.length_append]; push_cast; omega
  have hn : ((ht.length : Int) + 2).toNat = ht.length + 2 := by omega
  have hn' : ((ht.length : Int) + 2 - 1).toNat = ht.length + 1 := by omega
  have hsplit : (0x21 :: h0 :: (ht ++ s) : List Nat) = (0x21 :: h0 :: ht) ++ s := by
    simp
  have hhead : ¬ (s.head? = some 0x21) := fun e => (hstart _ e).1 rfl
  have gh := handle_length_word h0 ht s hh0 hht
    (fun b hb => ⟨(uri_byte b (hs b (List.mem_of_mem_head? hb))).2.1, (hstart b hb).2⟩)
  simp only [hhead, if_false, add_zero] at gh
  rw [tag_scan_after_word (0x21 :: h0 :: (ht ++ s)) info ((ht.length : Int) + 2)
    (s.length : Int)
    (get_ascii 0x21 _ _ (by decide) (one_le_length_cons _ _))
    (by
      simp only [List.drop_succ_cons, List.drop_zero]
      rw [get_ascii h0 _ _ hb.2.1 (one_le_length_sub_one _ _ _)]
      show (h0 : Int) ≠ 60
      have := (uri_byte h0 hb.1).2.2.2.1
      omega)
    gh (by omega)
    (by
      rw [hn, hsplit, List.drop_left' (by simp)]
      exact uri_length_all s hs hlast hv)
    (by omega) (by omega)
    (by
      rw [hn', hsplit, List.getD_append _ _ _ _ (by simp), List.getD_cons_succ]
      have hlt : ht.length < (h0 :: ht).length := by simp
      rw [List.getD_eq_getElem _ _ hlt]
      have hm : (h0 :: ht)[ht.length] ∈ h0 :: ht := List.getElem_mem _
      rcases List.mem_cons.1 hm with e | e
      · rw [e]; exact hb.2.2
      · exact (alnum_byte _ (hht _ e)).2.2), hlen]

/-- C6: `fy_tag_scan` splits a shorthand tag into handle and suffix with
prefix_length = suffix_length = 0. For s a string of URI characters accepted by
`fy_tag_uri_is_valid` that does not end in ',', '}' or ']': "!!" ++ s yields
handle_length 2 and uri_length |s|; "!" ++ h ++ "!" ++ s, with h a first-alpha
character followed by alphanumerics, yields handle_length |h| + 2 and
uri_length |s|; and "!" ++ w ++ s, with w such a word and s not starting with
'!' or an alphanumeric, yields handle_length 1 and uri_length len - 1. -/
theorem C6_tag_scan_shorthand (s : List Nat) (h0 : Nat) (ht : List Nat)
    (info : fy_tag_scan_info)
    (hs : ∀ b ∈ s, fy_is_uri (b : Int) = true)
    (hv : fy_tag_uri_is_valid s = some true)
    (hend : s.getLast? ≠ some 0x2c ∧ s.getLast? ≠ some 0x7d ∧ s.getLast? ≠ some 0x5d)
    (hh0 : fy_is_first_alpha (h0 : Int) = true)
    (hht : ∀ b ∈ ht, fy_is_alnum (b : Int) = true) :
    fy_tag_scan ([0x21, 0x21] ++ s) info =
      some (0, { total_length := (([0x21, 0x21] ++ s).length : Int), handle_length := 2,
                 uri_length := (s.length : Int), prefix_length := 0, suffix_length := 0 }) ∧
    fy_tag_scan ([0x21] ++ (h0 :: ht) ++ [0x21] ++ s) info =
      some (0, { total_length := (([0x21] ++ (h0 :: ht) ++ [0x21] ++ s).length : Int),
                 handle_length := ((h0 :: ht).length : Int) + 2,
                 uri_length := (s.length : Int), prefix_length := 0, suffix_length := 0 }) ∧
    ((∀ b, s.head? = some b → b ≠ 0x21 ∧ fy_is_alnum (b : Int) = false) →
      fy_tag_scan ([0x21] ++ (h0 :: ht) ++ s) info =
        some (0, { total_length := (([0x21] ++ (h0 :: ht) ++ s).length : Int),
                   handle_length := 1,
                   uri_length := (([0x21] ++ (h0 :: ht) ++ s).length : Int) - 1,
                   prefix_length := 0, suffix_length := 0 })) := by
  have hlast : ∀ b, s.getLast? = some b → fy_utf8_strchr [0x2c, 0x7d, 0x5d] (b : Int) = false :=
    fun b hb => strchr_close_false b (fun e => hend.1 (e ▸ hb)) (fun e => hend.2.1 (e ▸ hb))
      (fun e => hend.2.2 (e ▸ hb))
  refine ⟨?_, ?_, ?_⟩
  · have e : ([0x21, 0x21] ++ s : List Nat) = 0x21 :: 0x21 :: s := rfl
    rw [e, tag_scan_secondary s info hs hv hlast]
    simp only [List.length_cons]
    push_cast
    rfl
  · have e : ([0x21] ++ (h0 :: ht) ++ [0x21] ++ s : List Nat) = 0x21 :: h0 :: (ht ++ 0x21 :: s) := by
      simp
    rw [e, tag_scan_named h0 ht s info hh0 hht hs hv hlast]
    simp only [List.length_cons, List.length_append]
    push_cast
    congr 3; omega
  · intro hstart
    have e : ([0x21] ++ (h0 :: ht) ++ s : List Nat) = 0x21 :: h0 :: (ht ++ s) := by
      simp
    rw [e, tag_scan_primary h0 ht s info hh0 hht hs hv hlast hstart]
    simp only [List.length_cons, List.length_append]
    push_cast
    congr 3 <;> omega

/-- C6, witness: the tags "!!str" and "!e!str" (s = "str") and "!e.x"
(w = "e", s = ".x"). -/
theorem C6_tag_scan_shorthand_witness :
    fy_tag_scan ([0x21, 0x21] ++ [0x73, 0x74, 0x72]) ⟨0, 0, 0, 0, 0⟩ =
      some (0, ⟨5, 2, 3, 0, 0⟩) ∧
    fy_tag_scan ([0x21] ++ [0x65] ++ [0x21] ++ [0x73, 0x74, 0x72]) ⟨0, 0, 0, 0, 0⟩ =
      some (0, ⟨6, 3, 3, 0, 0⟩) ∧
    fy_tag_scan ([0x21] ++ [0x65] ++ [0x2e, 0x78]) ⟨0, 0, 0, 0, 0⟩ =
      some (0, ⟨4, 1, 3, 0, 0⟩) :=
  ⟨(C6_tag_scan_shorthand [0x73, 0x74, 0x72] 0x65 [] ⟨0, 0, 0, 0, 0⟩ (by decide) (by decide)
      (by decide) (by decide) (by decide)).1,
    (C6_tag_scan_shorthand [0x73, 0x74, 0x72] 0x65 [] ⟨0, 0, 0, 0, 0⟩ (by decide) (by decide)
      (by decide) (by decide) (by decide)).2.1,
    (C6_tag_scan_shorthand [0x2e, 0x78] 0x65 [] ⟨0, 0, 0, 0, 0⟩ (by decide) (by decide)
      (by decide) (by decide) (by decide)).2.2 (by decide)⟩

end Cfyaml

/-! ## The tag scanner: shape of a successful scan -/

namespace Cfyaml

/-- The first decoded character of a byte buffer that does not start with the
byte '!' is not '!'. -/
theorem get_first_ne_bang (data : List Nat) (hbytes : ∀ b ∈ data, b < 256)
    (hfirst : data.head? ≠ some 0x21) :
    (fy_utf8_get data data.length).1 ≠ 0x21 := by
  match data, hbytes, hfirst with
  | [], _, _ =>
    rw [get_nil _ (by simp)]
    decide
  | b :: t, hbytes, hfirst =>
    have hb : b < 256 := hbytes b (by simp)
    have hne : b ≠ 0x21 := fun e => hfirst (by simp [e])
    by_cases h80 : b < 0x80
    · rw [get_ascii b t _ h80 (by simp)]
      show (b : Int) ≠ 0x21
      omega
    · rcases get_high_lead b t ((b :: t).length : Nat) (by omega) hb with h | h <;> omega

/-- C7: whenever `fy_tag_scan` returns 0, the four reported parts are
non-negative and partition the whole input (`total_length = len` and
`prefix_length + handle_length + uri_length + suffix_length = len`); and
`fy_tag_scan` returns -1, leaving `*info` alone, for every input whose first
character is not '!'. -/
theorem C7_tag_scan_partition (data : List Nat) (info info' : fy_tag_scan_info) :
    (fy_tag_scan data info = some (0, info') →
      0 ≤ info'.prefix_length ∧ 0 ≤ info'.handle_length ∧ 0 ≤ info'.uri_length ∧
      0 ≤ info'.suffix_length ∧ info'.total_length = (data.length : Int) ∧
      info'.prefix_length + info'.handle_length + info'.uri_length + info'.suffix_length =
        (data.length : Int)) ∧
    ((∀ b ∈ data, b < 256) → data.head? ≠ some 0x21 →
      fy_tag_scan data info = some (-1, info)) := by
  constructor
  · intro h
    unfold fy_tag_scan at h
    dsimp only at h
    generalize fy_utf8_get data data.length = cw at h
    generalize (fy_utf8_get (List.drop cw.2 data) ((data.length : Int) - (cw.2 : Int))).1 = cn at h
    generalize fy_tag_handle_length data = hl at h
    repeat' split at h
    all_goals
      first
      | (simp at h; done)
      | (simp only [Option.some.injEq, Prod.mk.injEq, true_and] at h
         subst h
         simp only [decide_eq_true_eq, ne_eq, Option.some.injEq, true_and, false_and,
           not_true_eq_false, not_false_eq_true, if_true, if_false, not_not, *] at *
         refine ⟨?_, ?_, ?_, ?_, ?_, ?_⟩ <;> first | omega | (simp at *; omega))
  · intro hbytes hfirst
    unfold fy_tag_scan
    dsimp only
    rw [if_pos (get_first_ne_bang data hbytes hfirst)]

/-- C7, witness: the shorthand tag "!!a". -/
theorem C7_tag_scan_partition_witness :
    fy_tag_scan [0x21, 0x21, 0x61] ⟨0, 0, 0, 0, 0⟩ = some (0, ⟨3, 2, 1, 0, 0⟩) ∧
      ((3 : Int) = ([0x21, 0x21, 0x61] : List Nat).length ∧
        (0 : Int) + 2 + 1 + 0 = ([0x21, 0x21, 0x61] : List Nat).length) :=
  ⟨by decide,
    ((C7_tag_scan_partition [0x21, 0x21, 0x61] ⟨0, 0, 0, 0, 0⟩ ⟨3, 2, 1, 0, 0⟩).1
      (by decide)).2.2.2.2⟩

end Cfyaml

/-! ## The inline decoder and well-formed UTF-8 -/

namespace Cfyaml

/-- Shape of the encoding of a scalar value: its bytes, its length, and the
width announced by its first byte. -/
theorem utf8_encode_shape (c : Nat) (hc : utf8_is_scalar c) :
    (c < 0x80 ∧ utf8_encode c = [c]) ∨
    (0x80 ≤ c ∧ ∃ b t, utf8_encode c = b :: t ∧ 0xC0 ≤ b ∧ b < 0xF8 ∧
      (∀ x ∈ t, 0x80 ≤ x ∧ x < 0xC0) ∧
      fy_utf8_width_by_first_octet b = t.length + 1) := by
  obtain ⟨hmax, hsur⟩ := hc
  unfold utf8_encode
  by_cases h1 : c < 0x80
  · left; simp [h1]
  right
  refine ⟨by omega, ?_⟩
  by_cases h2 : c < 0x800
  · refine ⟨0xC0 + c / 64, [0x80 + c % 64], by simp [h1, h2], by omega, by omega, ?_, ?_⟩
    · intro x hx; simp at hx; omega
    · rw [width_by_first_octet_eq _ (by omega)]; simp; split_ifs <;> omega
  by_cases h3 : c < 0x10000
  · refine ⟨0xE0 + c / 4096, [0x80 + c / 64 % 64, 0x80 + c % 64], by simp [h1, h2, h3],
      by omega, by omega, ?_, ?_⟩
    · intro x hx; simp at hx; omega
    · rw [width_by_first_octet_eq _ (by omega)]; simp; split_ifs <;> omega
  · refine ⟨0xF0 + c / 262144, [0x80 + c / 4096 % 64, 0x80 + c / 64 % 64, 0x80 + c % 64],
      by simp [h1, h2, h3], by omega, by omega, ?_, ?_⟩
    · intro x hx; simp at hx; omega
    · rw [width_by_first_octet_eq _ (by omega)]; simp; split_ifs <;> omega

/-- The inline decoder returns every scalar value from its encoding. -/
theorem get_encode (c : Nat) (rest : List Nat) (left : Int) (hc : utf8_is_scalar c)
    (hl : ((utf8_encode c).length : Int) ≤ left) :
    fy_utf8_get (utf8_encode c ++ rest) left = ((c : Int), (utf8_encode c).length) := by
  rcases utf8_encode_shape c hc with ⟨h, e⟩ | ⟨h, b, t, e, hb1, hb2, _, _⟩
  · rw [e] at hl ⊢
    exact get_ascii c rest left h (by simpa using hl)
  · have hg := get_generic_encode_multibyte c rest left hc h hl
    rw [e] at hg hl ⊢
    unfold fy_utf8_get
    have h1 : ¬ left ≤ 0 := by simp at hl; omega
    have h2 : ¬ (b &&& 0x80 = 0) := fun e' => by
      have := (and_80_eq_zero_iff b (by omega)).1 e'
      omega
    simp only [h1, if_false, List.cons_append, List.headD_cons, h2]
    exact hg

/-- Every byte of the encoding of a scalar value is a byte; those of a
multi-byte encoding are at least 0x80. -/
theorem utf8_encode_bytes (c : Nat) (hc : utf8_is_scalar c) :
    ∀ x ∈ utf8_encode c, x < 256 ∧ (0x80 ≤ c → 0x80 ≤ x) ∧ (c < 0x80 → x = c) := by
  intro x hx
  rcases utf8_encode_shape c hc with ⟨h, e⟩ | ⟨h, b, t, e, hb1, hb2, ht, _⟩
  · rw [e] at hx; simp at hx; subst hx; exact ⟨by omega, by omega, fun _ => rfl⟩
  · rw [e] at hx
    rcases List.mem_cons.1 hx with rfl | hx
    · exact ⟨by omega, fun _ => by omega, fun _ => by omega⟩
    · have := ht x hx
      exact ⟨by omega, fun _ => by omega, fun _ => by omega⟩

theorem utf8_well_formed_bytes (s : List Nat) (h : utf8_well_formed s) : ∀ x ∈ s, x < 256 := by
  induction h with
  | nil => intro x hx; simp at hx
  | cons c rest hc _ ih =>
    intro x hx
    rcases List.mem_append.1 hx with hx | hx
    · exact (utf8_encode_bytes c hc x hx).1
    · exact ih x hx

/-- A well-formed buffer that starts with an ASCII byte continues with a
well-formed buffer. -/
theorem utf8_well_formed_tail (b : Nat) (t : List Nat) (hb : b < 0x80)
    (h : utf8_well_formed (b :: t)) : utf8_well_formed t := by
  generalize e : b :: t = s at h
  cases h with
  | nil => simp at e
  | cons c rest hc hr =>
    rcases utf8_encode_shape c hc with ⟨_, e'⟩ | ⟨_, b', t', e', hb1, _, _, _⟩
    · rw [e'] at e
      simp only [List.cons_append, List.nil_append, List.cons.injEq] at e
      rw [e.2]; exact hr
    · rw [e'] at e
      simp only [List.cons_append, List.cons.injEq] at e
      omega

theorem utf8_well_formed_ascii_cons (b : Nat) (t : List Nat) (hb : b < 0x80)
    (h : utf8_well_formed t) : utf8_well_formed (b :: t) := by
  have hs : utf8_is_scalar b := ⟨by omega, by omega⟩
  have e : utf8_encode b = [b] := by unfold utf8_encode; simp [hb]
  have := utf8_well_formed.cons b t hs h
  rwa [e] at this

/-- The inline decoder on a non-empty well-formed buffer returns its first
scalar value and that value's width. -/
theorem get_well_formed (s : List Nat) (h : utf8_well_formed s) (hne : s ≠ []) :
    ∃ c r, utf8_is_scalar c ∧ utf8_well_formed r ∧ s = utf8_encode c ++ r ∧
      fy_utf8_get s (s.length : Int) = ((c : Int), (utf8_encode c).length) := by
  cases h with
  | nil => exact absurd rfl hne
  | cons c rest hc hr =>
    refine ⟨c, rest, hc, hr, rfl, ?_⟩
    exact get_encode c rest _ hc (by simp)

/-- On a well-formed buffer the inline decoder returns an ASCII code point
exactly when the buffer starts with that byte. -/
theorem get_well_formed_ascii (s : List Nat) (h : utf8_well_formed s) (a : Nat) (ha : a < 0x80) :
    (fy_utf8_get s (s.length : Int)).1 = (a : Int) →
      ∃ t, s = a :: t ∧ utf8_well_formed t ∧ fy_utf8_get s (s.length : Int) = ((a : Int), 1) := by
  intro hg
  by_cases hne : s = []
  · subst hne
    rw [get_nil _ (by simp)] at hg
    have : (-1 : Int) = (a : Int) := hg
    omega
  obtain ⟨c, r, hc, hr, e, hget⟩ := get_well_formed s h hne
  rw [hget] at hg
  have hca : c = a := by
    have : (c : Int) = (a : Int) := hg
    omega
  subst hca
  have e' : utf8_encode c = [c] := by unfold utf8_encode; simp [ha]
  rw [e'] at e hget
  exact ⟨r, by simpa using e, hr, by simpa using hget⟩

end Cfyaml

/-! ## Hexadecimal digits in percent-escapes -/

namespace Cfyaml

theorem hex_value_facts (h v : Nat) (e : hex_digit_value h = some v) :
    h < 0x80 ∧ fy_is_hex (h : Int) = true ∧ v < 16 ∧ h ≠ 0x25 := by
  unfold hex_digit_value at e
  simp only [fy_is_hex, decide_eq_true_eq]
  split_ifs at e with h1 h2 h3 <;> simp only [Option.some.injEq] at e <;>
    (refine ⟨?_, ?_, ?_, ?_⟩ <;> omega)

theorem is_hex_value (h : Nat) (e : fy_is_hex (h : Int) = true) :
    ∃ v, hex_digit_value h = some v := by
  simp only [fy_is_hex, decide_eq_true_eq] at e
  unfold hex_digit_value
  by_cases h1 : 0x30 ≤ h ∧ h ≤ 0x39
  · exact ⟨_, if_pos h1⟩
  by_cases h2 : 0x61 ≤ h ∧ h ≤ 0x66
  · exact ⟨_, by rw [if_neg h1, if_pos h2]⟩
  by_cases h3 : 0x41 ≤ h ∧ h ≤ 0x46
  · exact ⟨_, by rw [if_neg h1, if_neg h2, if_pos h3]⟩
  omega

theorem shl4_or (a v : Nat) (ha : a < 16) (hv : v < 16) :
    ((a <<< 4) % 256 ||| v) % 256 = a * 16 + v := by
  have h : v < 2 ^ 4 := by omega
  have e1 : (a <<< 4) % 256 = 2 ^ 4 * a := by
    rw [Nat.shiftLeft_eq]; omega
  rw [e1, ← Nat.mul_add_lt_is_or h a]
  omega

/-- One accumulation step of the digit loop. -/
theorem hex_octet_step (h v a : Nat) (e : hex_digit_value h = some v) (ha : a < 16) :
    (if 0x30 ≤ (h : Int) ∧ (h : Int) ≤ 0x39 then
        ((a <<< 4) % 256 ||| ((h : Int) - 0x30).toNat) % 256
      else if 0x61 ≤ (h : Int) ∧ (h : Int) ≤ 0x66 then
        ((a <<< 4) % 256 ||| (10 + (h : Int) - 0x61).toNat) % 256
      else ((a <<< 4) % 256 ||| (10 + (h : Int) - 0x41).toNat) % 256) = a * 16 + v := by
  have hf := hex_value_facts h v e
  unfold hex_digit_value at e
  by_cases h1 : 0x30 ≤ h ∧ h ≤ 0x39
  · rw [if_pos h1] at e
    have e' : v = h - 0x30 := by simpa using e.symm
    have c1 : 0x30 ≤ (h : Int) ∧ (h : Int) ≤ 0x39 := by omega
    have c2 : ((h : Int) - 0x30).toNat = v := by omega
    rw [if_pos c1, c2, shl4_or a v ha hf.2.2.1]
  rw [if_neg h1] at e
  have c1 : ¬ (0x30 ≤ (h : Int) ∧ (h : Int) ≤ 0x39) := by omega
  rw [if_neg c1]
  by_cases h2 : 0x61 ≤ h ∧ h ≤ 0x66
  · rw [if_pos h2] at e
    have e' : v = h - 0x61 + 10 := by simpa using e.symm
    have c3 : 0x61 ≤ (h : Int) ∧ (h : Int) ≤ 0x66 := by omega
    have c2 : (10 + (h : Int) - 0x61).toNat = v := by omega
    rw [if_pos c3, c2, shl4_or a v ha hf.2.2.1]
  rw [if_neg h2] at e
  have c3 : ¬ (0x61 ≤ (h : Int) ∧ (h : Int) ≤ 0x66) := by omega
  rw [if_neg c3]
  by_cases h3 : 0x41 ≤ h ∧ h ≤ 0x46
  · rw [if_pos h3] at e
    have e' : v = h - 0x41 + 10 := by simpa using e.symm
    have c2 : (10 + (h : Int) - 0x41).toNat = v := by omega
    rw [c2, shl4_or a v ha hf.2.2.1]
  · rw [if_neg h3] at e
    simp at e

/-- The digit loop on two hexadecimal digits yields the byte they spell. -/
theorem hex2_ok (h1 h2 v1 v2 : Nat) (s2 : List Nat) (w : Nat)
    (e1 : hex_digit_value h1 = some v1) (e2 : hex_digit_value h2 = some v2) :
    fy_tag_uri_is_valid_hex 2 (h1 :: h2 :: s2) w 0 = some (s2, 1, v1 * 16 + v2) := by
  have f1 := hex_value_facts h1 v1 e1
  have f2 := hex_value_facts h2 v2 e2
  have s1 := hex_octet_step h1 v1 0 e1 (by omega)
  have s2' := hex_octet_step h2 v2 v1 e2 f1.2.2.1
  simp only [Nat.zero_mul, Nat.zero_add] at s1
  unfold fy_tag_uri_is_valid_hex
  rw [get_ascii h1 _ _ f1.1 (one_le_length_cons _ _)]
  simp only [f1.2.1, Bool.not_true, Bool.false_eq_true, if_false, List.drop_succ_cons,
    List.drop_zero, s1]
  unfold fy_tag_uri_is_valid_hex
  rw [get_ascii h2 _ _ f2.1 (one_le_length_cons _ _)]
  simp only [f2.2.1, Bool.not_true, Bool.false_eq_true, if_false, List.drop_succ_cons,
    List.drop_zero, s2']
  unfold fy_tag_uri_is_valid_hex
  rfl

/-- The digit loop fails on a well-formed buffer that does not start with two
hexadecimal digits. -/
theorem hex2_fail (s : List Nat) (w : Nat) (hwf : utf8_well_formed s)
    (h : starts_with_two_hex s = false) :
    fy_tag_uri_is_valid_hex 2 s w 0 = none := by
  unfold fy_tag_uri_is_valid_hex
  dsimp only
  by_cases hx : fy_is_hex (fy_utf8_get s (s.length : Int)).1 = true
  swap
  · simp only [hx, Bool.not_false, if_true]
  -- the first character is a hexadecimal digit
  have hne : s ≠ [] := by
    rintro rfl
    rw [get_nil _ (by simp)] at hx
    exact absurd hx (by decide)
  obtain ⟨c, r, hc, hr, e, hget⟩ := get_well_formed s hwf hne
  rw [hget] at hx
  obtain ⟨v1, ev1⟩ := is_hex_value c hx
  have f1 := hex_value_facts c v1 ev1
  have e' : utf8_encode c = [c] := by unfold utf8_encode; simp [f1.1]
  rw [e'] at e hget
  simp only [List.cons_append, List.nil_append] at e
  subst e
  rw [hget]
  simp only [hx, Bool.not_true, Bool.false_eq_true, if_false, List.length_cons, List.length_nil,
    List.drop_succ_cons, List.drop_zero, Nat.zero_add]
  unfold fy_tag_uri_is_valid_hex
  dsimp only
  by_cases hy : fy_is_hex (fy_utf8_get r (r.length : Int)).1 = true
  swap
  · simp [hy]
  exfalso
  have hne' : r ≠ [] := by
    rintro rfl
    rw [get_nil _ (by simp)] at hy
    exact absurd hy (by decide)
  obtain ⟨c', r', hc', hr', er, hget'⟩ := get_well_formed r hr hne'
  rw [hget'] at hy
  obtain ⟨v2, ev2⟩ := is_hex_value c' hy
  have f2 := hex_value_facts c' v2 ev2
  have e'' : utf8_encode c' = [c'] := by unfold utf8_encode; simp [f2.1]
  rw [e''] at er
  simp only [List.cons_append, List.nil_append] at er
  subst er
  simp [starts_with_two_hex, ev1, ev2] at h

end Cfyaml

/-! ## Soundness of the inline decoder -/

namespace Cfyaml

/-- Whenever the inline decoder returns a code point, that code point is a
scalar value whose encoding starts the buffer, and the stored width is the
length of that encoding. -/
theorem get_sound (p : List Nat) (left : Int) (hbytes : ∀ b ∈ p, b < 256)
    (hlen : left ≤ (p.length : Int)) (hpos : 0 ≤ (fy_utf8_get p left).1) :
    ∃ c, utf8_is_scalar c ∧ p.take (utf8_encode c).length = utf8_encode c ∧
      fy_utf8_get p left = ((c : Int), (utf8_encode c).length) ∧
      ((utf8_encode c).length : Int) ≤ left := by
  have hl1 : 1 ≤ left := by
    by_contra h
    rw [fy_utf8_get, if_pos (by omega)] at hpos
    exact absurd hpos (by decide)
  match p, hbytes, hlen, hpos with
  | [], _, hlen, _ => simp at hlen; omega
  | b0 :: t, hbytes, hlen, hpos =>
    have hb0 : b0 < 256 := hbytes b0 (by simp)
    by_cases hA : b0 < 0x80
    · refine ⟨b0, ⟨by omega, by omega⟩, ?_, ?_, ?_⟩
      · have : utf8_encode b0 = [b0] := by unfold utf8_encode; simp [hA]
        rw [this]; simp
      · have : utf8_encode b0 = [b0] := by unfold utf8_encode; simp [hA]
        rw [this]; exact get_ascii b0 t left hA hl1
      · have : utf8_encode b0 = [b0] := by unfold utf8_encode; simp [hA]
        rw [this]; simpa using hl1
    -- a byte from 0x80 up goes to the generic decoder
    have hgen : fy_utf8_get (b0 :: t) left = fy_utf8_get_generic (b0 :: t) left := by
      unfold fy_utf8_get
      have h1 : ¬ left ≤ 0 := by omega
      have h2 : ¬ (b0 &&& 0x80 = 0) := fun e => hA ((and_80_eq_zero_iff b0 hb0).1 e)
      simp only [h1, if_false, List.headD_cons, h2]
    rw [hgen] at hpos ⊢
    by_cases hz : (0x80 ≤ b0 ∧ b0 < 0xC0) ∨ 0xF8 ≤ b0
    · rw [get_generic_width0 b0 t left hb0 hz hl1] at hpos
      exact absurd hpos (by decide)
    have hw := width_by_first_octet_eq b0 hb0
    by_cases hB : b0 < 0xE0
    · have hw2 : fy_utf8_width_by_first_octet b0 = 2 := by
        rw [hw]; split_ifs <;> omega
      have hfit : (2 : Int) ≤ left := by
        by_contra h
        rw [get_generic_short_input b0 t left hl1 (by omega) (by rw [hw2]; omega)] at hpos
        exact absurd hpos (by decide)
      match t, hbytes, hlen, hpos with
      | [], _, hlen, _ => simp at hlen; omega
      | b1 :: t, hbytes, _, hpos =>
        have hb1 : b1 < 256 := hbytes b1 (by simp)
        rw [get_generic_width2 b0 b1 t left (by omega) hb1 hfit] at hpos ⊢
        split_ifs at hpos ⊢ with hc
        swap
        · exact absurd hpos (by decide)
        obtain ⟨hc1, hv⟩ := hc
        have he : utf8_encode ((b0 % 32) * 64 + b1 % 64) = [b0, b1] := by
          unfold utf8_encode
          rw [if_neg (by omega), if_pos (by omega)]
          congr 1
          · omega
          · congr 1; omega
        refine ⟨(b0 % 32) * 64 + b1 % 64, ⟨by omega, by omega⟩, ?_, ?_, ?_⟩
        · rw [he]; simp
        · rw [he]; rfl
        · rw [he]; simpa using hfit
    by_cases hC : b0 < 0xF0
    · have hw3 : fy_utf8_width_by_first_octet b0 = 3 := by
        rw [hw]; split_ifs <;> omega
      have hfit : (3 : Int) ≤ left := by
        by_contra h
        rw [get_generic_short_input b0 t left hl1 (by omega) (by rw [hw3]; omega)] at hpos
        exact absurd hpos (by decide)
      match t, hbytes, hlen, hpos with
      | [], _, hlen, _ => simp at hlen; omega
      | [_], _, hlen, _ => simp at hlen; omega
      | b1 :: b2 :: t, hbytes, _, hpos =>
        have hb1 : b1 < 256 := hbytes b1 (by simp)
        have hb2 : b2 < 256 := hbytes b2 (by simp)
        rw [get_generic_width3 b0 b1 b2 t left (by omega) hb1 hb2 hfit] at hpos ⊢
        split_ifs at hpos ⊢ with hc
        swap
        · exact absurd hpos (by decide)
        obtain ⟨hc1, hc2, hv, hs⟩ := hc
        have he : utf8_encode (((b0 % 16) * 64 + b1 % 64) * 64 + b2 % 64) = [b0, b1, b2] := by
          unfold utf8_encode
          rw [if_neg (by omega), if_neg (by omega), if_pos (by omega)]
          congr 1
          · omega
          · congr 1
            · omega
            · congr 1; omega
        refine ⟨((b0 % 16) * 64 + b1 % 64) * 64 + b2 % 64, ⟨by omega, by omega⟩, ?_, ?_, ?_⟩
        · rw [he]; simp
        · rw [he]; rfl
        · rw [he]; simpa using hfit
    · have hw4 : fy_utf8_width_by_first_octet b0 = 4 := by
        rw [hw]; split_ifs <;> omega
      have hfit : (4 : Int) ≤ left := by
        by_contra h
        rw [get_generic_short_input b0 t left hl1 (by omega) (by rw [hw4]; omega)] at hpos
        exact absurd hpos (by decide)
      match t, hbytes, hlen, hpos with
      | [], _, hlen, _ => simp at hlen; omega
      | [_], _, hlen, _ => simp at hlen; omega
      | [_, _], _, hlen, _ => simp at hlen; omega
      | b1 :: b2 :: b3 :: t, hbytes, _, hpos =>
        have hb1 : b1 < 256 := hbytes b1 (by simp)
        have hb2 : b2 < 256 := hbytes b2 (by simp)
        have hb3 : b3 < 256 := hbytes b3 (by simp)
        rw [get_generic_width4 b0 b1 b2 b3 t left (by omega) hb1 hb2 hb3 hfit] at hpos ⊢
        split_ifs at hpos ⊢ with hc
        swap
        · exact absurd hpos (by decide)
        obtain ⟨hc1, hc2, hc3, hv, hs⟩ := hc
        have he : utf8_encode ((((b0 % 8) * 64 + b1 % 64) * 64 + b2 % 64) * 64 + b3 % 64) =
            [b0, b1, b2, b3] := by
          unfold utf8_encode
          rw [if_neg (by omega), if_neg (by omega), if_neg (by omega)]
          congr 1
          · omega
          · congr 1
            · omega
            · congr 1
              · omega
              · congr 1; omega
        refine ⟨(((b0 % 8) * 64 + b1 % 64) * 64 + b2 % 64) * 64 + b3 % 64,
          ⟨by omega, by omega⟩, ?_, ?_, ?_⟩
        · rw [he]; simp
        · rw [he]; rfl
        · rw [he]; simpa using hfit

/-- The first byte of a non-empty well-formed buffer announces the width of
the first encoding. -/
theorem utf8_well_formed_lead (b : Nat) (t : List Nat) (h : utf8_well_formed (b :: t)) :
    ∃ c r, utf8_is_scalar c ∧ utf8_well_formed r ∧ b :: t = utf8_encode c ++ r ∧
      fy_utf8_width_by_first_octet b = (utf8_encode c).length ∧
      1 ≤ (utf8_encode c).length ∧ (utf8_encode c).length ≤ 4 := by
  generalize e : b :: t = s at h
  cases h with
  | nil => simp at e
  | cons c rest hc hr =>
    refine ⟨c, rest, hc, hr, rfl, ?_, utf8_encode_length_pos c, utf8_encode_length_le c⟩
    rcases utf8_encode_shape c hc with ⟨h1, e'⟩ | ⟨h1, b', t', e', hb1, hb2, _, hw⟩
    · rw [e'] at e ⊢
      simp only [List.cons_append, List.nil_append, List.cons.injEq] at e
      rw [e.1, width_by_first_octet_eq c (by omega)]
      simp [h1]
    · rw [e'] at e ⊢
      simp only [List.cons_append, List.cons.injEq] at e
      rw [e.1, hw]
      rfl

end Cfyaml

/-! ## Percent-escape validation on well-formed input -/

namespace Cfyaml

/-- One iteration of the escape loop on '%' followed by two hexadecimal
digits. -/
theorem escape_step (n : Nat) (h1 h2 v1 v2 : Nat) (s2 : List Nat) (w width k : Nat)
    (octs : List Nat) (e1 : hex_digit_value h1 = some v1) (e2 : hex_digit_value h2 = some v2)
    (hw : width = 0 → w = 1) :
    fy_tag_uri_is_valid_escape (n + 1) (0x25 :: h1 :: h2 :: s2) w width k octs =
      if width = 0 then
        (if fy_utf8_width_by_first_octet (v1 * 16 + v2) < 1 ∨
            fy_utf8_width_by_first_octet (v1 * 16 + v2) > 4 then some none
         else if fy_utf8_width_by_first_octet (v1 * 16 + v2) - 1 > 0 then
           fy_tag_uri_is_valid_escape n s2 1 (fy_utf8_width_by_first_octet (v1 * 16 + v2) - 1) 1
             (octs.set 0 (v1 * 16 + v2))
         else some (some (s2, octs.set 0 (v1 * 16 + v2), 1)))
      else
        (if width - 1 > 0 then
           fy_tag_uri_is_valid_escape n s2 1 (width - 1) (k + 1) (octs.set k (v1 * 16 + v2))
         else some (some (s2, octs.set k (v1 * 16 + v2), k + 1))) := by
  have hlen : ¬ ((((0x25 :: h1 :: h2 :: s2 : List Nat).length : Nat) : Int) < 3) := by
    simp only [List.length_cons]; push_cast; omega
  have hcw : (if width > 0 then
      fy_utf8_get (0x25 :: h1 :: h2 :: s2) ((0x25 :: h1 :: h2 :: s2 : List Nat).length : Int)
      else (((0x25 : Int)), w)) = (0x25, 1) := by
    by_cases hz : width > 0
    · rw [if_pos hz]
      exact get_ascii 0x25 _ _ (by decide) (one_le_length_cons _ _)
    · rw [if_neg hz, hw (by omega)]
  conv_lhs => unfold fy_tag_uri_is_valid_escape
  simp only [hlen, if_false, hcw, ne_eq, not_true_eq_false, List.drop_succ_cons, List.drop_zero,
    hex2_ok h1 h2 v1 v2 s2 1 e1 e2]
  by_cases hz : width = 0
  · subst hz
    simp only [decide_True, if_true, true_and, Nat.zero_add]
  · simp only [hz, decide_False, Bool.false_eq_true, if_false, false_and]

/-- The escape loop returns false on a well-formed buffer that does not have
'%' and two hexadecimal digits at the cursor. -/
theorem escape_fail (n : Nat) (s : List Nat) (w width k : Nat) (octs : List Nat)
    (hwf : utf8_well_formed s)
    (hbad : s.head? ≠ some 0x25 ∨ starts_with_two_hex s.tail = false)
    (hw : width = 0 → w = 1 ∧ s.head? = some 0x25) :
    fy_tag_uri_is_valid_escape (n + 1) s w width k octs = some none := by
  unfold fy_tag_uri_is_valid_escape
  by_cases hlen : ((s.length : Nat) : Int) < 3
  · rw [if_pos hlen]
  rw [if_neg hlen]
  dsimp only
  by_cases hc : (if width > 0 then fy_utf8_get s (s.length : Int) else ((0x25 : Int), w)).1 ≠ 0x25
  · rw [if_pos hc]
  rw [if_neg hc]
  have hc' := not_not.1 hc
  -- the cursor is on a '%' of width one
  have hs : ∃ t, s = 0x25 :: t ∧ utf8_well_formed t ∧
      (if width > 0 then fy_utf8_get s (s.length : Int) else ((0x25 : Int), w)) = (0x25, 1) := by
    by_cases hz : width > 0
    · rw [if_pos hz] at hc' ⊢
      exact get_well_formed_ascii s hwf 0x25 (by decide) hc'
    · rw [if_neg hz]
      obtain ⟨hw1, hh⟩ := hw (by omega)
      cases s with
      | nil => simp at hh
      | cons b t =>
        simp only [List.head?_cons, Option.some.injEq] at hh
        subst hh
        exact ⟨t, rfl, utf8_well_formed_tail _ t (by decide) hwf, by rw [hw1]⟩
  obtain ⟨t, rfl, hwt, hcw⟩ := hs
  have htwo : starts_with_two_hex t = false := by
    rcases hbad with h | h
    · exact absurd rfl h
    · exact h
  rw [hcw]
  simp only [List.drop_succ_cons, List.drop_zero, hex2_fail t 1 hwt htwo]

theorem has_bad_percent_append (p r : List Nat) (hp : ∀ x ∈ p, x ≠ 0x25) :
    has_bad_percent (p ++ r) = has_bad_percent r := by
  induction p with
  | nil => rfl
  | cons b p ih =>
    have hb : (b == 0x25) = false := by
      simpa using hp b (by simp)
    simp only [List.cons_append, has_bad_percent, hb, Bool.false_and, Bool.false_or]
    exact ih (fun x hx => hp x (by simp [hx]))

theorem has_bad_percent_encode (c : Nat) (r : List Nat) (hc : utf8_is_scalar c)
    (hne : c ≠ 0x25) : has_bad_percent (utf8_encode c ++ r) = has_bad_percent r := by
  apply has_bad_percent_append
  intro x hx
  have := utf8_encode_bytes c hc x hx
  by_cases h : c < 0x80
  · have := this.2.2 h; omega
  · have := this.2.1 (by omega); omega

/-- The escape loop on a well-formed buffer that contains a bad '%': it
returns false, or leaves a shorter well-formed buffer that still contains a
bad '%'. -/
theorem escape_bad (n : Nat) : ∀ (s : List Nat) (w width k : Nat) (octs : List Nat),
    utf8_well_formed s → has_bad_percent s = true →
    (width = 0 → w = 1 ∧ s.head? = some 0x25 ∧ 4 ≤ n) → (0 < width → width ≤ n) →
    fy_tag_uri_is_valid_escape n s w width k octs = some none ∨
    ∃ s' octs' k', fy_tag_uri_is_valid_escape n s w width k octs = some (some (s', octs', k')) ∧
      utf8_well_formed s' ∧ has_bad_percent s' = true ∧ s'.length < s.length := by
  induction n with
  | zero =>
    intro s w width k octs _ _ h0 h1
    by_cases hz : width = 0
    · have := (h0 hz).2.2; omega
    · have := h1 (by omega); omega
  | succ n ih =>
    intro s w width k octs hwf hbad h0 h1
    by_cases hgood : s.head? = some 0x25 ∧ starts_with_two_hex s.tail = true
    swap
    · left
      apply escape_fail n s w width k octs hwf
      · by_cases hh : s.head? = some 0x25
        · right
          have : ¬ starts_with_two_hex s.tail = true := fun h => hgood ⟨hh, h⟩
          simpa using this
        · left; exact hh
      · intro hz; exact ⟨(h0 hz).1, (h0 hz).2.1⟩
    obtain ⟨hh, htwo⟩ := hgood
    -- the cursor is on '%' and two hexadecimal digits
    match s, hwf, hbad, hh, htwo with
    | p :: h1' :: h2' :: s2, hwf, hbad, hh, htwo =>
      simp only [List.head?_cons, Option.some.injEq] at hh
      subst hh
      simp only [List.tail_cons, starts_with_two_hex, Bool.and_eq_true,
        Option.isSome_iff_exists] at htwo
      obtain ⟨⟨v1, e1⟩, ⟨v2, e2⟩⟩ := htwo
      have f1 := hex_value_facts h1' v1 e1
      have f2 := hex_value_facts h2' v2 e2
      have hw1 := utf8_well_formed_tail _ _ (by decide) hwf
      have hw2 := utf8_well_formed_tail _ _ f1.1 hw1
      have hw3 := utf8_well_formed_tail _ _ f2.1 hw2
      have hb3 : has_bad_percent s2 = true := by
        have e : (0x25 :: h1' :: h2' :: s2 : List Nat) = [0x25] ++ ([h1', h2'] ++ s2) := rfl
        have htwo' : starts_with_two_hex (h1' :: h2' :: s2) = true := by
          simp [starts_with_two_hex, e1, e2]
        simp only [has_bad_percent, htwo', Bool.not_true, Bool.and_false, Bool.false_or] at hbad
        have hx : ∀ x ∈ [h1', h2'], x ≠ 0x25 := by
          intro x hx
          simp only [List.mem_cons, List.mem_singleton, List.not_mem_nil, or_false] at hx
          rcases hx with rfl | rfl
          · exact f1.2.2.2
          · exact f2.2.2.2
        have := has_bad_percent_append [h1', h2'] s2 hx
        simp only [List.cons_append, List.nil_append, has_bad_percent] at this
        rw [← this]
        simpa [has_bad_percent] using hbad
      rw [escape_step n h1' h2' v1 v2 s2 w width k octs e1 e2 (fun hz => (h0 hz).1)]
      by_cases hz : width = 0
      · rw [if_pos hz]
        by_cases hW : fy_utf8_width_by_first_octet (v1 * 16 + v2) < 1 ∨
            fy_utf8_width_by_first_octet (v1 * 16 + v2) > 4
        · left; rw [if_pos hW]
        rw [if_neg hW]
        by_cases hW1 : fy_utf8_width_by_first_octet (v1 * 16 + v2) - 1 > 0
        · rw [if_pos hW1]
          have hn := (h0 hz).2.2
          rcases ih s2 1 (fy_utf8_width_by_first_octet (v1 * 16 + v2) - 1) 1
            (octs.set 0 (v1 * 16 + v2)) hw3 hb3 (fun h => by omega)
            (fun _ => by omega) with h | ⟨s', octs', k', h, hws, hbs, hls⟩
          · left; exact h
          · right
            exact ⟨s', octs', k', h, hws, hbs, by simp only [List.length_cons]; omega⟩
        · rw [if_neg hW1]
          right
          exact ⟨s2, _, _, rfl, hw3, hb3, by simp only [List.length_cons]; omega⟩
      · rw [if_neg hz]
        by_cases hW1 : width - 1 > 0
        · rw [if_pos hW1]
          have hn := h1 (by omega)
          rcases ih s2 1 (width - 1) (k + 1) (octs.set k (v1 * 16 + v2)) hw3 hb3
            (fun h => by omega) (fun _ => by omega) with h | ⟨s', octs', k', h, hws, hbs, hls⟩
          · left; exact h
          · right
            exact ⟨s', octs', k', h, hws, hbs, by simp only [List.length_cons]; omega⟩
        · rw [if_neg hW1]
          right
          exact ⟨s2, _, _, rfl, hw3, hb3, by simp only [List.length_cons]; omega⟩
    | [_], _, _, _, htwo => simp [starts_with_two_hex] at htwo
    | [_, _], _, _, _, htwo => simp [starts_with_two_hex] at htwo
    | [], _, _, hh, _ => simp at hh

/-- The validation loop returns false on a well-formed buffer that contains
a bad '%'. -/
theorem valid_loop_bad (fuel : Nat) : ∀ s : List Nat, utf8_well_formed s →
    has_bad_percent s = true → s.length < fuel → fy_tag_uri_is_valid_loop fuel s = some false := by
  induction fuel with
  | zero => intro s _ _ h; omega
  | succ f ih =>
    intro s hwf hbad hlen
    have hne : s ≠ [] := by
      rintro rfl
      simp [has_bad_percent] at hbad
    obtain ⟨c, r, hc, hr, e, hget⟩ := get_well_formed s hwf hne
    unfold fy_tag_uri_is_valid_loop
    dsimp only
    have hpos : (fy_utf8_get s (s.length : Int)).1 ≥ 0 := by
      rw [hget]; exact Int.natCast_nonneg c
    rw [if_pos hpos]
    by_cases h25 : c = 0x25
    · have hc1 : ¬ ((fy_utf8_get s (s.length : Int)).1 ≠ 0x25) := by
        rw [hget, h25]; simp
      rw [if_neg hc1]
      have hw1 : (fy_utf8_get s (s.length : Int)).2 = 1 := by
        rw [hget, h25]; rfl
      have hhead : s.head? = some 0x25 := by
        rw [e, h25]; rfl
      rw [hw1]
      rcases escape_bad 4 s 1 0 0 [0, 0, 0, 0] hwf hbad (fun _ => ⟨rfl, hhead, le_refl 4⟩)
        (fun h => by omega) with h | ⟨s', octs', k', h, hws, hbs, hls⟩
      · rw [h]
      · rw [h]
        dsimp only
        split_ifs
        · rfl
        · exact ih s' hws hbs (by omega)
    · have hc1 : (fy_utf8_get s (s.length : Int)).1 ≠ 0x25 := by
        rw [hget]
        show (c : Int) ≠ 0x25
        omega
      rw [if_pos hc1, hget]
      dsimp only
      rw [e, List.drop_left]
      apply ih r hr
      · rw [e, has_bad_percent_encode c r hc h25] at hbad
        exact hbad
      · rw [e, List.length_append] at hlen
        have := utf8_encode_length_pos c
        omega

/-- The validation loop returns true on a well-formed buffer without '%'. -/
theorem valid_loop_plain (fuel : Nat) : ∀ s : List Nat, utf8_well_formed s →
    0x25 ∉ s → s.length < fuel → fy_tag_uri_is_valid_loop fuel s = some true := by
  induction fuel with
  | zero => intro s _ _ h; omega
  | succ f ih =>
    intro s hwf hno hlen
    unfold fy_tag_uri_is_valid_loop
    dsimp only
    by_cases hne : s = []
    · subst hne
      rw [get_nil _ (by simp)]
      rfl
    obtain ⟨c, r, hc, hr, e, hget⟩ := get_well_formed s hwf hne
    have hpos : (fy_utf8_get s (s.length : Int)).1 ≥ 0 := by
      rw [hget]; exact Int.natCast_nonneg c
    rw [if_pos hpos]
    have h25 : c ≠ 0x25 := by
      rintro rfl
      apply hno
      rw [e]
      have : utf8_encode 0x25 = [0x25] := by decide
      rw [this]
      simp
    have hc1 : (fy_utf8_get s (s.length : Int)).1 ≠ 0x25 := by
      rw [hget]
      show (c : Int) ≠ 0x25
      omega
    rw [if_pos hc1, hget]
    dsimp only
    rw [e, List.drop_left]
    apply ih r hr
    · intro hm
      apply hno
      rw [e]
      exact List.mem_append_right _ hm
    · rw [e, List.length_append] at hlen
      have := utf8_encode_length_pos c
      omega

/-- C9: for every well-formed UTF-8 input, `fy_tag_uri_is_valid` returns false
if the input contains a '%' that is not immediately followed by two
hexadecimal digits (a '%' with fewer than two characters after it included),
and returns true if the input contains no '%' at all. -/
theorem C9_uri_is_valid_percent (data : List Nat) (hwf : utf8_well_formed data) :
    (has_bad_percent data = true → fy_tag_uri_is_valid data = some false) ∧
    (0x25 ∉ data → fy_tag_uri_is_valid data = some true) :=
  ⟨fun h => valid_loop_bad _ data hwf h (Nat.lt_succ_self _),
   fun h => valid_loop_plain _ data hwf h (Nat.lt_succ_self _)⟩

/-- C9, witness: "a%4" has a '%' followed by one digit only; "é!" (C3 A9 21)
has no '%'. -/
theorem C9_uri_is_valid_percent_witness :
    fy_tag_uri_is_valid [0x61, 0x25, 0x34] = some false ∧
    fy_tag_uri_is_valid (utf8_encode 0xE9 ++ (utf8_encode 0x21 ++ [])) = some true :=
  ⟨(C9_uri_is_valid_percent [0x61, 0x25, 0x34]
      (utf8_well_formed.cons 0x61 _ (by decide)
        (utf8_well_formed.cons 0x25 _ (by decide)
          (utf8_well_formed.cons 0x34 _ (by decide) utf8_well_formed.nil)))).1 (by decide),
   (C9_uri_is_valid_percent (utf8_encode 0xE9 ++ (utf8_encode 0x21 ++ []))
      (utf8_well_formed.cons 0xE9 _ (by decide)
        (utf8_well_formed.cons 0x21 _ (by decide) utf8_well_formed.nil))).2 (by decide)⟩

end Cfyaml

/-! ## Percent-encoded byte sequences -/

namespace Cfyaml

theorem percent_encoding_nil (B : List Nat) (h : is_percent_encoding [] B = true) : B = [] := by
  cases B with
  | nil => rfl
  | cons b B => simp [is_percent_encoding] at h

theorem percent_encoding_cons (text : List Nat) (b : Nat) (B : List Nat)
    (h : is_percent_encoding text (b :: B) = true) :
    ∃ h1 h2 text', text = 0x25 :: h1 :: h2 :: text' ∧ hex_digit_value h1 = some (b / 16) ∧
      hex_digit_value h2 = some (b % 16) ∧ is_percent_encoding text' B = true ∧ b < 256 := by
  match text, h with
  | [], h => simp [is_percent_encoding] at h
  | [_], h => simp [is_percent_encoding] at h
  | [_, _], h => simp [is_percent_encoding] at h
  | p :: h1 :: h2 :: text', h =>
    simp only [is_percent_encoding, Bool.and_eq_true, beq_iff_eq] at h
    obtain ⟨⟨⟨hp, e1⟩, e2⟩, hr⟩ := h
    have := (hex_value_facts h1 _ e1).2.2.1
    exact ⟨h1, h2, text', by rw [hp], e1, e2, hr, by omega⟩

theorem percent_encoding_bytes (text B : List Nat) (h : is_percent_encoding text B = true) :
    ∀ b ∈ B, b < 256 := by
  induction B generalizing text with
  | nil => intro b hb; simp at hb
  | cons b B ih =>
    obtain ⟨h1, h2, text', _, _, _, hr, hb⟩ := percent_encoding_cons text b B h
    intro x hx
    rcases List.mem_cons.1 hx with rfl | hx
    · exact hb
    · exact ih text' hr x hx

theorem percent_encoding_length (text B : List Nat) (h : is_percent_encoding text B = true) :
    text.length = 3 * B.length := by
  induction B generalizing text with
  | nil =>
    cases text with
    | nil => rfl
    | cons p t => 
      cases t with
      | nil => simp [is_percent_encoding] at h
      | cons q t =>
        cases t with
        | nil => simp [is_percent_encoding] at h
        | cons r t => simp [is_percent_encoding] at h
  | cons b B ih =>
    obtain ⟨h1, h2, text', e, _, _, hr, _⟩ := percent_encoding_cons text b B h
    rw [e]
    simp only [List.length_cons, ih text' hr]
    omega

theorem percent_encoding_drop (n : Nat) : ∀ (text B : List Nat),
    is_percent_encoding text B = true →
    is_percent_encoding (text.drop (3 * n)) (B.drop n) = true := by
  induction n with
  | zero => intro text B h; simpa using h
  | succ n ih =>
    intro text B h
    cases B with
    | nil =>
      have : text = [] := by
        have := percent_encoding_length text [] h
        simpa using this
      subst this
      simpa using h
    | cons b B =>
      obtain ⟨h1, h2, text', e, _, _, hr, _⟩ := percent_encoding_cons text b B h
      subst e
      have e3 : 3 * (n + 1) = 3 * n + 1 + 1 + 1 := by omega
      rw [e3]
      simp only [List.drop_succ_cons]
      exact ih text' B hr

/-- The escape loop in continuation mode over percent-encoded bytes: it stores
the next `width` bytes, or returns false when fewer are left. -/
theorem escape_continue (n : Nat) : ∀ (text B : List Nat) (w width k : Nat) (octs : List Nat),
    is_percent_encoding text B = true → 0 < width → width ≤ n →
    fy_tag_uri_is_valid_escape n text w width k octs =
      if B.length < width then some none
      else some (some (text.drop (3 * width), store_octets octs k (B.take width), k + width)) := by
  induction n with
  | zero => intro _ _ _ width _ _ _ h1 h2; omega
  | succ n ih =>
    intro text B w width k octs h hpos hle
    cases B with
    | nil =>
      have : text = [] := by
        have := percent_encoding_length text [] h
        simpa using this
      subst this
      rw [if_pos (by simpa using hpos)]
      unfold fy_tag_uri_is_valid_escape
      rw [if_pos (by simp)]
    | cons b B =>
      obtain ⟨h1, h2, text', e, e1, e2, hr, hb⟩ := percent_encoding_cons text b B h
      subst e
      obtain ⟨m, rfl⟩ : ∃ m, width = m + 1 := ⟨width - 1, by omega⟩
      rw [escape_step n h1 h2 (b / 16) (b % 16) text' w (m + 1) k octs e1 e2 (fun h => by omega)]
      have ho : b / 16 * 16 + b % 16 = b := by omega
      rw [if_neg (by omega), ho]
      have e3 : 3 * (m + 1) = 3 * m + 1 + 1 + 1 := by omega
      by_cases hm : m + 1 - 1 > 0
      · rw [if_pos hm]
        have hm' : m + 1 - 1 = m := by omega
        rw [hm', ih text' B 1 m (k + 1) (octs.set k b) hr (by omega) (by omega)]
        by_cases hl : B.length < m
        · rw [if_pos hl, if_pos (by simp only [List.length_cons]; omega)]
        · rw [if_neg hl, if_neg (by simp only [List.length_cons]; omega), e3]
          simp only [List.drop_succ_cons, List.take_succ_cons, store_octets]
          congr 4
          omega
      · rw [if_neg hm]
        have hm0 : m = 0 := by omega
        subst hm0
        rw [if_neg (by simp only [List.length_cons]; omega)]
        simp only [Nat.mul_one, Nat.zero_add, List.drop_succ_cons, List.drop_zero,
          List.take_succ_cons, List.take_zero, store_octets]

end Cfyaml

/-! ## Percent-escape validation agrees with UTF-8 well-formedness -/

namespace Cfyaml

theorem width_by_first_octet_le (b : Nat) (hb : b < 256) :
    fy_utf8_width_by_first_octet b ≤ 4 ∧ (fy_utf8_width_by_first_octet b = 1 ↔ b < 0x80) := by
  rw [width_by_first_octet_eq b hb]
  constructor
  · split_ifs <;> omega
  · split_ifs <;> constructor <;> intro h <;> first | omega | contradiction

theorem store_octets_take (b : Nat) (P : List Nat) (hP : P.length ≤ 3) :
    store_octets [b, 0, 0, 0] 1 P = (b :: P) ++ List.replicate (3 - P.length) 0 := by
  match P, hP with
  | [], _ => rfl
  | [_], _ => rfl
  | [_, _], _ => rfl
  | [_, _, _], _ => rfl
  | _ :: _ :: _ :: _ :: _, hP => exact absurd hP (by simp)

/-- One turn of the validation loop on the percent-encoding of `b :: B`. -/
theorem valid_loop_step (f : Nat) (text : List Nat) (b : Nat) (B : List Nat)
    (h : is_percent_encoding text (b :: B) = true) :
    fy_tag_uri_is_valid_loop (f + 1) text =
      if fy_utf8_width_by_first_octet b = 0 then some false
      else if B.length < fy_utf8_width_by_first_octet b - 1 then some false
      else if (fy_utf8_get ((b :: B.take (fy_utf8_width_by_first_octet b - 1)) ++
          List.replicate (3 - (B.take (fy_utf8_width_by_first_octet b - 1)).length) 0)
          ((fy_utf8_width_by_first_octet b : Nat) : Int)).1 < 0 then some false
      else fy_tag_uri_is_valid_loop f (text.drop (3 * fy_utf8_width_by_first_octet b)) := by
  obtain ⟨h1, h2, text', e, e1, e2, hr, hb⟩ := percent_encoding_cons text b B h
  subst e
  have hW := width_by_first_octet_le b hb
  have ho : b / 16 * 16 + b % 16 = b := by omega
  conv_lhs => unfold fy_tag_uri_is_valid_loop
  rw [get_ascii 0x25 _ _ (by decide) (one_le_length_cons _ _)]
  have c1 : ((0x25 : Nat) : Int) ≥ 0 := by decide
  have c2 : ¬ (((0x25 : Nat) : Int) ≠ 0x25) := by decide
  simp only [c1, c2, if_true, if_false]
  rw [escape_step 3 h1 h2 (b / 16) (b % 16) text' 1 0 0 [0, 0, 0, 0] e1 e2 (fun _ => rfl)]
  rw [if_pos rfl, ho]
  generalize hWd : fy_utf8_width_by_first_octet b = W at hW ⊢
  by_cases hW0 : W = 0
  · subst hW0
    simp
  rw [if_neg (by omega), if_neg hW0]
  by_cases hW1 : W - 1 > 0
  · rw [if_pos hW1, escape_continue 3 text' B 1 (W - 1) 1 _ hr hW1 (by omega)]
    by_cases hl : B.length < W - 1
    · rw [if_pos hl, if_pos hl]
    · rw [if_neg hl, if_neg hl]
      dsimp only
      have hset : ([0, 0, 0, 0] : List Nat).set 0 b = [b, 0, 0, 0] := rfl
      have hk : 1 + (W - 1) = W := by omega
      have e3 : 3 * W = 3 * (W - 1) + 1 + 1 + 1 := by omega
      rw [hset, store_octets_take b _ (by rw [List.length_take]; omega), hk, e3]
      simp only [List.drop_succ_cons]
  · rw [if_neg hW1]
    have hW' : W = 1 := by omega
    subst hW'
    dsimp only
    have hset : ([0, 0, 0, 0] : List Nat).set 0 b = [b, 0, 0, 0] := rfl
    have hpad : ([b] : List Nat) ++ List.replicate 3 0 = [b, 0, 0, 0] := rfl
    have hg : fy_utf8_get [b, 0, 0, 0] (((1 : Nat) : Int)) = ((b : Int), 1) :=
      get_ascii b _ _ (hW.2.1 rfl) (by decide)
    have hg' : fy_utf8_get [b, 0, 0, 0] 1 = ((b : Int), 1) := hg
    have hnn : ¬ ((b : Int) < 0) := by omega
    simp only [hset, Nat.sub_self, List.take_zero, List.length_nil, Nat.sub_zero, Nat.mul_one,
      List.drop_succ_cons, List.drop_zero, hpad, hg, hg', hnn, if_false, Nat.not_lt_zero]

/-- Well-formedness of a non-empty byte sequence, read off its first byte. -/
theorem utf8_well_formed_cons_iff (b : Nat) (B : List Nat) (hbytes : ∀ x ∈ b :: B, x < 256) :
    utf8_well_formed (b :: B) ↔
      (fy_utf8_width_by_first_octet b ≠ 0 ∧ fy_utf8_width_by_first_octet b - 1 ≤ B.length ∧
        0 ≤ (fy_utf8_get ((b :: B.take (fy_utf8_width_by_first_octet b - 1)) ++
          List.replicate (3 - (B.take (fy_utf8_width_by_first_octet b - 1)).length) 0)
          ((fy_utf8_width_by_first_octet b : Nat) : Int)).1 ∧
        utf8_well_formed (B.drop (fy_utf8_width_by_first_octet b - 1))) := by
  have hb : b < 256 := hbytes b (by simp)
  have hW := width_by_first_octet_le b hb
  constructor
  · intro hwf
    obtain ⟨c, r, hc, hr, e, hw, hw1, hw4⟩ := utf8_well_formed_lead b B hwf
    rw [hw]
    -- the encoding is b followed by the first bytes of B
    obtain ⟨t, et⟩ : ∃ t, utf8_encode c = b :: t := by
      cases hec : utf8_encode c with
      | nil => rw [hec] at hw1; simp at hw1
      | cons x t =>
        rw [hec] at e
        simp only [List.cons_append, List.cons.injEq] at e
        exact ⟨t, by rw [e.1]⟩
    have eB : B = t ++ r := by
      rw [et] at e
      simpa using e
    have hlen : (utf8_encode c).length = t.length + 1 := by rw [et]; rfl
    have htake : B.take ((utf8_encode c).length - 1) = t := by
      rw [hlen, eB]; simp
    have hdrop : B.drop ((utf8_encode c).length - 1) = r := by
      rw [hlen, eB]; simp
    refine ⟨by omega, by rw [hlen, eB]; simp, ?_, by rw [hdrop]; exact hr⟩
    rw [htake, ← et, get_encode c _ _ hc (le_refl _)]
    exact Int.natCast_nonneg c
  · rintro ⟨hW0, hlen, hpos, hwf⟩
    generalize hWd : fy_utf8_width_by_first_octet b = W at *
    have hlt : (B.take (W - 1)).length = W - 1 := by
      rw [List.length_take]; omega
    have hbytes' : ∀ x ∈ (b :: B.take (W - 1)) ++ List.replicate (3 - (B.take (W - 1)).length) 0,
        x < 256 := by
      intro x hx
      rcases List.mem_append.1 hx with hx | hx
      · rcases List.mem_cons.1 hx with rfl | hx
        · exact hb
        · exact hbytes x (List.mem_cons_of_mem _ (List.mem_of_mem_take hx))
      · rw [List.eq_of_mem_replicate hx]; omega
    obtain ⟨c, hc, htk, hget, hle⟩ := get_sound _ (W : Int) hbytes'
      (by simp only [List.length_append, List.length_cons, List.length_replicate, hlt]
          push_cast
          omega) hpos
    -- the encoding found starts with b, so its length is W
    have hcl : (utf8_encode c).length = W := by
      have hpos' := utf8_encode_length_pos c
      rcases utf8_encode_shape c hc with ⟨h1, e'⟩ | ⟨h1, b', t', e', hb1, hb2, _, hw⟩
      · rw [e'] at htk ⊢
        simp only [List.length_cons, List.length_nil, Nat.zero_add, List.cons_append,
          List.take_succ_cons, List.take_zero, List.cons.injEq, and_true] at htk
        have : W = 1 := hW.2.2 (by omega)
        rw [this]; rfl
      · rw [e'] at htk ⊢
        simp only [List.length_cons, List.cons_append, List.take_succ_cons,
          List.cons.injEq] at htk
        rw [← htk.1] at hw
        rw [← hWd, hw]
        rfl
    have hP : utf8_encode c = b :: B.take (W - 1) := by
      rw [← htk, hcl]
      have : ((b :: B.take (W - 1)) : List Nat).length = W := by
        simp only [List.length_cons, hlt]; omega
      rw [List.take_left' this]
    have eB : b :: B = utf8_encode c ++ B.drop (W - 1) := by
      rw [hP]
      simp only [List.cons_append, List.take_append_drop]
    rw [eB]
    exact utf8_well_formed.cons c _ hc hwf

/-- The validation loop on the percent-encoding of a byte sequence: true when
the bytes are well-formed UTF-8, false otherwise. -/
theorem valid_loop_percent (fuel : Nat) : ∀ (text B : List Nat),
    is_percent_encoding text B = true → text.length < fuel →
    (utf8_well_formed B → fy_tag_uri_is_valid_loop fuel text = some true) ∧
    (¬ utf8_well_formed B → fy_tag_uri_is_valid_loop fuel text = some false) := by
  induction fuel with
  | zero => intro _ _ _ h; omega
  | succ f ih =>
    intro text B h hlen
    cases B with
    | nil =>
      have : text = [] := by
        have := percent_encoding_length text [] h
        simpa using this
      subst this
      constructor
      · intro _
        unfold fy_tag_uri_is_valid_loop
        rw [get_nil _ (by simp)]
        rfl
      · intro hn; exact absurd utf8_well_formed.nil hn
    | cons b B =>
      have hbytes := percent_encoding_bytes text (b :: B) h
      have hiff := utf8_well_formed_cons_iff b B hbytes
      have hstep := valid_loop_step f text b B h
      have hdrop := percent_encoding_drop (fy_utf8_width_by_first_octet b) text (b :: B) h
      have htl := percent_encoding_length text (b :: B) h
      generalize hWd : fy_utf8_width_by_first_octet b = W at *
      by_cases hW0 : W = 0
      · rw [hstep, if_pos hW0]
        exact ⟨fun hwf => absurd hW0 (hiff.1 hwf).1, fun _ => rfl⟩
      rw [hstep, if_neg hW0]
      have hdl : (text.drop (3 * W)).length < f := by
        rw [List.length_drop]
        simp only [List.length_cons] at htl
        omega
      by_cases hl : B.length < W - 1
      · rw [if_pos hl]
        exact ⟨fun hwf => absurd (hiff.1 hwf).2.1 (by omega), fun _ => rfl⟩
      rw [if_neg hl]
      have hdr : (b :: B).drop W = B.drop (W - 1) := by
        obtain ⟨m, rfl⟩ : ∃ m, W = m + 1 := ⟨W - 1, by omega⟩
        simp
      rw [hdr] at hdrop
      have hrec := ih _ _ hdrop hdl
      split_ifs with hneg
      · exact ⟨fun hwf => absurd (hiff.1 hwf).2.2.1 (by omega), fun _ => rfl⟩
      · constructor
        · intro hwf
          exact hrec.1 (hiff.1 hwf).2.2.2
        · intro hn
          apply hrec.2
          intro hwf'
          exact hn (hiff.2 ⟨hW0, by omega, by omega, hwf'⟩)

/-- C8: percent-escape validation agrees with UTF-8 well-formedness: for every
byte sequence B (the empty one included) and every text that writes each byte
of B as '%' followed by its two hexadecimal digits (upper or lower case),
`fy_tag_uri_is_valid` accepts the text if B is well-formed UTF-8 and rejects
it otherwise. -/
theorem C8_uri_is_valid_iff_well_formed (text B : List Nat)
    (h : is_percent_encoding text B = true) :
    (fy_tag_uri_is_valid text = some true ↔ utf8_well_formed B) ∧
    (fy_tag_uri_is_valid text = some false ↔ ¬ utf8_well_formed B) := by
  have key := valid_loop_percent (text.length + 1) text B h (Nat.lt_succ_self _)
  unfold fy_tag_uri_is_valid
  by_cases hwf : utf8_well_formed B
  · have e := key.1 hwf
    rw [e]
    exact ⟨⟨fun _ => hwf, fun _ => rfl⟩, ⟨fun h' => by simp at h', fun h' => absurd hwf h'⟩⟩
  · have e := key.2 hwf
    rw [e]
    exact ⟨⟨fun h' => by simp at h', fun h' => absurd h' hwf⟩, ⟨fun _ => hwf, fun _ => rfl⟩⟩

/-- C8, witness: "%c3%A9" writes the bytes C3 A9, the encoding of U+00E9. -/
theorem C8_uri_is_valid_iff_well_formed_witness :
    is_percent_encoding [0x25, 0x63, 0x33, 0x25, 0x41, 0x39] [0xC3, 0xA9] = true ∧
    (fy_tag_uri_is_valid [0x25, 0x63, 0x33, 0x25, 0x41, 0x39] = some true ↔
      utf8_well_formed [0xC3, 0xA9]) :=
  ⟨by decide,
    (C8_uri_is_valid_iff_well_formed [0x25, 0x63, 0x33, 0x25, 0x41, 0x39] [0xC3, 0xA9]
      (by decide)).1⟩

end Cfyaml

/-! ## Expression kinds -/

namespace Cfyaml

/-- C10: the kind predicates partition the expression kinds:
`fy_path_expr_type_is_single_result` holds exactly for root, this, parent,
map_key, seq_index, alias and the four filter kinds;
`fy_path_expr_type_is_parent` holds exactly for multi, chain, logical_or and
logical_and; the two are never both true; a valid kind that satisfies neither
is every_child, every_child_r or seq_slice; `fpet_none` is not valid and
satisfies neither. -/
theorem C10_kind_predicates_partition (t : Int) :
    (fy_path_expr_type_is_single_result t = true ↔
      (t = fpet_root ∨ t = fpet_this ∨ t = fpet_parent ∨ t = fpet_map_key ∨
        t = fpet_seq_index ∨ t = fpet_alias ∨ t = fpet_filter_collection ∨
        t = fpet_filter_scalar ∨ t = fpet_filter_sequence ∨ t = fpet_filter_mapping)) ∧
    (fy_path_expr_type_is_parent t = true ↔
      (t = fpet_multi ∨ t = fpet_chain ∨ t = fpet_logical_or ∨ t = fpet_logical_and)) ∧
    ¬ (fy_path_expr_type_is_single_result t = true ∧ fy_path_expr_type_is_parent t = true) ∧
    (fy_path_expr_type_is_valid t = true → fy_path_expr_type_is_single_result t = false →
      fy_path_expr_type_is_parent t = false →
      (t = fpet_every_child ∨ t = fpet_every_child_r ∨ t = fpet_seq_slice)) ∧
    (fy_path_expr_type_is_valid fpet_none = false ∧
      fy_path_expr_type_is_single_result fpet_none = false ∧
      fy_path_expr_type_is_parent fpet_none = false) := by
  refine ⟨?_, ?_, ?_, ?_, ?_⟩
  · simp only [fy_path_expr_type_is_single_result, decide_eq_true_eq, fpet_root, fpet_this,
      fpet_parent, fpet_map_key, fpet_seq_index, fpet_alias, fpet_filter_collection,
      fpet_filter_scalar, fpet_filter_sequence, fpet_filter_mapping]
  · simp only [fy_path_expr_type_is_parent, decide_eq_true_eq, fpet_multi, fpet_chain,
      fpet_logical_or, fpet_logical_and]
  · simp only [fy_path_expr_type_is_single_result, fy_path_expr_type_is_parent,
      decide_eq_true_eq, fpet_root, fpet_this,
      fpet_parent, fpet_map_key, fpet_seq_index, fpet_alias, fpet_filter_collection,
      fpet_filter_scalar, fpet_filter_sequence, fpet_filter_mapping, fpet_multi, fpet_chain,
      fpet_logical_or, fpet_logical_and]
    omega
  · simp only [fy_path_expr_type_is_single_result, fy_path_expr_type_is_parent,
      fy_path_expr_type_is_valid, decide_eq_true_eq, decide_eq_false_iff_not, fpet_root,
      fpet_this, fpet_parent, fpet_map_key, fpet_seq_index, fpet_alias, fpet_filter_collection,
      fpet_filter_scalar, fpet_filter_sequence, fpet_filter_mapping, fpet_multi, fpet_chain,
      fpet_logical_or, fpet_logical_and, fpet_every_child, fpet_every_child_r, fpet_seq_slice]
    omega
  · decide

/-- C10, witness: `fpet_seq_slice` is valid, neither single-result nor a
parent kind, and is one of the three multi-result leaves. -/
theorem C10_kind_predicates_partition_witness :
    fy_path_expr_type_is_valid fpet_seq_slice = true ∧
      (fpet_seq_slice = fpet_every_child ∨ fpet_seq_slice = fpet_every_child_r ∨
        fpet_seq_slice = fpet_seq_slice) :=
  ⟨by decide,
    (C10_kind_predicates_partition fpet_seq_slice).2.2.2.1 (by decide) (by decide) (by decide)⟩

end Cfyaml

/-! ## Formatting one code point -/

namespace Cfyaml

open fy_utf8_escape

/-- The escape map of the code, read against the escape table of the claims. -/
theorem esc_map_all_eq (c : Int) :
    esc_map esc_all c = match escape_table.lookup c with
      | some l => (l : Int)
      | none => -1 := by
  unfold esc_map esc_all escape_table
  simp only [esc_map_loop, List.lookup]
  by_cases h1 : c = 0x5c
  · subst h1; rfl
  by_cases h2 : c = 0x00
  · subst h2; rfl
  by_cases h3 : c = 0x08
  · subst h3; rfl
  by_cases h4 : c = 0x0d
  · subst h4; rfl
  by_cases h5 : c = 0x09
  · subst h5; rfl
  by_cases h6 : c = 0x0c
  · subst h6; rfl
  by_cases h7 : c = 0x0a
  · subst h7; rfl
  by_cases h8 : c = 0x0b
  · subst h8; rfl
  by_cases h9 : c = 0x07
  · subst h9; rfl
  by_cases h10 : c = 0x1b
  · subst h10; rfl
  by_cases h11 : c = 0x85
  · subst h11; rfl
  by_cases h12 : c = 0xa0
  · subst h12; rfl
  by_cases h13 : c = 0x2028
  · subst h13; rfl
  by_cases h14 : c = 0x2029
  · subst h14; rfl
  have e1 : (c == 0x5c) = false := by simpa using h1
  have e2 : (c == 0x00) = false := by simpa using h2
  have e3 : (c == 0x08) = false := by simpa using h3
  have e4 : (c == 0x0d) = false := by simpa using h4
  have e5 : (c == 0x09) = false := by simpa using h5
  have e6 : (c == 0x0c) = false := by simpa using h6
  have e7 : (c == 0x0a) = false := by simpa using h7
  have e8 : (c == 0x0b) = false := by simpa using h8
  have e9 : (c == 0x07) = false := by simpa using h9
  have e10 : (c == 0x1b) = false := by simpa using h10
  have e11 : (c == 0x85) = false := by simpa using h11
  have e12 : (c == 0xa0) = false := by simpa using h12
  have e13 : (c == 0x2028) = false := by simpa using h13
  have e14 : (c == 0x2029) = false := by simpa using h14
  simp only [e1, e2, e3, e4, e5, e6, e7, e8, e9, e10, e11, e12, e13, e14]
  have n1 : ¬ ((0x5c : Int) = c) := fun e => h1 e.symm
  have n2 : ¬ ((0x00 : Int) = c) := fun e => h2 e.symm
  have n3 : ¬ ((0x08 : Int) = c) := fun e => h3 e.symm
  have n4 : ¬ ((0x0d : Int) = c) := fun e => h4 e.symm
  have n5 : ¬ ((0x09 : Int) = c) := fun e => h5 e.symm
  have n6 : ¬ ((0x0c : Int) = c) := fun e => h6 e.symm
  have n7 : ¬ ((0x0a : Int) = c) := fun e => h7 e.symm
  have n8 : ¬ ((0x0b : Int) = c) := fun e => h8 e.symm
  have n9 : ¬ ((0x07 : Int) = c) := fun e => h9 e.symm
  have n10 : ¬ ((0x1b : Int) = c) := fun e => h10 e.symm
  have n11 : ¬ ((0x85 : Int) = c) := fun e => h11 e.symm
  have n12 : ¬ ((0xa0 : Int) = c) := fun e => h12 e.symm
  have n13 : ¬ ((0x2028 : Int) = c) := fun e => h13 e.symm
  have n14 : ¬ ((0x2029 : Int) = c) := fun e => h14 e.symm
  simp [n1, n2, n3, n4, n5, n6, n7, n8, n9, n10, n11, n12, n13, n14]

/-- Every letter of the escape table is a positive byte, and no entry of the
table is a quote character. -/
theorem escape_table_lookup_facts (c : Int) (l : Nat) (h : escape_table.lookup c = some l) :
    0 < l ∧ l < 128 ∧ c ≠ 0x27 ∧ c ≠ 0x22 ∧ 0 ≤ c ∧ c < 0xd800 := by
  simp only [escape_table, List.lookup] at h
  repeat' split at h
  all_goals
    first
    | (simp at h; done)
    | (rename_i heq
       simp only [beq_iff_eq] at heq
       simp only [Option.some.injEq] at h
       subst heq
       subst h
       decide)

/-- C11: `fy_utf8_format(c, buf, esc)` stores the empty string when c is not a
valid code point (negative, a surrogate, or from 0x110000 up) under every
policy; a backslash followed by the escape letter when esc is not `fyue_none`
and c is in the escape table, or by the quote itself when c is the policy's
own quote character; and otherwise exactly the UTF-8 encoding of c. Under
`fyue_none` no code point is escaped. -/
theorem C11_format_code_point (c : Int) (esc : fy_utf8_escape) :
    ((c < 0 ∨ (0xD800 ≤ c ∧ c ≤ 0xDFFF) ∨ 0x110000 ≤ c) → fy_utf8_format c esc = []) ∧
    (¬ (c < 0 ∨ (0xD800 ≤ c ∧ c ≤ 0xDFFF) ∨ 0x110000 ≤ c) →
      (∀ l, esc ≠ fyue_none → escape_table.lookup c = some l →
        fy_utf8_format c esc = [0x5c, l]) ∧
      (escape_own_quote esc = some c → fy_utf8_format c esc = [0x5c, c.toNat]) ∧
      (escape_table.lookup c = none → escape_own_quote esc ≠ some c →
        fy_utf8_format c esc = utf8_encode c.toNat) ∧
      fy_utf8_format c fyue_none = utf8_encode c.toNat) := by
  constructor
  · intro h
    have hv : fy_utf8_is_valid c = false := by
      simp only [fy_utf8_is_valid, decide_eq_false_iff_not]
      omega
    simp only [fy_utf8_format, hv, Bool.not_false, if_true]
  intro h
  have hv : fy_utf8_is_valid c = true := by
    simp only [fy_utf8_is_valid, decide_eq_true_eq]
    omega
  refine ⟨?_, ?_, ?_, ?_⟩
  · intro l hesc hl
    have hf := escape_table_lookup_facts c l hl
    have hm : esc_map esc_all c = (l : Int) := by rw [esc_map_all_eq, hl]
    have hmap : fy_utf8_esc_map c esc = (l : Int) := by
      unfold fy_utf8_esc_map
      rw [if_neg hesc, if_neg (fun e => hf.2.2.1 e.2), if_neg (fun e => hf.2.2.2.1 e.2), hm]
    have hpos : (l : Int) > 0 := by omega
    have hmod : ((l : Int) % 256).toNat = l := by omega
    simp only [fy_utf8_format, hv, Bool.not_true, Bool.false_eq_true, if_false, hmap, hpos,
      if_true, hmod]
  · intro hq
    have hmap : fy_utf8_esc_map c esc = c ∧ (c = 0x27 ∨ c = 0x22) := by
      cases esc <;> simp only [escape_own_quote, Option.some.injEq] at hq <;>
        first
        | exact absurd hq (by simp)
        | (subst hq; exact ⟨by decide, by decide⟩)
    have hpos : c > 0 := by omega
    have hmod : (c % 256).toNat = c.toNat := by omega
    simp only [fy_utf8_format, hv, Bool.not_true, Bool.false_eq_true, if_false, hmap.1, hpos,
      if_true, hmod]
  · intro hl hq
    have hm : esc_map esc_all c = -1 := by rw [esc_map_all_eq, hl]
    have hmap : fy_utf8_esc_map c esc = -1 := by
      unfold fy_utf8_esc_map
      cases esc <;> simp only [escape_own_quote, ne_eq, Option.some.injEq] at hq <;>
        simp [fy_utf8_escape_is_any_doublequote, hm, Ne.symm hq]
    have hneg : ¬ ((-1 : Int) > 0) := by decide
    simp only [fy_utf8_format, hv, Bool.not_true, Bool.false_eq_true, if_false, hmap, hneg,
      fy_utf8_put_unchecked]
  · have hmap : fy_utf8_esc_map c fyue_none = -1 := by
      unfold fy_utf8_esc_map; rfl
    have hneg : ¬ ((-1 : Int) > 0) := by decide
    simp only [fy_utf8_format, hv, Bool.not_true, Bool.false_eq_true, if_false, hmap, hneg,
      fy_utf8_put_unchecked]

/-- C11, witness: LF under `fyue_doublequote` is backslash-n; the double quote
under `fyue_doublequote_json` is backslash-quote; U+20AC is its encoding. -/
theorem C11_format_code_point_witness :
    fy_utf8_format 0x0a fyue_doublequote = [0x5c, 0x6e] ∧
    fy_utf8_format 0x22 fyue_doublequote_json = [0x5c, 0x22] ∧
    fy_utf8_format 0x20AC fyue_doublequote = [0xE2, 0x82, 0xAC] :=
  ⟨((C11_format_code_point 0x0a fyue_doublequote).2 (by decide)).1 0x6e (by decide) (by decide),
   ((C11_format_code_point 0x22 fyue_doublequote_json).2 (by decide)).2.1 (by decide),
   ((C11_format_code_point 0x20AC fyue_doublequote).2 (by decide)).2.2.1 (by decide)
     (by decide)⟩

end Cfyaml

/-! ## Hexadecimal escapes -/

namespace Cfyaml

open fy_utf8_escape

theorem hex_string_value_from_ge (ds : List Nat) : ∀ (acc v : Nat),
    hex_string_value_from acc ds = some v → acc ≤ v := by
  induction ds with
  | nil => intro acc v h; simp only [hex_string_value_from, Option.some.injEq] at h; omega
  | cons d ds ih =>
    intro acc v h
    unfold hex_string_value_from at h
    cases hd : hex_digit_value d with
    | none => rw [hd] at h; simp at h
    | some dv =>
      rw [hd] at h
      have := ih _ _ h
      omega

theorem hex_string_value_from_lt (ds : List Nat) : ∀ (acc v : Nat),
    hex_string_value_from acc ds = some v → v < (acc + 1) * 16 ^ ds.length := by
  induction ds with
  | nil => intro acc v h; simp only [hex_string_value_from, Option.some.injEq] at h; simp; omega
  | cons d ds ih =>
    intro acc v h
    unfold hex_string_value_from at h
    cases hd : hex_digit_value d with
    | none => rw [hd] at h; simp at h
    | some dv =>
      rw [hd] at h
      have h1 := ih _ _ h
      have h2 := (hex_value_facts d dv hd).2.2.1
      have h3 : (acc * 16 + dv + 1) * 16 ^ ds.length ≤ (acc + 1) * 16 * 16 ^ ds.length :=
        Nat.mul_le_mul_right _ (by omega)
      simp only [List.length_cons, pow_succ]
      calc v < (acc * 16 + dv + 1) * 16 ^ ds.length := h1
        _ ≤ (acc + 1) * 16 * 16 ^ ds.length := h3
        _ = (acc + 1) * (16 ^ ds.length * 16) := by ring

theorem shl4_or_32 (a v : Nat) (ha : a * 16 + v < 2 ^ 32) (hv : v < 16) :
    ((a <<< 4) % 2 ^ 32 ||| v) = a * 16 + v := by
  have h : v < 2 ^ 4 := by omega
  have e1 : (a <<< 4) % 2 ^ 32 = 2 ^ 4 * a := by
    rw [Nat.shiftLeft_eq]; omega
  rw [e1, ← Nat.mul_add_lt_is_or h a]
  omega

/-- One step of the digit loop of the escape parser on a hexadecimal digit. -/
theorem parse_escape_hex_step (n : Nat) (str : List Nat) (s acc d dv : Nat)
    (hd : str.getD s 0 = d) (hv : hex_digit_value d = some dv) (hacc : acc * 16 + dv < 2 ^ 32) :
    fy_utf8_parse_escape_hex (n + 1) str s acc =
      fy_utf8_parse_escape_hex n str (s + 1) (acc * 16 + dv) := by
  have hf := hex_value_facts d dv hv
  conv_lhs => unfold fy_utf8_parse_escape_hex
  simp only [hd]
  unfold hex_digit_value at hv
  by_cases h1 : 0x30 ≤ d ∧ d ≤ 0x39
  · rw [if_pos h1] at hv
    have e : d - 0x30 = dv := by simpa using hv
    rw [if_pos h1, e, shl4_or_32 acc dv hacc hf.2.2.1]
  rw [if_neg h1] at hv ⊢
  by_cases h2 : 0x61 ≤ d ∧ d ≤ 0x66
  · rw [if_pos h2] at hv
    have e : d - 0x61 + 10 = dv := by simpa using hv
    have e' : 10 + d - 0x61 = dv := by omega
    rw [if_pos h2, e', shl4_or_32 acc dv hacc hf.2.2.1]
  rw [if_neg h2] at hv ⊢
  by_cases h3 : 0x41 ≤ d ∧ d ≤ 0x46
  · rw [if_pos h3] at hv
    have e : d - 0x41 + 10 = dv := by simpa using hv
    have e' : 10 + d - 0x41 = dv := by omega
    rw [if_pos h3, e', shl4_or_32 acc dv hacc hf.2.2.1]
  · rw [if_neg h3] at hv
    simp at hv

/-- The digit loop of the escape parser on a run of hexadecimal digits
accumulates the number they spell. -/
theorem parse_escape_hex_digits (digits : List Nat) : ∀ (pre post : List Nat) (acc v : Nat),
    hex_string_value_from acc digits = some v → v < 2 ^ 32 →
    fy_utf8_parse_escape_hex digits.length (pre ++ digits ++ post) pre.length acc =
      (true, pre.length + digits.length, v) := by
  induction digits with
  | nil =>
    intro pre post acc v h _
    simp only [hex_string_value_from, Option.some.injEq] at h
    subst h
    simp [fy_utf8_parse_escape_hex]
  | cons d ds ih =>
    intro pre post acc v h hv
    unfold hex_string_value_from at h
    cases hd : hex_digit_value d with
    | none => rw [hd] at h; simp at h
    | some dv =>
      rw [hd] at h
      have hge := hex_string_value_from_ge ds _ _ h
      have hget : (pre ++ d :: ds ++ post).getD pre.length 0 = d := by
        rw [List.append_assoc, List.getD_append_right _ _ _ _ (le_refl _)]
        simp
      rw [List.length_cons, parse_escape_hex_step ds.length _ pre.length acc d dv hget hd
        (by omega)]
      have e : pre ++ d :: ds ++ post = (pre ++ [d]) ++ ds ++ post := by simp
      have e2 : pre.length + 1 = (pre ++ [d]).length := by simp
      rw [e, e2, ih (pre ++ [d]) post _ v h hv]
      simp only [List.length_append, List.length_cons, List.length_nil]
      congr 2
      omega

end Cfyaml

namespace Cfyaml

open fy_utf8_escape

theorem int32_of_bits_small (v : Nat) (h : v < 2 ^ 31) : int32_of_bits v = (v : Int) := by
  unfold int32_of_bits
  have e : v % 2 ^ 32 = v := Nat.mod_eq_of_lt (by omega)
  rw [e, if_pos h]

/-- The escape parser on a backslash, one of the letters x, u, U and bytes
after them, up to the digit loop. -/
theorem parse_escape_hex_path (esc : fy_utf8_escape) (letter : Nat) (tail : List Nat)
    (len : Nat) (code_length : Nat)
    (hcase : ((esc = fyue_doublequote ∨ esc = fyue_doublequote_yaml_1_1) ∧
        ((letter = 0x78 ∧ code_length = 2) ∨ (letter = 0x75 ∧ code_length = 4) ∨
         (letter = 0x55 ∧ code_length = 8))) ∨
      (esc = fyue_doublequote_json ∧ letter = 0x75 ∧ code_length = 4))
    (hlen : code_length + 2 ≤ len) :
    fy_utf8_parse_escape (0x5c :: letter :: tail) len esc =
      match fy_utf8_parse_escape_hex code_length (0x5c :: letter :: tail) 2 0 with
      | (false, s, value) => (int32_of_bits value, s)
      | (true, s, value) =>
        if code_length = 4 ∧ int32_of_bits value ≥ 0xd800 ∧ int32_of_bits value ≤ 0xdbff ∧
            (len : Int) - s ≥ 6 ∧ (0x5c :: letter :: tail).getD s 0 = 0x5c ∧
            (0x5c :: letter :: tail).getD (s + 1) 0 = 0x75 then
          match fy_utf8_parse_escape_hex code_length (0x5c :: letter :: tail) (s + 2) 0 with
          | (false, _, _) => (-1, 0)
          | (true, s', value') =>
            (int32_of_bits ((0x10000 + (value - 0xd800) * 0x400 +
                (value' + 2 ^ 32 - 0xdc00)) % 2 ^ 32), s')
        else (int32_of_bits value, s) := by
  have hl2 : ¬ len < 2 := by omega
  have hcl : ¬ ((code_length : Int) > (len : Int) - 2) := by omega
  rcases hcase with ⟨he, hl⟩ | ⟨he, hl, hc⟩
  · rcases he with rfl | rfl <;> rcases hl with ⟨rfl, rfl⟩ | ⟨rfl, rfl⟩ | ⟨rfl, rfl⟩ <;>
      · unfold fy_utf8_parse_escape
        simp only [hl2, hcl, fy_utf8_parse_escape_common, fy_utf8_parse_escape_yaml,
          List.getD_cons_zero, List.getD_cons_succ]
        simp
        intro h
        omega
  · subst he; subst hl; subst hc
    unfold fy_utf8_parse_escape
    simp only [hl2, hcl, fy_utf8_parse_escape_common, List.getD_cons_zero, List.getD_cons_succ]
    simp
    intro h
    omega

end Cfyaml

namespace Cfyaml

open fy_utf8_escape

/-- The digit loop of the escape parser right after the backslash and the
letter. -/
theorem parse_escape_hex_after_letter (letter : Nat) (digits rest : List Nat) (v : Nat)
    (hv : hex_string_value digits = some v) (h32 : v < 2 ^ 32) :
    fy_utf8_parse_escape_hex digits.length (0x5c :: letter :: (digits ++ rest)) 2 0 =
      (true, digits.length + 2, v) := by
  have := parse_escape_hex_digits digits [0x5c, letter] rest 0 v hv h32
  simp only [List.cons_append, List.nil_append, List.length_cons, List.length_nil,
    List.append_assoc] at this
  rw [this]
  congr 2
  omega

/-- C12: hexadecimal escapes decode to their numeric value: under
`fyue_doublequote` and `fyue_doublequote_yaml_1_1` for (x, 2), (u, 4), (U, 8),
and under `fyue_doublequote_json` for (u, 4), an input of a backslash, the
letter and n hexadecimal digits spelling a value v below 2^31, with
len >= n + 2 and, in the u case, not a value in 0xD800..0xDBFF followed by a
further backslash-u with at least 6 bytes remaining, makes
`fy_utf8_parse_escape` return v and advance `*strp` by n + 2 bytes. -/
theorem C12_parse_escape_hex_value (esc : fy_utf8_escape) (letter n : Nat)
    (digits rest : List Nat) (len v : Nat)
    (hcase : ((esc = fyue_doublequote ∨ esc = fyue_doublequote_yaml_1_1) ∧
        ((letter = 0x78 ∧ n = 2) ∨ (letter = 0x75 ∧ n = 4) ∨ (letter = 0x55 ∧ n = 8))) ∨
      (esc = fyue_doublequote_json ∧ letter = 0x75 ∧ n = 4))
    (hd : digits.length = n) (hv : hex_string_value digits = some v) (hv31 : v < 2 ^ 31)
    (hlen : n + 2 ≤ len)
    (hns : ¬ (letter = 0x75 ∧ 0xD800 ≤ v ∧ v ≤ 0xDBFF ∧ (len : Int) - 6 ≥ 6 ∧
      rest.getD 0 0 = 0x5c ∧ rest.getD 1 0 = 0x75)) :
    fy_utf8_parse_escape ([0x5c, letter] ++ digits ++ rest) len esc = ((v : Int), n + 2) := by
  have e : ([0x5c, letter] ++ digits ++ rest : List Nat) = 0x5c :: letter :: (digits ++ rest) := by
    simp
  rw [e, parse_escape_hex_path esc letter (digits ++ rest) len n hcase hlen]
  have hx := parse_escape_hex_after_letter letter digits rest v hv (by omega)
  rw [hd] at hx
  rw [hx]
  dsimp only
  rw [int32_of_bits_small v hv31]
  split_ifs with hc
  · exfalso
    obtain ⟨h4, h1, h2, h3, _, _⟩ := hc
    subst h4
    have hl : letter = 0x75 := by
      rcases hcase with ⟨_, h | h | h⟩ | ⟨_, h, _⟩
      · omega
      · exact h.1
      · omega
      · exact h
    have hg : ∀ i, (0x5c :: letter :: (digits ++ rest)).getD (4 + 2 + i) 0 = rest.getD i 0 := by
      intro i
      have : (0x5c :: letter :: (digits ++ rest) : List Nat) = (0x5c :: letter :: digits) ++ rest := by
        simp
      rw [this, List.getD_append_right _ _ _ _ (by simp [hd])]
      congr 1
      simp [hd]
    have g0 := hg 0
    have g1 := hg 1
    simp only [Nat.add_zero] at g0
    apply hns
    refine ⟨hl, by omega, by omega, ?_, ?_, ?_⟩
    · push_cast at h3 ⊢; omega
    · rw [← g0]; assumption
    · rw [← g1]; assumption
  · rfl

/-- C12, witness: backslash-u 2 0 a C under `fyue_doublequote_json` decodes to
0x20AC and advances by 6. -/
theorem C12_parse_escape_hex_value_witness :
    hex_string_value [0x32, 0x30, 0x61, 0x43] = some 0x20AC ∧
    fy_utf8_parse_escape ([0x5c, 0x75] ++ [0x32, 0x30, 0x61, 0x43] ++ [0x21]) 7
      fyue_doublequote_json = (((0x20AC : Nat) : Int), 4 + 2) :=
  ⟨by decide,
    C12_parse_escape_hex_value fyue_doublequote_json 0x75 4 [0x32, 0x30, 0x61, 0x43] [0x21] 7
      0x20AC (by decide) (by decide) (by decide) (by decide) (by decide) (by decide)⟩

/-- C13: surrogate pairs combine into one code point: for hi in
0xD800..0xDBFF and lo in 0xDC00..0xDFFF, under the three double-quote
policies, `fy_utf8_parse_escape` on backslash-u HHHH backslash-u LLLL
(len >= 12) returns 0x10000 + (hi - 0xD800) * 0x400 + (lo - 0xDC00), a value
in 0x10000..0x10FFFF, and advances `*strp` by 12 bytes. -/
theorem C13_parse_escape_surrogate_pair (esc : fy_utf8_escape) (hid lod rest : List Nat)
    (hi lo len : Nat)
    (hesc : esc = fyue_doublequote ∨ esc = fyue_doublequote_yaml_1_1 ∨
      esc = fyue_doublequote_json)
    (hhl : hid.length = 4) (hll : lod.length = 4)
    (hhv : hex_string_value hid = some hi) (hlv : hex_string_value lod = some lo)
    (hhi : 0xD800 ≤ hi ∧ hi ≤ 0xDBFF) (hlo : 0xDC00 ≤ lo ∧ lo ≤ 0xDFFF) (hlen : 12 ≤ len) :
    fy_utf8_parse_escape ([0x5c, 0x75] ++ hid ++ [0x5c, 0x75] ++ lod ++ rest) len esc =
      (((0x10000 + (hi - 0xD800) * 0x400 + (lo - 0xDC00) : Nat) : Int), 12) ∧
    0x10000 ≤ 0x10000 + (hi - 0xD800) * 0x400 + (lo - 0xDC00) ∧
    0x10000 + (hi - 0xD800) * 0x400 + (lo - 0xDC00) ≤ 0x10FFFF := by
  refine ⟨?_, by omega, by omega⟩
  have e : ([0x5c, 0x75] ++ hid ++ [0x5c, 0x75] ++ lod ++ rest : List Nat) =
      0x5c :: 0x75 :: (hid ++ (0x5c :: 0x75 :: (lod ++ rest))) := by
    simp
  have hcase : ((esc = fyue_doublequote ∨ esc = fyue_doublequote_yaml_1_1) ∧
        (((0x75 : Nat) = 0x78 ∧ 4 = 2) ∨ ((0x75 : Nat) = 0x75 ∧ 4 = 4) ∨
          ((0x75 : Nat) = 0x55 ∧ 4 = 8))) ∨
      (esc = fyue_doublequote_json ∧ (0x75 : Nat) = 0x75 ∧ 4 = 4) := by
    rcases hesc with h | h | h
    · exact Or.inl ⟨Or.inl h, Or.inr (Or.inl ⟨rfl, rfl⟩)⟩
    · exact Or.inl ⟨Or.inr h, Or.inr (Or.inl ⟨rfl, rfl⟩)⟩
    · exact Or.inr ⟨h, rfl, rfl⟩
  rw [e, parse_escape_hex_path esc 0x75 _ len 4 hcase (by omega)]
  have hx := parse_escape_hex_after_letter 0x75 hid (0x5c :: 0x75 :: (lod ++ rest)) hi hhv
    (by omega)
  rw [hhl] at hx
  rw [hx]
  dsimp only
  have hsplit : (0x5c :: 0x75 :: (hid ++ 0x5c :: 0x75 :: (lod ++ rest)) : List Nat) =
      (0x5c :: 0x75 :: (hid ++ [0x5c, 0x75])) ++ lod ++ rest := by
    simp
  have hx2 := parse_escape_hex_digits lod (0x5c :: 0x75 :: (hid ++ [0x5c, 0x75])) rest 0 lo hlv
    (by omega)
  rw [← hsplit] at hx2
  have hpl : (0x5c :: 0x75 :: (hid ++ [0x5c, 0x75]) : List Nat).length = 4 + 2 + 2 := by
    simp [hhl]
  rw [hpl, hll] at hx2
  have hg0 : (0x5c :: 0x75 :: (hid ++ 0x5c :: 0x75 :: (lod ++ rest)) : List Nat).getD (4 + 2) 0 =
      0x5c := by
    have : (0x5c :: 0x75 :: (hid ++ 0x5c :: 0x75 :: (lod ++ rest)) : List Nat) =
        (0x5c :: 0x75 :: hid) ++ (0x5c :: 0x75 :: (lod ++ rest)) := by simp
    rw [this, List.getD_append_right _ _ _ _ (by simp [hhl])]
    simp [hhl]
  have hg1 : (0x5c :: 0x75 :: (hid ++ 0x5c :: 0x75 :: (lod ++ rest)) : List Nat).getD
      (4 + 2 + 1) 0 = 0x75 := by
    have : (0x5c :: 0x75 :: (hid ++ 0x5c :: 0x75 :: (lod ++ rest)) : List Nat) =
        (0x5c :: 0x75 :: hid) ++ (0x5c :: 0x75 :: (lod ++ rest)) := by simp
    rw [this, List.getD_append_right _ _ _ _ (by simp [hhl])]
    simp [hhl]
  have hcond : (4 = 4 ∧ int32_of_bits hi ≥ 0xd800 ∧ int32_of_bits hi ≤ 0xdbff ∧
      (len : Int) - ((4 + 2 : Nat) : Int) ≥ 6 ∧
      (0x5c :: 0x75 :: (hid ++ 0x5c :: 0x75 :: (lod ++ rest)) : List Nat).getD (4 + 2) 0 = 0x5c ∧
      (0x5c :: 0x75 :: (hid ++ 0x5c :: 0x75 :: (lod ++ rest)) : List Nat).getD (4 + 2 + 1) 0 =
        0x75) := by
    rw [int32_of_bits_small hi (by omega)]
    refine ⟨rfl, by omega, by omega, by push_cast; omega, hg0, hg1⟩
  rw [if_pos hcond, hx2]
  dsimp only
  have hval : (0x10000 + (hi - 0xd800) * 0x400 + (lo + 2 ^ 32 - 0xdc00)) % 2 ^ 32 =
      0x10000 + (hi - 0xD800) * 0x400 + (lo - 0xDC00) := by omega
  rw [hval, int32_of_bits_small _ (by omega)]

/-- C13, witness: backslash-u D83D backslash-u DE00 is U+1F600. -/
theorem C13_parse_escape_surrogate_pair_witness :
    hex_string_value [0x44, 0x38, 0x33, 0x44] = some 0xD83D ∧
    hex_string_value [0x44, 0x45, 0x30, 0x30] = some 0xDE00 ∧
    fy_utf8_parse_escape
      ([0x5c, 0x75] ++ [0x44, 0x38, 0x33, 0x44] ++ [0x5c, 0x75] ++ [0x44, 0x45, 0x30, 0x30] ++ [])
      12 fyue_doublequote =
      (((0x10000 + (0xD83D - 0xD800) * 0x400 + (0xDE00 - 0xDC00) : Nat) : Int), 12) :=
  ⟨by decide, by decide,
    (C13_parse_escape_surrogate_pair fyue_doublequote [0x44, 0x38, 0x33, 0x44]
      [0x44, 0x45, 0x30, 0x30] [] 0xD83D 0xDE00 12 (by decide) (by decide) (by decide)
      (by decide) (by decide) (by decide) (by decide) (by decide)).1⟩

end Cfyaml

/-! ## The bare non-specific tag -/

namespace Cfyaml

/-- C14 (the code at the failing input): on the one-byte input "!",
`fy_tag_handle_length` finds the end of the input after the '!' and returns
-1, so `fy_tag_scan` returns -1 and leaves `*info` alone; the special case for
"!" further down is not reached. -/
theorem C14_tag_scan_bang_returns_minus_one (info : fy_tag_scan_info) :
    fy_tag_handle_length [0x21] = some (-1) ∧
    fy_tag_scan [0x21] info = some (-1, info) := by
  constructor
  · decide
  · have h : fy_tag_handle_length [0x21] = some (-1) := by decide
    have g1 : fy_utf8_get [0x21] (([0x21] : List Nat).length : Int) = (0x21, 1) := by decide
    have g2 : (fy_utf8_get (List.drop 1 [0x21])
        ((([0x21] : List Nat).length : Int) - ((1 : Nat) : Int))).1 = -1 := by decide
    unfold fy_tag_scan
    simp only [g1]
    simp only [g2, h]
    simp

end Cfyaml

/-! ## The memstream invariant -/

namespace Cfyaml

theorem int64_of_bits_range (u : Nat) : -2 ^ 63 ≤ int64_of_bits u ∧ int64_of_bits u < 2 ^ 63 := by
  unfold int64_of_bits
  split_ifs <;> refine ⟨?_, ?_⟩ <;> omega

theorem int64_of_bits_small (u : Nat) (h : u < 2 ^ 63) : int64_of_bits u = (u : Int) := by
  unfold int64_of_bits
  have h1 : u % 2 ^ 64 = u := Nat.mod_eq_of_lt (by omega)
  rw [h1, if_pos h]

theorem size_of_int_small (p : Int) (h0 : 0 ≤ p) (h : p < 2 ^ 64) : size_of_int p = p.toNat := by
  unfold size_of_int
  have h1 : p % 2 ^ 64 = p := Int.emod_eq_of_lt h0 h
  rw [h1]

theorem memstream_seek_pos_lt (ms : memstream) (offset whence pos : Int)
    (h : offset < 2 ^ 63) (hp : memstream_seek_pos ms offset whence = some pos) :
    pos < 2 ^ 63 := by
  unfold memstream_seek_pos at hp
  split_ifs at hp
  · cases hp; exact h
  · cases hp; exact (int64_of_bits_range _).2
  · cases hp; exact (int64_of_bits_range _).2

theorem pow_two_le_of_le (j K : Nat) (h : j ≤ K) : 2 ^ j ≤ 2 ^ K :=
  Nat.pow_le_pow_right (by decide) h

theorem pow_two_lt_exp (j K : Nat) (h : 2 ^ j < 2 ^ K) : j < K := by
  by_contra hc
  have := pow_two_le_of_le K j (by omega)
  omega

theorem memstream_grow_loop_zero (m : Nat) : ∀ fuel : Nat, memstream_grow_loop fuel 0 m = none := by
  intro fuel
  induction fuel with
  | zero => rfl
  | succ f ih =>
    unfold memstream_grow_loop
    rw [if_pos (Nat.zero_le _)]
    exact ih

/-- The capacity the loop exits with is a power of two above `minsize + 1`. -/
theorem memstream_grow_loop_sound (m : Nat) (hm : m + 1 < 2 ^ 64) : ∀ (fuel j r : Nat),
    j ≤ 63 → memstream_grow_loop fuel (2 ^ j) m = some r →
    ∃ j', j ≤ j' ∧ j' ≤ 63 ∧ r = 2 ^ j' ∧ m + 1 < r := by
  intro fuel
  induction fuel with
  | zero => intro j r _ h; simp [memstream_grow_loop] at h
  | succ f ih =>
    intro j r hj h
    unfold memstream_grow_loop at h
    rw [Nat.mod_eq_of_lt hm] at h
    by_cases hc : 2 ^ j ≤ m + 1
    · rw [if_pos hc] at h
      by_cases h63 : j = 63
      · subst h63
        have hz : 2 ^ 63 * 2 % 2 ^ 64 = 0 := by norm_num
        rw [hz, memstream_grow_loop_zero] at h
        cases h
      · have hle := pow_two_le_of_le (j + 1) 63 (by omega)
        have hs : 2 ^ j * 2 % 2 ^ 64 = 2 ^ (j + 1) := by
          rw [← pow_succ]
          exact Nat.mod_eq_of_lt (by omega)
        rw [hs] at h
        obtain ⟨j', h1, h2, h3, h4⟩ := ih (j + 1) r (by omega) h
        exact ⟨j', by omega, h2, h3, h4⟩
    · rw [if_neg hc] at h
      cases h
      exact ⟨j, le_refl _, hj, rfl, by omega⟩

/-- The loop ends when the capacity asked for is below 2^62. -/
theorem memstream_grow_loop_total (m : Nat) (hm : m + 1 < 2 ^ 62) : ∀ (fuel j : Nat),
    j ≤ 62 → 1 ≤ fuel → 63 ≤ fuel + j →
    ∃ j', j' ≤ 62 ∧ memstream_grow_loop fuel (2 ^ j) m = some (2 ^ j') := by
  intro fuel
  induction fuel with
  | zero => intro j _ h _; omega
  | succ f ih =>
    intro j hj _ hf
    unfold memstream_grow_loop
    rw [Nat.mod_eq_of_lt (by omega : m + 1 < 2 ^ 64)]
    by_cases hc : 2 ^ j ≤ m + 1
    · rw [if_pos hc]
      have hj2 : j < 62 := pow_two_lt_exp j 62 (by omega)
      have hle := pow_two_le_of_le (j + 1) 62 (by omega)
      have hs : 2 ^ j * 2 % 2 ^ 64 = 2 ^ (j + 1) := by
        rw [← pow_succ]
        exact Nat.mod_eq_of_lt (by omega)
      rw [hs]
      exact ih (j + 1) (by omega) (by omega) (by omega)
    · rw [if_neg hc]
      exact ⟨j, hj, rfl⟩

theorem getD_append_replicate_zero (l : List Nat) (n i : Nat)
    (h : i < l.length → l.getD i 1 = 0) (hi : i < l.length + n) :
    (l ++ List.replicate n 0).getD i 1 = 0 := by
  by_cases hl : i < l.length
  · rw [List.getD_append _ _ _ _ hl]; exact h hl
  · rw [List.getD_append_right _ _ _ _ (by omega)]
    rw [List.getD_eq_getElem _ _ (by simp only [List.length_replicate]; omega)]
    simp only [List.getElem_replicate]

/-- When `memstream_grow` returns, it has kept the invariant, the position and
the size, and left room for `minsize` bytes and the NUL after them. -/
theorem memstream_grow_sound (ms ms' : memstream) (minsize : Nat)
    (hinv : memstream_invariant ms) (hcap : memstream_capacity_pow 63 ms)
    (hm : minsize + 1 < 2 ^ 64) (hg : memstream_grow ms minsize = some ms') :
    memstream_invariant ms' ∧ memstream_capacity_pow 63 ms' ∧
      minsize + 1 < ms'.capacity ∧ ms'.position = ms.position ∧ ms'.size = ms.size := by
  obtain ⟨h1, h2, h3, h4⟩ := hinv
  obtain ⟨k, hk, hck⟩ := hcap
  unfold memstream_grow at hg
  by_cases h63 : k = 63
  · subst h63
    have hz : ms.capacity * 2 % 2 ^ 64 = 0 := by rw [hck]; norm_num
    rw [hz, memstream_grow_loop_zero] at hg
    cases hg
  · have hle := pow_two_le_of_le (k + 1) 63 (by omega)
    have hs : ms.capacity * 2 % 2 ^ 64 = 2 ^ (k + 1) := by
      rw [hck, ← pow_succ]
      exact Nat.mod_eq_of_lt (by omega)
    rw [hs] at hg
    cases hl : memstream_grow_loop 66 (2 ^ (k + 1)) minsize with
    | none => rw [hl] at hg; cases hg
    | some r =>
      rw [hl] at hg
      obtain ⟨j', hj1, hj2, hj3, hj4⟩ :=
        memstream_grow_loop_sound minsize hm 66 (k + 1) r (by omega) hl
      have hgt : ms.capacity < r := by
        have := pow_two_le_of_le (k + 1) j' hj1
        have h2k : 2 ^ (k + 1) = 2 ^ k * 2 := pow_succ 2 k
        have hpos : 0 < 2 ^ k := Nat.two_pow_pos k
        omega
      have htake : ms.contents.take r = ms.contents :=
        List.take_of_length_le (by omega)
      simp only [Option.some.injEq] at hg
      subst hg
      refine ⟨⟨h1, by simp only; omega, ?_, ?_⟩, ⟨j', hj2, hj3⟩, hj4, rfl, rfl⟩
      · simp only [htake, List.length_append, List.length_replicate]
        omega
      · intro i hi1 hi2
        simp only [htake] at hi2 ⊢
        apply getD_append_replicate_zero
        · intro hl; exact h4 i hi1 (by omega)
        · omega

/-- `memstream_grow` returns when the capacity asked for is below 2^62. -/
theorem memstream_grow_total (ms : memstream) (minsize : Nat)
    (hcap : memstream_capacity_pow 62 ms) (hle : ms.capacity ≤ minsize)
    (hm : minsize + 1 < 2 ^ 62) :
    ∃ ms', memstream_grow ms minsize = some ms' ∧ memstream_capacity_pow 62 ms' := by
  obtain ⟨k, hk, hck⟩ := hcap
  have hk2 : k < 62 := pow_two_lt_exp k 62 (by omega)
  have hle2 := pow_two_le_of_le (k + 1) 62 (by omega)
  have hs : ms.capacity * 2 % 2 ^ 64 = 2 ^ (k + 1) := by
    rw [hck, ← pow_succ]
    exact Nat.mod_eq_of_lt (by omega)
  obtain ⟨j', hj1, hj2⟩ := memstream_grow_loop_total minsize hm 66 (k + 1) (by omega)
    (by omega) (by omega)
  unfold memstream_grow
  rw [hs, hj2]
  exact ⟨_, rfl, j', hj1, rfl⟩

theorem memstream_capacity_pow_mono (ms : memstream) (h : memstream_capacity_pow 62 ms) :
    memstream_capacity_pow 63 ms := by
  obtain ⟨k, hk, hck⟩ := h
  exact ⟨k, by omega, hck⟩

theorem memstream_capacity_le (ms : memstream) (h : memstream_capacity_pow 63 ms) :
    ms.capacity ≤ 2 ^ 63 := by
  obtain ⟨k, hk, hck⟩ := h
  rw [hck]
  exact pow_two_le_of_le k 63 hk

theorem memcpy_at_length (dst buf : List Nat) (pos : Nat) (h : pos + buf.length ≤ dst.length) :
    (memcpy_at dst pos buf).length = dst.length := by
  unfold memcpy_at
  simp only [List.length_append, List.length_take, List.length_drop]
  omega

theorem memcpy_at_getD_after (dst buf : List Nat) (pos i : Nat)
    (h : pos + buf.length ≤ dst.length) (hi : pos + buf.length ≤ i) :
    (memcpy_at dst pos buf).getD i 1 = dst.getD i 1 := by
  unfold memcpy_at
  have hl : (dst.take pos ++ buf).length = pos + buf.length := by
    simp only [List.length_append, List.length_take]; omega
  rw [List.getD_append_right _ _ _ _ (by omega), hl]
  simp only [List.getD_eq_getElem?_getD, List.getElem?_drop]
  congr 2
  omega

theorem getD_set_self (l : List Nat) (i : Nat) (h : i < l.length) :
    (l.set i 0).getD i 1 = 0 := by
  simp only [List.getD_eq_getElem?_getD]
  rw [List.getElem?_set_self (by simpa using h)]
  rfl

theorem getD_set_other (l : List Nat) (i j : Nat) (h : i ≠ j) :
    (l.set i 0).getD j 1 = l.getD j 1 := by
  simp only [List.getD_eq_getElem?_getD]
  rw [List.getElem?_set_ne h]

/-- A write that returns has kept the invariant and returns the count. -/
theorem memstream_write_sound (ms ms' : memstream) (buf : List Nat) (r : Int)
    (hinv : memstream_invariant ms) (hcap : memstream_capacity_pow 63 ms)
    (hlen : buf.length < 2 ^ 31) (hw : memstream_write ms buf = some (r, ms')) :
    r = (buf.length : Int) ∧ memstream_invariant ms' ∧ memstream_capacity_pow 63 ms' := by
  have hc63 := memstream_capacity_le ms hcap
  have hpc : ms.position < ms.capacity := by
    obtain ⟨h1, h2, _, _⟩ := hinv; omega
  have hmod : (ms.position + buf.length) % 2 ^ 64 = ms.position + buf.length :=
    Nat.mod_eq_of_lt (by omega)
  unfold memstream_write at hw
  simp only [hmod] at hw
  cases hgr : (if ms.capacity ≤ ms.position + buf.length then
      memstream_grow ms (ms.position + buf.length) else some ms) with
  | none => simp only [hgr] at hw; cases hw
  | some ms1 =>
    have hms1 : memstream_invariant ms1 ∧ memstream_capacity_pow 63 ms1 ∧
        ms.position + buf.length < ms1.capacity ∧
        ms1.position = ms.position ∧ ms1.size = ms.size := by
      by_cases hc : ms.capacity ≤ ms.position + buf.length
      · rw [if_pos hc] at hgr
        obtain ⟨hi, hcp, h1, h2, h3⟩ := memstream_grow_sound ms ms1 _ hinv hcap (by omega) hgr
        exact ⟨hi, hcp, by omega, h2, h3⟩
      · rw [if_neg hc] at hgr
        cases hgr
        exact ⟨hinv, hcap, by omega, rfl, rfl⟩
    obtain ⟨⟨h1, h2, h3, h4⟩, hcp, h5, h6, h7⟩ := hms1
    simp only [hgr, h6, hmod, Option.some.injEq, Prod.mk.injEq] at hw
    obtain ⟨hr, hms'⟩ := hw
    subst hms'
    refine ⟨hr.symm, ⟨?_, ?_, ?_, ?_⟩, hcp⟩
    · simp only
      split_ifs <;> omega
    · simp only
      split_ifs <;> omega
    · simp only [List.length_set]
      rw [memcpy_at_length _ _ _ (by omega), h3]
    · intro i hi1 hi2
      simp only at hi1 hi2 ⊢
      by_cases hp : i = ms.position + buf.length
      · subst hp
        apply getD_set_self
        rw [memcpy_at_length _ _ _ (by omega)]
        omega
      · rw [getD_set_other _ _ _ (Ne.symm hp)]
        have hge : ms.position + buf.length ≤ i := by
          split_ifs at hi1 <;> omega
        rw [memcpy_at_getD_after _ _ _ _ (by omega) hge]
        apply h4 i _ hi2
        split_ifs at hi1 <;> omega

/-- A write returns when it ends below 2^62 - 1. -/
theorem memstream_write_total (ms : memstream) (buf : List Nat)
    (hcap : memstream_capacity_pow 62 ms)
    (hb : (ms.position : Int) + buf.length + 1 < 2 ^ 62) :
    ∃ r ms', memstream_write ms buf = some (r, ms') ∧ memstream_capacity_pow 62 ms' := by
  have hmod : (ms.position + buf.length) % 2 ^ 64 = ms.position + buf.length :=
    Nat.mod_eq_of_lt (by omega)
  unfold memstream_write
  simp only [hmod]
  by_cases hc : ms.capacity ≤ ms.position + buf.length
  · rw [if_pos hc]
    obtain ⟨ms1, e, hcp⟩ := memstream_grow_total ms _ hcap hc (by omega)
    simp only [e]
    exact ⟨_, _, rfl, hcp⟩
  · rw [if_neg hc]
    exact ⟨_, _, rfl, hcap⟩

/-- A seek to a non-negative position that returns has kept the invariant,
returns the position, and the bytes between the old size and the new position
are zero. -/
theorem memstream_seek_sound (ms ms' : memstream) (offset whence pos r : Int)
    (hinv : memstream_invariant ms) (hcap : memstream_capacity_pow 63 ms)
    (hoff : offset < 2 ^ 63)
    (hpos : memstream_seek_pos ms offset whence = some pos) (h0 : 0 ≤ pos)
    (hs : memstream_seek ms offset whence = some (r, ms')) :
    r = pos ∧ memstream_invariant ms' ∧ memstream_capacity_pow 63 ms' ∧
      ms'.position = pos.toNat ∧
      ∀ i, ms.size ≤ i → i < ms'.position → ms'.contents.getD i 1 = 0 := by
  have hc63 := memstream_capacity_le ms hcap
  have h63 : pos < 2 ^ 63 := memstream_seek_pos_lt ms offset whence pos hoff hpos
  have hsz : size_of_int pos = pos.toNat := size_of_int_small pos h0 (by omega)
  unfold memstream_seek at hs
  simp only [hpos, hsz] at hs
  cases hgr : (if pos ≥ int64_of_bits ms.capacity then memstream_grow ms pos.toNat
      else some ms) with
  | none => simp only [hgr] at hs; cases hs
  | some ms1 =>
    have hms1 : memstream_invariant ms1 ∧ memstream_capacity_pow 63 ms1 ∧
        pos.toNat < ms1.capacity ∧ ms1.position = ms.position ∧ ms1.size = ms.size := by
      by_cases hc : pos ≥ int64_of_bits ms.capacity
      · rw [if_pos hc] at hgr
        obtain ⟨hi, hcp, h1, h2, h3⟩ := memstream_grow_sound ms ms1 _ hinv hcap (by omega) hgr
        exact ⟨hi, hcp, by omega, h2, h3⟩
      · rw [if_neg hc] at hgr
        cases hgr
        refine ⟨hinv, hcap, ?_, rfl, rfl⟩
        by_cases hbig : ms.capacity < 2 ^ 63
        · rw [int64_of_bits_small _ hbig] at hc
          omega
        · exfalso
          apply hc
          have he : ms.capacity = 2 ^ 63 := by omega
          rw [he]
          have : int64_of_bits (2 ^ 63) = -2 ^ 63 := by
            unfold int64_of_bits; norm_num
          rw [this]
          omega
    obtain ⟨⟨h1, h2, h3, h4⟩, hcp, h5, h6, h7⟩ := hms1
    simp only [hgr, Option.some.injEq, Prod.mk.injEq] at hs
    obtain ⟨hr, hms'⟩ := hs
    subst hms'
    refine ⟨hr.symm, ⟨?_, ?_, h3, ?_⟩, hcp, rfl, ?_⟩
    · simp only
      split_ifs <;> omega
    · simp only
      split_ifs <;> omega
    · intro i hi1 hi2
      simp only at hi1 hi2 ⊢
      apply h4 i _ hi2
      split_ifs at hi1 <;> omega
    · intro i hi1 hi2
      simp only at hi2 ⊢
      exact h4 i (by omega) (by omega)

/-- A seek returns when the position is below 2^62 - 1. -/
theorem memstream_seek_total (ms : memstream) (offset whence pos : Int)
    (hcap : memstream_capacity_pow 62 ms)
    (hpos : memstream_seek_pos ms offset whence = some pos) (h0 : 0 ≤ pos)
    (hb : pos + 1 < 2 ^ 62) :
    ∃ r ms', memstream_seek ms offset whence = some (r, ms') ∧
      memstream_capacity_pow 62 ms' := by
  have hsz : size_of_int pos = pos.toNat := size_of_int_small pos h0 (by omega)
  have hc62 : ms.capacity ≤ 2 ^ 62 := by
    obtain ⟨k, hk, hck⟩ := hcap
    rw [hck]
    exact pow_two_le_of_le k 62 hk
  unfold memstream_seek
  simp only [hpos, hsz]
  rw [int64_of_bits_small _ (by omega)]
  by_cases hc : pos ≥ (ms.capacity : Int)
  · rw [if_pos hc]
    obtain ⟨ms1, e, hcp⟩ := memstream_grow_total ms pos.toNat hcap (by omega) (by omega)
    simp only [e]
    exact ⟨_, _, rfl, hcp⟩
  · rw [if_neg hc]
    exact ⟨_, _, rfl, hcap⟩

theorem memstream_open_invariant : memstream_invariant open_memstream := by
  refine ⟨le_refl _, by decide, by simp only [open_memstream, List.length_replicate], ?_⟩
  intro i _ hi
  simp only [open_memstream] at hi ⊢
  rw [List.getD_eq_getElem _ _ (by simp only [List.length_replicate]; exact hi)]
  simp only [List.getElem_replicate]

theorem memstream_open_capacity : memstream_capacity_pow 62 open_memstream :=
  ⟨12, by decide, by decide⟩

/-- One valid call that returns keeps the invariant. -/
theorem memstream_apply_sound (ms ms' : memstream) (op : memstream_op)
    (hinv : memstream_invariant ms) (hcap : memstream_capacity_pow 63 ms)
    (hok : memstream_op_valid ms op = true) (ha : memstream_apply ms op = some ms') :
    memstream_invariant ms' ∧ memstream_capacity_pow 63 ms' := by
  cases op with
  | write buf =>
    simp only [memstream_op_valid, decide_eq_true_eq] at hok
    simp only [memstream_apply, Option.map_eq_some', Prod.exists, exists_eq_right] at ha
    obtain ⟨r, hw⟩ := ha
    exact (memstream_write_sound ms ms' buf r hinv hcap hok hw).2
  | seek offset whence =>
    simp only [memstream_apply, Option.map_eq_some', Prod.exists, exists_eq_right] at ha
    obtain ⟨r, hs⟩ := ha
    simp only [memstream_op_valid, Bool.and_eq_true, decide_eq_true_eq] at hok
    obtain ⟨⟨_, hoff⟩, hok2⟩ := hok
    cases hp : memstream_seek_pos ms offset whence with
    | none =>
      simp only [memstream_seek, hp, Option.some.injEq, Prod.mk.injEq] at hs
      rw [← hs.2]
      exact ⟨hinv, hcap⟩
    | some pos =>
      simp only [hp, decide_eq_true_eq] at hok2
      obtain ⟨_, hi, hcp, _, _⟩ :=
        memstream_seek_sound ms ms' offset whence pos r hinv hcap hoff hp hok2 hs
      exact ⟨hi, hcp⟩

/-- One valid call that asks for a position below 2^62 - 1 returns. -/
theorem memstream_apply_total (ms : memstream) (op : memstream_op)
    (hcap : memstream_capacity_pow 62 ms)
    (hok : memstream_op_valid ms op = true)
    (hb : memstream_op_target ms op + 1 < 2 ^ 62) :
    ∃ ms', memstream_apply ms op = some ms' ∧ memstream_capacity_pow 62 ms' := by
  cases op with
  | write buf =>
    simp only [memstream_op_target] at hb
    obtain ⟨r, ms', e, hcp⟩ := memstream_write_total ms buf hcap hb
    exact ⟨ms', by simp only [memstream_apply, e, Option.map_some'], hcp⟩
  | seek offset whence =>
    simp only [memstream_op_valid, Bool.and_eq_true, decide_eq_true_eq] at hok
    obtain ⟨_, hok2⟩ := hok
    cases hp : memstream_seek_pos ms offset whence with
    | none =>
      exact ⟨ms, by simp only [memstream_apply, memstream_seek, hp, Option.map_some'], hcap⟩
    | some pos =>
      simp only [hp, decide_eq_true_eq] at hok2
      simp only [memstream_op_target, hp] at hb
      obtain ⟨r, ms', e, hcp⟩ := memstream_seek_total ms offset whence pos hcap hp hok2 hb
      exact ⟨ms', by simp only [memstream_apply, e, Option.map_some'], hcp⟩

theorem memstream_run_sound (ops : List memstream_op) : ∀ ms ms' : memstream,
    memstream_invariant ms → memstream_capacity_pow 63 ms →
    memstream_seeks_non_negative ms ops = true → memstream_run ms ops = some ms' →
    memstream_invariant ms' ∧ memstream_capacity_pow 63 ms' := by
  induction ops with
  | nil =>
    intro ms ms' hinv hcap _ hr
    simp only [memstream_run, Option.some.injEq] at hr
    subst hr
    exact ⟨hinv, hcap⟩
  | cons op ops ih =>
    intro ms ms' hinv hcap hok hr
    unfold memstream_seeks_non_negative memstream_calls_all at hok
    rw [Bool.and_eq_true] at hok
    obtain ⟨hok1, hok2⟩ := hok
    unfold memstream_run at hr
    cases ha : memstream_apply ms op with
    | none => simp only [ha] at hr; cases hr
    | some ms1 =>
      simp only [ha] at hr hok2
      obtain ⟨hi, hcp⟩ := memstream_apply_sound ms ms1 op hinv hcap hok1 ha
      exact ih ms1 ms' hi hcp hok2 hr

theorem memstream_run_total (ops : List memstream_op) : ∀ ms : memstream,
    memstream_invariant ms → memstream_capacity_pow 62 ms →
    memstream_seeks_non_negative ms ops = true →
    memstream_calls_below (2 ^ 62) ms ops = true →
    ∃ ms', memstream_run ms ops = some ms' := by
  induction ops with
  | nil => intro ms _ _ _ _; exact ⟨ms, rfl⟩
  | cons op ops ih =>
    intro ms hinv hcap hok hb
    unfold memstream_seeks_non_negative memstream_calls_all at hok
    unfold memstream_calls_below memstream_calls_all at hb
    rw [Bool.and_eq_true] at hok hb
    obtain ⟨hok1, hok2⟩ := hok
    obtain ⟨hb1, hb2⟩ := hb
    simp only [decide_eq_true_eq] at hb1
    obtain ⟨ms1, ha, hcp⟩ := memstream_apply_total ms op hcap hok1 hb1
    simp only [ha] at hok2 hb2
    obtain ⟨hi, _⟩ :=
      memstream_apply_sound ms ms1 op hinv (memstream_capacity_pow_mono ms hcap) hok1 ha
    obtain ⟨ms', hr⟩ := ih ms1 hi hcp hok2 hb2
    refine ⟨ms', ?_⟩
    unfold memstream_run
    simp only [ha, hr]

/-- A seek to the largest `fpos_t` does not return: the doubled capacity wraps
to 0 and the loop of `memstream_grow` never ends. -/
theorem memstream_seek_max_does_not_return :
    memstream_seek open_memstream (2 ^ 63 - 1) 0 = none := by
  decide

/-- C15: the memstream state keeps a NUL after the data and zeros in any gap.
Starting from the state `open_memstream` creates and applying any sequence of
`memstream_write` calls and of `memstream_seek` calls whose resulting position
is non-negative, with every reallocation succeeding, every state `ms` reached
has position <= size < capacity and every byte of contents from index size to
capacity - 1 zero (so contents[size] = 0 is not counted in size), and a seek
made from `ms` to a non-negative position returns that position and leaves
zeros between the old size and the new position. The state is reached, every
call returning, when each call asks for a position below 2^62 - 1. -/
theorem C15_memstream_invariant (ops : List memstream_op)
    (hok : memstream_seeks_non_negative open_memstream ops = true) :
    (∀ ms, memstream_run open_memstream ops = some ms →
      (ms.position ≤ ms.size ∧ ms.size < ms.capacity ∧ ms.contents.length = ms.capacity ∧
        (∀ i, ms.size ≤ i → i < ms.capacity → ms.contents.getD i 1 = 0) ∧
        ms.contents.getD ms.size 1 = 0) ∧
      (∀ offset whence pos r ms', offset < 2 ^ 63 →
        memstream_seek_pos ms offset whence = some pos → 0 ≤ pos →
        memstream_seek ms offset whence = some (r, ms') →
        r = pos ∧ ms'.position = pos.toNat ∧
          ∀ i, ms.size ≤ i → i < ms'.position → ms'.contents.getD i 1 = 0)) ∧
    (memstream_calls_below (2 ^ 62) open_memstream ops = true →
      ∃ ms, memstream_run open_memstream ops = some ms) := by
  refine ⟨?_, ?_⟩
  · intro ms hr
    obtain ⟨hinv, hcap⟩ := memstream_run_sound ops open_memstream ms memstream_open_invariant
      (memstream_capacity_pow_mono _ memstream_open_capacity) hok hr
    refine ⟨⟨hinv.1, hinv.2.1, hinv.2.2.1, hinv.2.2.2,
      hinv.2.2.2 _ (le_refl _) hinv.2.1⟩, ?_⟩
    intro offset whence pos r ms' hoff hp h0 hs
    obtain ⟨h1, _, _, h2, h3⟩ :=
      memstream_seek_sound ms ms' offset whence pos r hinv hcap hoff hp h0 hs
    exact ⟨h1, h2, h3⟩
  · intro hb
    exact memstream_run_total ops open_memstream memstream_open_invariant
      memstream_open_capacity hok hb

/-- Witness of C15: three bytes are written, the position is moved to 10 and
one more byte is written there; the calls return and the state reached keeps
the NUL after the data. -/
theorem C15_memstream_invariant_witness :
    memstream_seeks_non_negative open_memstream
        [.write [0x61, 0x62, 0x63], .seek 10 0, .write [0x64]] = true ∧
    memstream_calls_below (2 ^ 62) open_memstream
        [.write [0x61, 0x62, 0x63], .seek 10 0, .write [0x64]] = true ∧
    ∃ ms, memstream_run open_memstream
        [.write [0x61, 0x62, 0x63], .seek 10 0, .write [0x64]] = some ms ∧
      ms.position ≤ ms.size ∧ ms.size < ms.capacity ∧
      (∀ i, ms.size ≤ i → i < ms.capacity → ms.contents.getD i 1 = 0) ∧
      ms.contents.getD ms.size 1 = 0 := by
  have h := C15_memstream_invariant
    [.write [0x61, 0x62, 0x63], .seek 10 0, .write [0x64]] (by decide)
  obtain ⟨ms, hr⟩ := h.2 (by decide)
  exact ⟨by decide, by decide, ms, hr, (h.1 ms hr).1.1, (h.1 ms hr).1.2.1,
    (h.1 ms hr).1.2.2.2.1, (h.1 ms hr).1.2.2.2.2⟩

end Cfyaml

/-! ## The result collector: multi and logical-or -/

namespace Cfyaml

/-- C16: multi is order-preserving concatenation: executing a multi node with
children A, B yields the results of A on the input followed by the results of
B on the same input, duplicates retained. -/
theorem C16_multi_is_concatenation {ν τ : Type}
    (leaf : Int → τ → List ν → Except exec_error (List ν)) (depth : Nat)
    (A B : fy_path_expr τ) (fyt : τ) (input ra rb : List ν)
    (hA : fy_path_expr_execute leaf depth A input = .ok ra)
    (hB : fy_path_expr_execute leaf depth B input = .ok rb) :
    fy_path_expr_execute leaf (depth + 1) (fy_path_expr.mk fpet_multi [A, B] fyt) input =
      .ok (ra ++ rb) := by
  rw [fy_path_expr_execute]
  simp only [if_true, exec_multi, hA, hB, List.append_nil]

/-- C16, witness: with a leaf that returns its input, a multi of two such
leaves on the input [7, 7] yields [7, 7, 7, 7]. -/
theorem C16_multi_is_concatenation_witness :
    fy_path_expr_execute (fun _ (_ : Unit) (i : List Nat) => Except.ok i) 2
      (fy_path_expr.mk fpet_multi
        [fy_path_expr.mk fpet_this [] (), fy_path_expr.mk fpet_this [] ()] ()) [7, 7] =
      .ok ([7, 7] ++ [7, 7]) :=
  C16_multi_is_concatenation (fun _ (_ : Unit) (i : List Nat) => Except.ok i) 1
    (fy_path_expr.mk fpet_this [] ()) (fy_path_expr.mk fpet_this [] ()) () [7, 7] [7, 7] [7, 7]
    rfl rfl

/-- C17: logical-or short-circuits: executing a logical_or node with children
A, B yields exactly the result of A on the input whenever that result is
non-empty, whatever B is; and it is empty when the results of both are. -/
theorem C17_logical_or_short_circuit {ν τ : Type}
    (leaf : Int → τ → List ν → Except exec_error (List ν)) (depth : Nat)
    (A B : fy_path_expr τ) (fyt : τ) (input : List ν) :
    (∀ ra, fy_path_expr_execute leaf depth A input = .ok ra → ra ≠ [] →
      fy_path_expr_execute leaf (depth + 1) (fy_path_expr.mk fpet_logical_or [A, B] fyt) input =
        .ok ra) ∧
    (fy_path_expr_execute leaf depth A input = .ok [] →
      fy_path_expr_execute leaf depth B input = .ok [] →
      fy_path_expr_execute leaf (depth + 1) (fy_path_expr.mk fpet_logical_or [A, B] fyt) input =
        .ok []) := by
  have h1 : ¬ (fpet_logical_or = fpet_multi) := by decide
  have h2 : ¬ (fpet_logical_or = fpet_chain) := by decide
  constructor
  · intro ra hA hne
    rw [fy_path_expr_execute]
    have he : ra.isEmpty = false := by
      cases ra with
      | nil => exact absurd rfl hne
      | cons _ _ => rfl
    simp only [h1, h2, if_false, if_true, exec_logical_or, hA, he, Bool.false_eq_true]
  · intro hA hB
    rw [fy_path_expr_execute]
    simp only [h1, h2, if_false, if_true, exec_logical_or, hA, hB, List.isEmpty_nil]

/-- C17, witness: A returns its input [7], B is an alias that fails to
resolve; the logical-or yields [7]. -/
theorem C17_logical_or_short_circuit_witness :
    fy_path_expr_execute
      (fun t (_ : Unit) (i : List Nat) =>
        if t = fpet_this then Except.ok i else Except.error exec_error.unresolved_alias) 2
      (fy_path_expr.mk fpet_logical_or
        [fy_path_expr.mk fpet_this [] (), fy_path_expr.mk fpet_alias [] ()] ()) [7] = .ok [7] :=
  (C17_logical_or_short_circuit
    (fun t (_ : Unit) (i : List Nat) =>
      if t = fpet_this then Except.ok i else Except.error exec_error.unresolved_alias) 1
    (fy_path_expr.mk fpet_this [] ()) (fy_path_expr.mk fpet_alias [] ()) () [7]).1 [7] rfl
    (by decide)

end Cfyaml

/-! ## Length of an escaped text -/

namespace Cfyaml

open fy_utf8_escape

/-- C18 (the code at the failing inputs): `fy_utf8_format_text_length` tests
`fy_utf8_esc_map(c, esc)` for being non-zero, which -1 is, so every character
counts for two bytes. For the three-byte text E2 82 AC (U+20AC) under
`fyue_none` it returns 3 where the text and its NUL need 4, and
`fy_utf8_format_text_alloc` returns the empty string; for the text "a" it
returns 3 where 2 are needed. -/
theorem C18_format_text_length_counts_two :
    fy_utf8_format_text_length [0xE2, 0x82, 0xAC] fyue_none = some 3 ∧
    fy_utf8_format_text_alloc [0xE2, 0x82, 0xAC] fyue_none = some (some []) ∧
    fy_utf8_format_text [0xE2, 0x82, 0xAC] 4 fyue_none = some [0xE2, 0x82, 0xAC] ∧
    fy_utf8_format_text_length [0x61] fyue_none = some 3 ∧
    fy_utf8_format_text_alloc [0x61] fyue_none = some (some [0x61]) := by
  decide

end Cfyaml

/-! ## The range of the values the escape parser returns -/

namespace Cfyaml

open fy_utf8_escape

theorem parse_escape_common_range (c : Nat) :
    -1 ≤ fy_utf8_parse_escape_common c ∧ fy_utf8_parse_escape_common c < 0xD800 := by
  unfold fy_utf8_parse_escape_common
  split_ifs <;> refine ⟨?_, ?_⟩ <;> norm_num

theorem ite_lt_of_imp (p : Prop) [Decidable p] (a b n : Int) (ha : p → a < n)
    (hb : ¬ p → b < n) : (if p then a else b) < n := by
  split
  · exact ha (by assumption)
  · exact hb (by assumption)

theorem parse_escape_yaml_range (str : List Nat) (len : Nat) (esc : fy_utf8_escape) (c : Nat) :
    fy_utf8_parse_escape_yaml str len esc c < 0xD800 := by
  unfold fy_utf8_parse_escape_yaml
  repeat' (apply ite_lt_of_imp <;> intro _)
  all_goals first
    | decide
    | (rename_i h; rcases h with h | h | h | h <;> rw [h] <;> decide)

/-- The digit loop keeps the accumulated pattern within four bits per digit
read, whether it completes or stops at a byte that is not a digit. -/
theorem parse_escape_hex_bound (str : List Nat) : ∀ (n m s v : Nat),
    v < 2 ^ (4 * m) → 4 * (m + n) ≤ 32 →
    (fy_utf8_parse_escape_hex n str s v).2.2 < 2 ^ (4 * (m + n)) := by
  intro n
  induction n with
  | zero => intro m s v hv _; simpa [fy_utf8_parse_escape_hex] using hv
  | succ n ih =>
    intro m s v hv hm
    have hpow : 2 ^ (4 * (m + 1)) = 2 ^ (4 * m) * 16 := by
      rw [show 4 * (m + 1) = 4 * m + 4 by ring, pow_add]; norm_num
    have hle : 2 ^ (4 * (m + 1)) ≤ 2 ^ 32 := Nat.pow_le_pow_right (by decide) (by omega)
    have hle2 : 2 ^ (4 * (m + 1)) ≤ 2 ^ (4 * (m + (n + 1))) :=
      Nat.pow_le_pow_right (by decide) (by omega)
    have h16 : 16 ≤ 2 ^ (4 * (m + 1)) := by
      have : 1 ≤ 2 ^ (4 * m) := Nat.one_le_two_pow
      omega
    have hsh : (v <<< 4) % 2 ^ 32 < 2 ^ (4 * (m + 1)) := by
      rw [Nat.shiftLeft_eq, Nat.mod_eq_of_lt (by norm_num; omega)]
      norm_num
      omega
    have hor : ∀ d, d < 16 → ((v <<< 4) % 2 ^ 32 ||| d) < 2 ^ (4 * (m + 1)) := by
      intro d hd
      exact Nat.or_lt_two_pow hsh (by omega)
    have hidx : 4 * (m + 1 + n) = 4 * (m + (n + 1)) := by ring
    unfold fy_utf8_parse_escape_hex
    dsimp only
    split_ifs with h1 h2 h3
    · have := ih (m + 1) (s + 1) _ (hor (str.getD s 0 - 0x30) (by omega)) (by omega)
      rwa [hidx] at this
    · have := ih (m + 1) (s + 1) _ (hor (10 + str.getD s 0 - 0x61) (by omega)) (by omega)
      rwa [hidx] at this
    · have := ih (m + 1) (s + 1) _ (hor (10 + str.getD s 0 - 0x41) (by omega)) (by omega)
      rwa [hidx] at this
    · exact lt_of_lt_of_le hsh hle2

theorem parse_escape_hex_two (str : List Nat) :
    (fy_utf8_parse_escape_hex 2 str 2 0).2.2 < 256 := by
  have := parse_escape_hex_bound str 2 0 2 0 (by norm_num) (by norm_num)
  simpa using this

/-- Outside the backslash-u and backslash-U escapes every value the parser
returns is below the surrogate range. -/
theorem parse_escape_small_or_u (str : List Nat) (len : Nat) (esc : fy_utf8_escape) :
    (fy_utf8_parse_escape str len esc).1 < 0xD800 ∨
      (esc ≠ fyue_singlequote ∧ str.getD 0 0 = 0x5c ∧
        (str.getD 1 0 = 0x75 ∨ (str.getD 1 0 = 0x55 ∧ esc ≠ fyue_doublequote_json))) := by
  unfold fy_utf8_parse_escape
  by_cases h1 : esc = fyue_none
  · rw [if_pos h1]; left; norm_num
  rw [if_neg h1]
  by_cases h2 : len < 2
  · rw [if_pos h2]; left; norm_num
  rw [if_neg h2]
  by_cases h3 : esc = fyue_singlequote
  · rw [if_pos h3]; left
    split_ifs <;> norm_num
  rw [if_neg h3]
  by_cases h4 : str.getD 0 0 ≠ 0x5c
  · rw [if_pos h4]; left; norm_num
  rw [if_neg h4]
  have h4' : str.getD 0 0 = 0x5c := not_not.mp h4
  dsimp only
  by_cases h5 : fy_utf8_parse_escape_common (str.getD 1 0) ≥ 0
  · rw [if_pos h5]; left
    exact (parse_escape_common_range _).2
  rw [if_neg h5]
  by_cases hdq : esc = fyue_doublequote ∨ esc = fyue_doublequote_yaml_1_1
  · simp only [hdq, if_true, true_and]
    by_cases h6 : fy_utf8_parse_escape_yaml str len esc (str.getD 1 0) ≥ 0
    · rw [if_pos h6]; left
      exact parse_escape_yaml_range _ _ _ _
    rw [if_neg h6]
    by_cases h7 : str.getD 1 0 ≠ 0x78 ∧ str.getD 1 0 ≠ 0x75 ∧ str.getD 1 0 ≠ 0x55
    · rw [if_pos h7]; left; norm_num
    rw [if_neg h7]
    by_cases hx : str.getD 1 0 = 0x78
    · left
      rw [hx] at h6
      simp only [hx, if_true, show ¬ ((2 : Nat) = 0) by decide, false_or]
      have hb := parse_escape_hex_two str
      by_cases h8 : (((2 : Nat) : Int) > (len : Int) - 2)
      · rw [if_pos h8]
        simp only; omega
      · rw [if_neg h8]
        cases hh : fy_utf8_parse_escape_hex 2 str 2 0 with
        | mk b rest =>
          cases rest with
          | mk s v =>
            rw [hh] at hb
            simp only at hb
            have hv : int32_of_bits v = (v : Int) := int32_of_bits_small v (by omega)
            cases b
            · simp only [hv]; omega
            · simp only [hv]
              rw [if_neg (by omega)]
              simp only; omega
    · right
      refine ⟨h3, h4', ?_⟩
      have hj : esc ≠ fyue_doublequote_json := by
        rcases hdq with h | h <;> rw [h] <;> decide
      by_cases hu : str.getD 1 0 = 0x75
      · left; exact hu
      · right
        refine ⟨?_, hj⟩
        by_contra hU
        exact h7 ⟨hx, hu, hU⟩
  · have hj : esc = fyue_doublequote_json := by
      cases esc <;> simp_all
    by_cases hu : str.getD 1 0 = 0x75
    · right; exact ⟨h3, h4', Or.inl hu⟩
    · left
      simp only [if_neg hdq, hdq, false_and, if_false, hu, and_false, true_or, if_true]
      omega

/-- C19 (counterexample): a lone high surrogate written as backslash-u D800
is returned as 0xD800, and backslash-U 00110000 as 0x110000; neither is a
Unicode scalar value. -/
theorem C19_counterexample :
    fy_utf8_parse_escape [0x5c, 0x75, 0x44, 0x38, 0x30, 0x30] 6 fyue_doublequote = (0xD800, 6) ∧
    ¬ utf8_is_scalar 0xD800 ∧
    fy_utf8_parse_escape [0x5c, 0x55, 0x30, 0x30, 0x31, 0x31, 0x30, 0x30, 0x30, 0x30] 10
      fyue_doublequote = (0x110000, 10) ∧
    ¬ utf8_is_scalar 0x110000 := by
  decide

/-- C19 (amended): every non-negative value returned by
`fy_utf8_parse_escape`, for every input and every escape policy, is a Unicode
scalar value (at most 0x10FFFF and not in 0xD800..0xDFFF) unless the input is
a backslash-u escape, or a backslash-U escape under a policy other than
`fyue_doublequote_json`: the numeric value of those is returned without a
range check. -/
theorem C19_parse_escape_scalar_unless_u (str : List Nat) (len : Nat) (esc : fy_utf8_escape)
    (h : 0 ≤ (fy_utf8_parse_escape str len esc).1) :
    utf8_is_scalar (fy_utf8_parse_escape str len esc).1.toNat ∨
      (esc ≠ fyue_singlequote ∧ str.getD 0 0 = 0x5c ∧
        (str.getD 1 0 = 0x75 ∨ (str.getD 1 0 = 0x55 ∧ esc ≠ fyue_doublequote_json))) := by
  rcases parse_escape_small_or_u str len esc with hs | hu
  · left
    unfold utf8_is_scalar
    refine ⟨?_, ?_⟩ <;> omega
  · right; exact hu

/-- C19 (amended), witness: backslash-x 4 1 is the scalar value 0x41. -/
theorem C19_parse_escape_scalar_unless_u_witness :
    0 ≤ (fy_utf8_parse_escape [0x5c, 0x78, 0x34, 0x31] 4 fyue_doublequote).1 ∧
    (utf8_is_scalar (fy_utf8_parse_escape [0x5c, 0x78, 0x34, 0x31] 4 fyue_doublequote).1.toNat ∨
      (fyue_doublequote ≠ fyue_singlequote ∧ ([0x5c, 0x78, 0x34, 0x31] : List Nat).getD 0 0 = 0x5c ∧
        (([0x5c, 0x78, 0x34, 0x31] : List Nat).getD 1 0 = 0x75 ∨
          (([0x5c, 0x78, 0x34, 0x31] : List Nat).getD 1 0 = 0x55 ∧
            fyue_doublequote ≠ fyue_doublequote_json)))) :=
  ⟨by decide, C19_parse_escape_scalar_unless_u _ _ _ (by decide)⟩

end Cfyaml

/-! ## Decoding the character that ends a buffer -/

namespace Cfyaml

theorem getD_lt_256 (buf : List Nat) (hbytes : ∀ b ∈ buf, b < 256) (i : Nat) :
    buf.getD i 0 < 256 := by
  by_cases h : i < buf.length
  · rw [List.getD_eq_getElem _ _ h]
    exact hbytes _ (List.getElem_mem h)
  · rw [List.getD_eq_default _ _ (by omega)]
    decide

/-- The backward scan stops at the last byte, among the final four, that is
not a continuation byte, and decodes from there. -/
theorem get_right_generic_loop_stops (ptr : List Nat) (left : Nat) : ∀ (fuel k : Nat),
    1 ≤ k →
    (∀ i, left - k < i → i < left → ptr.getD i 0 &&& 0xc0 = 0x80) →
    0 ≤ (fy_utf8_get_right_generic_loop ptr left fuel k).1 →
    ∃ k', k ≤ k' ∧ k' ≤ 4 ∧ k' ≤ left ∧ ptr.getD (left - k') 0 &&& 0xc0 ≠ 0x80 ∧
      (∀ i, left - k' < i → i < left → ptr.getD i 0 &&& 0xc0 = 0x80) ∧
      fy_utf8_get_right_generic_loop ptr left fuel k =
        fy_utf8_get (ptr.drop (left - k')) k' := by
  intro fuel
  induction fuel with
  | zero =>
    intro k _ _ h
    simp only [fy_utf8_get_right_generic_loop, FYUG_PARTIAL] at h
    exact absurd h (by decide)
  | succ n ih =>
    intro k hk hcont h
    unfold fy_utf8_get_right_generic_loop at h ⊢
    by_cases hc : k ≤ left ∧ k ≤ 4
    · rw [if_pos hc] at h ⊢
      by_cases hb : ptr.getD (left - k) 0 &&& 0xc0 ≠ 0x80
      · rw [if_pos hb]
        exact ⟨k, le_refl _, hc.2, hc.1, hb, hcont, rfl⟩
      · rw [if_neg hb] at h ⊢
        have hb' : ptr.getD (left - k) 0 &&& 0xc0 = 0x80 := not_not.mp hb
        have hcont' : ∀ i, left - (k + 1) < i → i < left → ptr.getD i 0 &&& 0xc0 = 0x80 := by
          intro i hi1 hi2
          by_cases hi : i = left - k
          · rw [hi]; exact hb'
          · exact hcont i (by omega) hi2
        obtain ⟨k', h1, h2, h3, h4, h5, h6⟩ := ih (k + 1) (by omega) hcont' h
        exact ⟨k', by omega, h2, h3, h4, h5, h6⟩
    · rw [if_neg hc] at h
      simp only [FYUG_PARTIAL] at h
      exact absurd h (by decide)

/-- A non-empty well-formed buffer ends with the encoding of a scalar value. -/
theorem utf8_well_formed_last (s : List Nat) (h : utf8_well_formed s) (hne : s ≠ []) :
    ∃ q c, utf8_is_scalar c ∧ s = q ++ utf8_encode c := by
  induction h with
  | nil => exact absurd rfl hne
  | cons c rest hc _ ih =>
    by_cases hr : rest = []
    · subst hr
      exact ⟨[], c, hc, by simp⟩
    · obtain ⟨q, c', hc', e⟩ := ih hr
      exact ⟨utf8_encode c ++ q, c', hc', by rw [e, List.append_assoc]⟩

/-- The first byte of an encoding is not a continuation byte and the others
are. -/
theorem utf8_encode_lead_cont (c : Nat) (hc : utf8_is_scalar c) :
    (utf8_encode c).getD 0 0 &&& 0xc0 ≠ 0x80 ∧
      ∀ j, 1 ≤ j → j < (utf8_encode c).length → (utf8_encode c).getD j 0 &&& 0xc0 = 0x80 := by
  rcases utf8_encode_shape c hc with ⟨h, e⟩ | ⟨_, b, t, e, hb1, hb2, ht, _⟩
  · rw [e]
    refine ⟨?_, ?_⟩
    · intro hh
      have := (and_c0_eq_80_iff c (by omega)).1 hh
      omega
    · intro j hj1 hj2
      simp only [List.length_singleton] at hj2
      omega
  · rw [e]
    refine ⟨?_, ?_⟩
    · intro hh
      have := (and_c0_eq_80_iff b (by omega)).1 hh
      omega
    · intro j hj1 hj2
      obtain ⟨j', rfl⟩ : ∃ j', j = j' + 1 := ⟨j - 1, by omega⟩
      simp only [List.length_cons] at hj2
      rw [List.getD_cons_succ, List.getD_eq_getElem _ _ (by omega)]
      have hx := ht _ (List.getElem_mem (by omega : j' < t.length))
      exact (and_c0_eq_80_iff _ (by omega)).2 hx

/-- On a buffer that ends with an encoding the backward scan reaches the first
byte of that encoding. -/
theorem get_right_generic_loop_encode (q : List Nat) (c : Nat) (hc : utf8_is_scalar c) :
    ∀ (fuel k : Nat), 1 ≤ k → k ≤ (utf8_encode c).length →
    (utf8_encode c).length + 1 ≤ fuel + k →
    fy_utf8_get_right_generic_loop (q ++ utf8_encode c) (q ++ utf8_encode c).length fuel k =
      ((c : Int), (utf8_encode c).length) := by
  have hw4 := utf8_encode_length_le c
  obtain ⟨hlead, hcont⟩ := utf8_encode_lead_cont c hc
  intro fuel
  induction fuel with
  | zero => intro k _ h1 h2; omega
  | succ n ih =>
    intro k hk1 hk2 hf
    have hlen : (q ++ utf8_encode c).length = q.length + (utf8_encode c).length :=
      List.length_append _ _
    have hidx : (q ++ utf8_encode c).length - k = q.length + ((utf8_encode c).length - k) := by
      omega
    have hget : (q ++ utf8_encode c).getD ((q ++ utf8_encode c).length - k) 0 =
        (utf8_encode c).getD ((utf8_encode c).length - k) 0 := by
      rw [hidx, List.getD_append_right _ _ _ _ (by omega)]
      congr 1
      omega
    unfold fy_utf8_get_right_generic_loop
    rw [if_pos ⟨by omega, by omega⟩, hget]
    by_cases hk : k = (utf8_encode c).length
    · have h0 : (utf8_encode c).length - k = 0 := by omega
      rw [h0, if_pos hlead, hidx, h0, Nat.add_zero, List.drop_left, hk]
      have := get_encode c [] ((utf8_encode c).length : Int) hc (le_refl _)
      rwa [List.append_nil] at this
    · rw [if_neg (not_not.mpr (hcont _ (by omega) (by omega)))]
      exact ih (k + 1) (by omega) (by omega) (by omega)

/-- C20 (counterexample): on the two bytes 0x41 0x80 the function returns the
code point 0x41 with width 1, while the last byte of the buffer is 0x80, not
the encoding of 0x41. -/
theorem C20_counterexample :
    fy_utf8_get_right_generic [0x41, 0x80] 2 = (0x41, 1) ∧
    ([0x41, 0x80] : List Nat).drop (2 - 1) ≠ utf8_encode 0x41 := by
  decide

/-- C20 (amended): `fy_utf8_get_right_generic` decodes the character that
starts at the last byte, among the final four of the buffer, that is not a
continuation byte. Whenever it returns a non-negative code point c with width
w for a buffer of bytes, there is k in 1..4 such that the byte k places from
the end is not a continuation byte, every byte after it is one, w <= k, c is a
scalar value and the w bytes from that place on are the UTF-8 encoding of c.
When the buffer is non-empty well-formed UTF-8 it returns the last scalar
value c and its width w, and the last w bytes are the encoding of c. -/
theorem C20_get_right_generic_decodes_last (buf : List Nat) (hbytes : ∀ b ∈ buf, b < 256) :
    (0 ≤ (fy_utf8_get_right_generic buf buf.length).1 →
      ∃ k, 1 ≤ k ∧ k ≤ 4 ∧ k ≤ buf.length ∧
        ¬ (0x80 ≤ buf.getD (buf.length - k) 0 ∧ buf.getD (buf.length - k) 0 < 0xC0) ∧
        (∀ i, buf.length - k < i → i < buf.length →
          0x80 ≤ buf.getD i 0 ∧ buf.getD i 0 < 0xC0) ∧
        (fy_utf8_get_right_generic buf buf.length).2 ≤ k ∧
        utf8_is_scalar (fy_utf8_get_right_generic buf buf.length).1.toNat ∧
        (buf.drop (buf.length - k)).take (fy_utf8_get_right_generic buf buf.length).2 =
          utf8_encode (fy_utf8_get_right_generic buf buf.length).1.toNat) ∧
    (utf8_well_formed buf → buf ≠ [] →
      ∃ c, utf8_is_scalar c ∧
        fy_utf8_get_right_generic buf buf.length = ((c : Int), (utf8_encode c).length) ∧
        buf.drop (buf.length - (utf8_encode c).length) = utf8_encode c) := by
  refine ⟨?_, ?_⟩
  · intro h
    unfold fy_utf8_get_right_generic at h ⊢
    by_cases hl : (buf.length : Int) < 1
    · rw [if_pos hl] at h
      simp only [FYUG_EOF] at h
      exact absurd h (by decide)
    · rw [if_neg hl] at h ⊢
      rw [Int.toNat_ofNat] at h ⊢
      obtain ⟨k, h1, h2, h3, h4, h5, h6⟩ :=
        get_right_generic_loop_stops buf buf.length 5 1 (le_refl _)
          (fun i hi1 hi2 => by omega) h
      rw [h6] at h ⊢
      have hdb : ∀ b ∈ buf.drop (buf.length - k), b < 256 :=
        fun b hb => hbytes b (List.mem_of_mem_drop hb)
      have hdl : ((k : Nat) : Int) ≤ ((buf.drop (buf.length - k)).length : Int) := by
        rw [List.length_drop]; omega
      obtain ⟨c, hc, ht, hg, hw⟩ := get_sound (buf.drop (buf.length - k)) k hdb hdl h
      rw [hg]
      refine ⟨k, h1, h2, h3, ?_, ?_, ?_, ?_, ?_⟩
      · intro hh
        exact h4 ((and_c0_eq_80_iff _ (getD_lt_256 buf hbytes _)).2 hh)
      · intro i hi1 hi2
        exact (and_c0_eq_80_iff _ (getD_lt_256 buf hbytes _)).1 (h5 i hi1 hi2)
      · simp only; omega
      · simpa using hc
      · simpa using ht
  · intro hwf hne
    obtain ⟨q, c, hc, e⟩ := utf8_well_formed_last buf hwf hne
    have hw1 := utf8_encode_length_pos c
    have hw4 := utf8_encode_length_le c
    refine ⟨c, hc, ?_, ?_⟩
    · unfold fy_utf8_get_right_generic
      have hl : ¬ ((buf.length : Int) < 1) := by
        rw [e, List.length_append]; omega
      rw [if_neg hl, Int.toNat_ofNat, e]
      exact get_right_generic_loop_encode q c hc 5 1 (le_refl _) hw1 (by omega)
    · rw [e, List.length_append, Nat.add_sub_cancel, List.drop_left]

/-- C20 (amended), witness: on the well-formed buffer "a" followed by the two
bytes of U+00E9 the function returns 0xE9 with width 2. -/
theorem C20_get_right_generic_decodes_last_witness :
    (∀ b ∈ ([0x61, 0xC3, 0xA9] : List Nat), b < 256) ∧
    fy_utf8_get_right_generic [0x61, 0xC3, 0xA9] 3 = (0xE9, 2) ∧
    ∃ c, utf8_is_scalar c ∧
      fy_utf8_get_right_generic [0x61, 0xC3, 0xA9] ([0x61, 0xC3, 0xA9] : List Nat).length =
        ((c : Int), (utf8_encode c).length) ∧
      ([0x61, 0xC3, 0xA9] : List Nat).drop
        (([0x61, 0xC3, 0xA9] : List Nat).length - (utf8_encode c).length) = utf8_encode c :=
  ⟨by decide, by decide,
    (C20_get_right_generic_decodes_last [0x61, 0xC3, 0xA9] (by decide)).2
      (utf8_well_formed.cons 0x61 _ (by decide)
        (utf8_well_formed.cons 0xE9 [] (by decide) utf8_well_formed.nil))
      (by decide)⟩

end Cfyaml

/-! ## Parsing the escapes that formatting writes -/

namespace Cfyaml

open fy_utf8_escape

/-- A code point found in the escape table is one of its fourteen entries. -/
theorem escape_table_lookup_mem (c : Int) (l : Nat) (h : escape_table.lookup c = some l) :
    c ∈ ([0x5c, 0x00, 0x08, 0x0d, 0x09, 0x0c, 0x0a, 0x0b, 0x07, 0x1b, 0x85, 0xa0, 0x2028,
      0x2029] : List Int) := by
  simp only [escape_table, List.lookup] at h
  repeat' split at h
  all_goals
    first
    | (simp at h; done)
    | (rename_i heq
       simp only [beq_iff_eq] at heq
       subst heq
       decide)

/-- The code points `fy_utf8_format` writes as a backslash and one byte under
the two YAML double-quote policies: the escape table entries and the double
quote. -/
theorem format_two_byte_escape_mem (c : Int) (esc : fy_utf8_escape) (x : Nat)
    (hesc : esc = fyue_doublequote ∨ esc = fyue_doublequote_yaml_1_1)
    (h : fy_utf8_format c esc = [0x5c, x]) :
    c ∈ ([0x5c, 0x00, 0x08, 0x0d, 0x09, 0x0c, 0x0a, 0x0b, 0x07, 0x1b, 0x85, 0xa0, 0x2028,
      0x2029, 0x22] : List Int) := by
  unfold fy_utf8_format at h
  by_cases hv : fy_utf8_is_valid c = true
  swap
  · simp only [hv, Bool.not_false, if_true] at h
    cases h
  simp only [hv, Bool.not_true, Bool.false_eq_true, if_false] at h
  by_cases hcc : fy_utf8_esc_map c esc > 0
  · by_cases hq : c = 0x22
    · rw [hq]; decide
    have hm : fy_utf8_esc_map c esc = esc_map esc_all c := by
      unfold fy_utf8_esc_map
      rcases hesc with rfl | rfl <;> simp [hq]
    rw [hm, esc_map_all_eq] at hcc
    cases hl : escape_table.lookup c with
    | none =>
      rw [hl] at hcc
      exact absurd hcc (by decide)
    | some l =>
      have := escape_table_lookup_mem c l hl
      simp only [List.mem_cons, List.mem_singleton, List.not_mem_nil, or_false] at this ⊢
      omega
  · simp only [hcc, if_false, fy_utf8_put_unchecked] at h
    exfalso
    unfold utf8_encode at h
    split_ifs at h <;> simp only [List.cons.injEq, and_true, List.ne_cons_self, and_false,
      List.cons_ne_nil, reduceCtorEq] at h
    omega

/-- Each of the fifteen escapes, written by `fy_utf8_format`, is a backslash
and one byte that `fy_utf8_parse_escape` reads back. -/
theorem parse_format_table :
    ∀ c ∈ ([0x5c, 0x00, 0x08, 0x0d, 0x09, 0x0c, 0x0a, 0x0b, 0x07, 0x1b, 0x85, 0xa0, 0x2028,
      0x2029, 0x22] : List Int),
    ∀ esc ∈ [fyue_doublequote, fyue_doublequote_yaml_1_1],
      fy_utf8_format c esc = [0x5c, (fy_utf8_format c esc).getD 1 0] ∧
      fy_utf8_parse_escape (fy_utf8_format c esc) 2 esc = (c, 2) := by
  decide

/-- C21: parsing undoes formatting for the YAML double-quote policies: for esc
in {`fyue_doublequote`, `fyue_doublequote_yaml_1_1`} and every code point c
that `fy_utf8_format` renders as a two-byte escape under esc (a backslash and
one byte), `fy_utf8_parse_escape` applied under the same esc to those two
bytes (len = 2) returns c and advances `*strp` by exactly 2; the escape table
entries and the double quote are rendered so. -/
theorem C21_parse_undoes_format (esc : fy_utf8_escape) (c : Int)
    (hesc : esc = fyue_doublequote ∨ esc = fyue_doublequote_yaml_1_1) :
    (∀ x, fy_utf8_format c esc = [0x5c, x] →
      fy_utf8_parse_escape [0x5c, x] 2 esc = (c, 2)) ∧
    (((∃ l, escape_table.lookup c = some l) ∨ c = 0x22) →
      ∃ x, fy_utf8_format c esc = [0x5c, x]) := by
  have hmem : esc ∈ [fyue_doublequote, fyue_doublequote_yaml_1_1] := by
    rcases hesc with rfl | rfl <;> decide
  refine ⟨?_, ?_⟩
  · intro x h
    have hc := format_two_byte_escape_mem c esc x hesc h
    have := (parse_format_table c hc esc hmem).2
    rwa [h] at this
  · intro h
    have hc : c ∈ ([0x5c, 0x00, 0x08, 0x0d, 0x09, 0x0c, 0x0a, 0x0b, 0x07, 0x1b, 0x85, 0xa0,
        0x2028, 0x2029, 0x22] : List Int) := by
      rcases h with ⟨l, hl⟩ | rfl
      · have := escape_table_lookup_mem c l hl
        simp only [List.mem_cons, List.mem_singleton, List.not_mem_nil, or_false] at this ⊢
        omega
      · decide
    exact ⟨_, (parse_format_table c hc esc hmem).1⟩

/-- C21, witness: LF is written as backslash-n under `fyue_doublequote`, and
backslash-n is read back as LF. -/
theorem C21_parse_undoes_format_witness :
    (fyue_doublequote = fyue_doublequote ∨ fyue_doublequote = fyue_doublequote_yaml_1_1) ∧
    fy_utf8_format 0x0a fyue_doublequote = [0x5c, 0x6e] ∧
    fy_utf8_parse_escape [0x5c, 0x6e] 2 fyue_doublequote = (0x0a, 2) :=
  ⟨by decide, by decide,
    (C21_parse_undoes_format fyue_doublequote 0x0a (by decide)).1 0x6e (by decide)⟩

end Cfyaml

/-! ## Reading from the memstream -/

namespace Cfyaml

/-- What `memstream_read` does in a state with position <= size: it returns
n = min(size - position, count), advances the position by n, leaves size,
capacity and contents alone, and copies the first n bytes of contents. -/
theorem memstream_read_copies_from_start (ms : memstream) (count : Nat)
    (hpos : ms.position ≤ ms.size) (hsize : ms.size < 2 ^ 64) :
    memstream_read ms count =
      if min (ms.size - ms.position) count < 1 then (0, [], ms)
      else (((min (ms.size - ms.position) count : Nat) : Int),
        ms.contents.take (min (ms.size - ms.position) count),
        { ms with position := ms.position + min (ms.size - ms.position) count }) := by
  have h1 : (ms.size + 2 ^ 64 - ms.position) % 2 ^ 64 = ms.size - ms.position := by omega
  have h2 : (ms.position + min (ms.size - ms.position) count) % 2 ^ 64 =
      ms.position + min (ms.size - ms.position) count := by
    apply Nat.mod_eq_of_lt
    have := Nat.min_le_left (ms.size - ms.position) count
    omega
  unfold memstream_read
  simp only [h1, h2]

/-- C22 (the code at the failing input): after "ab" has been written and the
position moved to 1, the stream has position 1 and size 2 and its contents
begin with 'a', 'b'; `memstream_read` with count 1 returns 1 and advances the
position to 2, but the byte it copies is contents[0] = 'a', not
contents[position] = 'b'. -/
theorem C22_read_copies_first_byte :
    (memstream_run open_memstream [.write [0x61, 0x62], .seek 1 0]).map
      (fun ms => (ms.position, ms.size, ms.contents.take 2)) = some (1, 2, [0x61, 0x62]) ∧
    (memstream_run open_memstream [.write [0x61, 0x62], .seek 1 0]).map
      (fun ms => ((memstream_read ms 1).1, (memstream_read ms 1).2.1,
        (memstream_read ms 1).2.2.position)) = some (1, [0x61], 2) ∧
    (memstream_run open_memstream [.write [0x61, 0x62], .seek 1 0]).map
      (fun ms => (ms.contents.drop ms.position).take 1) = some [0x62] := by
  refine ⟨by decide, by decide, by decide⟩

end Cfyaml

/-! ## The tag scanner: the scanning loops end -/

namespace Cfyaml

/-- A character decoded from a buffer of bytes takes at least one byte and no
more than the buffer holds. -/
theorem get_width_bounds (p : List Nat) (hbytes : ∀ b ∈ p, b < 256)
    (h : 0 ≤ (fy_utf8_get p (p.length : Int)).1) :
    1 ≤ (fy_utf8_get p (p.length : Int)).2 ∧ (fy_utf8_get p (p.length : Int)).2 ≤ p.length := by
  obtain ⟨c, _, _, hg, hw⟩ := get_sound p (p.length : Int) hbytes (le_refl _) h
  rw [hg]
  have := utf8_encode_length_pos c
  exact ⟨this, by simpa using hw⟩

theorem uri_nonneg (c : Int) (h : fy_is_uri c = true) : 0 ≤ c := by
  simp only [fy_is_uri, fy_is_alnum, fy_is_first_alpha, strchr_iff_mem, Bool.or_eq_true,
    decide_eq_true_eq, List.mem_cons, List.mem_singleton, List.not_mem_nil, or_false] at h
  omega

theorem hex_nonneg (c : Int) (h : fy_is_hex c = true) : 0 ≤ c := by
  simp only [fy_is_hex, decide_eq_true_eq] at h
  omega

theorem bytes_drop (s : List Nat) (n : Nat) (hbytes : ∀ b ∈ s, b < 256) :
    ∀ b ∈ s.drop n, b < 256 :=
  fun b hb => hbytes b (List.mem_of_mem_drop hb)

theorem bytes_take (s : List Nat) (n : Nat) (hbytes : ∀ b ∈ s, b < 256) :
    ∀ b ∈ s.take n, b < 256 :=
  fun b hb => hbytes b (List.mem_of_mem_take hb)

/-- The URI loop ends, on a cursor within the buffer. -/
theorem uri_length_loop_total : ∀ (fuel : Nat) (s : List Nat), (∀ b ∈ s, b < 256) →
    s.length < fuel →
    ∃ s', fy_tag_uri_length_loop fuel s = some s' ∧ s'.length ≤ s.length := by
  intro fuel
  induction fuel with
  | zero => intro s _ h; omega
  | succ f ih =>
    intro s hbytes hlen
    unfold fy_tag_uri_length_loop
    dsimp only
    by_cases hu : fy_is_uri (fy_utf8_get s (s.length : Int)).1 = true
    · rw [if_pos hu]
      have hw := get_width_bounds s hbytes (uri_nonneg _ hu)
      split
      · exact ⟨s, rfl, le_refl _⟩
      · obtain ⟨s', e, hl⟩ := ih (s.drop (fy_utf8_get s (s.length : Int)).2)
          (bytes_drop s _ hbytes) (by rw [List.length_drop]; omega)
        rw [List.length_drop] at hl
        exact ⟨s', e, by omega⟩
    · rw [if_neg hu]
      exact ⟨s, rfl, le_refl _⟩

/-- The digit loop of the validation consumes a byte per digit. -/
theorem uri_is_valid_hex_consumes : ∀ (j : Nat) (s : List Nat) (w octet : Nat) (s' : List Nat)
    (w' o' : Nat), (∀ b ∈ s, b < 256) →
    fy_tag_uri_is_valid_hex j s w octet = some (s', w', o') →
    (∀ b ∈ s', b < 256) ∧ s'.length + j ≤ s.length := by
  intro j
  induction j with
  | zero =>
    intro s w octet s' w' o' hbytes h
    simp only [fy_tag_uri_is_valid_hex, Option.some.injEq, Prod.mk.injEq] at h
    rw [← h.1]
    exact ⟨hbytes, le_refl _⟩
  | succ j ih =>
    intro s w octet s' w' o' hbytes h
    unfold fy_tag_uri_is_valid_hex at h
    dsimp only at h
    by_cases hx : fy_is_hex (fy_utf8_get s (s.length : Int)).1 = true
    · simp only [hx, Bool.not_true, Bool.false_eq_true, if_false] at h
      have hw := get_width_bounds s hbytes (hex_nonneg _ hx)
      obtain ⟨h1, h2⟩ := ih _ _ _ s' w' o' (bytes_drop s _ hbytes) h
      rw [List.length_drop] at h2
      exact ⟨h1, by omega⟩
    · simp only [hx, Bool.not_false, if_true] at h
      cases h

end Cfyaml

namespace Cfyaml

/-- The escape loop of the validation ends within four rounds, and leaves the
cursor further on. -/
theorem uri_is_valid_escape_total : ∀ (fuel : Nat) (s : List Nat) (w width k : Nat)
    (octs : List Nat), (∀ b ∈ s, b < 256) → (width = 0 → 4 ≤ fuel) → width ≤ fuel → 1 ≤ fuel →
    ∃ r, fy_tag_uri_is_valid_escape fuel s w width k octs = some r ∧
      ∀ s' octs' k', r = some (s', octs', k') → (∀ b ∈ s', b < 256) ∧ s'.length < s.length := by
  intro fuel
  induction fuel with
  | zero => intro s w width k octs _ _ _ h; omega
  | succ f ih =>
    intro s w width k octs hbytes hf0 hfw _
    unfold fy_tag_uri_is_valid_escape
    by_cases hlen : ((s.length : Nat) : Int) < 3
    · rw [if_pos hlen]
      exact ⟨none, rfl, fun _ _ _ h => by cases h⟩
    rw [if_neg hlen]
    dsimp only
    generalize hcw : (if width > 0 then fy_utf8_get s (s.length : Int) else ((0x25 : Int), w)) = cw
    by_cases hc : cw.1 ≠ 0x25
    · rw [if_pos hc]
      exact ⟨none, rfl, fun _ _ _ h => by cases h⟩
    rw [if_neg hc]
    cases hh : fy_tag_uri_is_valid_hex 2 (s.drop cw.2) cw.2 0 with
    | none => exact ⟨none, rfl, fun _ _ _ h => by cases h⟩
    | some t =>
      obtain ⟨s2, w2, octet⟩ := t
      obtain ⟨hb2, hl2⟩ := uri_is_valid_hex_consumes 2 _ _ _ s2 w2 octet
        (bytes_drop s _ hbytes) hh
      rw [List.length_drop] at hl2
      have hlt : s2.length < s.length := by omega
      dsimp only
      by_cases hfirst : width = 0
      · subst hfirst
        simp only [decide_True, if_true, true_and]
        by_cases hbad : fy_utf8_width_by_first_octet octet < 1 ∨
            fy_utf8_width_by_first_octet octet > 4
        · rw [if_pos hbad]
          exact ⟨none, rfl, fun _ _ _ h => by cases h⟩
        · rw [if_neg hbad]
          have h4 := hf0 rfl
          by_cases hmore : fy_utf8_width_by_first_octet octet - 1 > 0
          · rw [if_pos hmore]
            obtain ⟨r, e, hr⟩ := ih s2 w2 (fy_utf8_width_by_first_octet octet - 1) (0 + 1)
              (octs.set 0 octet) hb2 (by omega) (by omega) (by omega)
            refine ⟨r, e, fun s' octs' k' h => ?_⟩
            obtain ⟨h1, h2⟩ := hr s' octs' k' h
            exact ⟨h1, by omega⟩
          · rw [if_neg hmore]
            refine ⟨_, rfl, fun s' octs' k' h => ?_⟩
            simp only [Option.some.injEq, Prod.mk.injEq] at h
            rw [← h.1]
            exact ⟨hb2, hlt⟩
      · have hd : decide (width = 0) = false := by simp [hfirst]
        simp only [hd, Bool.false_eq_true, if_false, false_and]
        by_cases hmore : width - 1 > 0
        · rw [if_pos hmore]
          obtain ⟨r, e, hr⟩ := ih s2 w2 (width - 1) (k + 1) (octs.set k octet) hb2
            (by omega) (by omega) (by omega)
          refine ⟨r, e, fun s' octs' k' h => ?_⟩
          obtain ⟨h1, h2⟩ := hr s' octs' k' h
          exact ⟨h1, by omega⟩
        · rw [if_neg hmore]
          refine ⟨_, rfl, fun s' octs' k' h => ?_⟩
          simp only [Option.some.injEq, Prod.mk.injEq] at h
          rw [← h.1]
          exact ⟨hb2, hlt⟩

/-- The validation loop ends. -/
theorem uri_is_valid_loop_total : ∀ (fuel : Nat) (s : List Nat), (∀ b ∈ s, b < 256) →
    s.length < fuel → ∃ v, fy_tag_uri_is_valid_loop fuel s = some v := by
  intro fuel
  induction fuel with
  | zero => intro s _ h; omega
  | succ f ih =>
    intro s hbytes hlen
    unfold fy_tag_uri_is_valid_loop
    dsimp only
    by_cases hpos : (fy_utf8_get s (s.length : Int)).1 ≥ 0
    · rw [if_pos hpos]
      have hw := get_width_bounds s hbytes hpos
      by_cases hp : (fy_utf8_get s (s.length : Int)).1 ≠ 0x25
      · rw [if_pos hp]
        exact ih _ (bytes_drop s _ hbytes) (by rw [List.length_drop]; omega)
      · rw [if_neg hp]
        obtain ⟨r, e, hr⟩ := uri_is_valid_escape_total 4 s (fy_utf8_get s (s.length : Int)).2 0 0
          [0, 0, 0, 0] hbytes (fun _ => le_refl _) (by omega) (by omega)
        rw [e]
        cases r with
        | none => exact ⟨false, rfl⟩
        | some t =>
          obtain ⟨s', octs', k'⟩ := t
          obtain ⟨h1, h2⟩ := hr s' octs' k' rfl
          dsimp only
          split
          · exact ⟨false, rfl⟩
          · exact ih s' h1 (by omega)
    · rw [if_neg hpos]
      exact ⟨true, rfl⟩

/-- `fy_tag_uri_length` returns on every buffer of bytes: -1 or a length
within the buffer. -/
theorem uri_length_total (data : List Nat) (hbytes : ∀ b ∈ data, b < 256) :
    ∃ u, fy_tag_uri_length data = some u ∧ -1 ≤ u ∧ u ≤ (data.length : Int) := by
  obtain ⟨s', e, hl⟩ := uri_length_loop_total (data.length + 1) data hbytes (Nat.lt_succ_self _)
  unfold fy_tag_uri_length
  rw [e]
  dsimp only
  obtain ⟨v, ev⟩ := uri_is_valid_loop_total
    ((data.take ((data.length : Int) - (s'.length : Int)).toNat).length + 1)
    (data.take ((data.length : Int) - (s'.length : Int)).toNat) (bytes_take data _ hbytes)
    (Nat.lt_succ_self _)
  unfold fy_tag_uri_is_valid
  rw [ev]
  dsimp only
  cases v
  · exact ⟨-1, rfl, le_refl _, by omega⟩
  · exact ⟨_, rfl, by omega, by omega⟩

end Cfyaml

/-! ## The tag scanner: the verbatim form and its closing byte -/

namespace Cfyaml

/-- `fy_tag_scan` on an input that begins with "!<", once the URI after it has
been measured. -/
theorem tag_scan_verbatim_after_uri (rest : List Nat) (info : fy_tag_scan_info) (u : Int)
    (hu : fy_tag_uri_length rest = some u) :
    fy_tag_scan (0x21 :: 0x3c :: rest) info =
      if 0 ≤ u ∧ u + 1 = (rest.length : Int) then
        some (0, { total_length := (rest.length : Int) + 2, handle_length := 0,
                   uri_length := u, prefix_length := 2, suffix_length := 1 })
      else some (-1, info) := by
  have hlen : (((0x21 :: 0x3c :: rest : List Nat).length : Nat) : Int) =
      (rest.length : Int) + 2 := by
    simp only [List.length_cons]
    push_cast
    omega
  have g1 : fy_utf8_get (0x21 :: 0x3c :: rest)
      ((0x21 :: 0x3c :: rest : List Nat).length : Int) = (0x21, 1) :=
    get_ascii 0x21 _ _ (by decide) (one_le_length_cons _ _)
  have g2 : fy_utf8_get (List.drop 1 (0x21 :: 0x3c :: rest))
      (((0x21 :: 0x3c :: rest : List Nat).length : Int) - ((1 : Nat) : Int)) = (0x3c, 1) :=
    get_ascii 0x3c _ _ (by decide) (one_le_length_sub_one _ _ _)
  have g3 : fy_tag_uri_length (List.drop 2 (0x21 :: 0x3c :: rest)) = some u := hu
  generalize 0x21 :: 0x3c :: rest = data at hlen g1 g2 g3 ⊢
  unfold fy_tag_scan
  simp only [g1]
  simp only [g2]
  have h0 : (Int.toNat 2) = 2 := rfl
  simp only [ne_eq, not_true_eq_false, if_true, if_false, OfNat.ofNat_ne_zero,
    not_false_eq_true, false_and, h0, g3, decide_False, Bool.false_eq_true, hlen]
  by_cases hneg : u < 0
  · rw [if_pos hneg, if_neg (by omega)]
  · rw [if_neg hneg]
    by_cases hsum : u + 1 = (rest.length : Int)
    · have h2 : (2 : Int) + 0 + u + 1 = (rest.length : Int) + 2 := by omega
      rw [if_neg (by simp only [h2, not_true_eq_false, not_false_eq_true]),
        if_pos ⟨by omega, hsum⟩, h2]
    · have h2 : ¬ ((2 : Int) + 0 + u + 1 = (rest.length : Int) + 2) := by omega
      rw [if_pos h2, if_neg (fun h => hsum h.2)]

/-- C23 (counterexample): the three bytes "!<<" begin with "!<" and end in
'<', not '>', and `fy_tag_scan` returns 0 on them; so it does on "!<ab,". -/
theorem C23_counterexample :
    fy_tag_scan [0x21, 0x3c, 0x3c] ⟨0, 0, 0, 0, 0⟩ = some (0, ⟨3, 0, 0, 2, 1⟩) ∧
    ([0x21, 0x3c, 0x3c] : List Nat).getLast? ≠ some 0x3e ∧
    fy_tag_scan [0x21, 0x3c, 0x61, 0x62, 0x2c] ⟨0, 0, 0, 0, 0⟩ = some (0, ⟨5, 0, 2, 2, 1⟩) ∧
    ([0x21, 0x3c, 0x61, 0x62, 0x2c] : List Nat).getLast? ≠ some 0x3e := by
  decide

/-- C23 (amended): `fy_tag_scan` does not compare the closing byte of the
verbatim form with '>'. For every input of bytes that begins with "!<",
`fy_tag_uri_length` measures the bytes after "!<" (it returns u), and
`fy_tag_scan` returns 0 exactly when u is non-negative and exactly one byte
follows the u bytes of the URI, whatever that byte is: it is counted as the
suffix. In every other case, in particular when nothing or more than one byte
follows the URI, it returns -1 and leaves `*info` alone. -/
theorem C23_tag_scan_verbatim_closing_byte (rest : List Nat) (info : fy_tag_scan_info)
    (hbytes : ∀ b ∈ rest, b < 256) :
    ∃ u, fy_tag_uri_length rest = some u ∧
      ((0 ≤ u ∧ u + 1 = (rest.length : Int)) →
        fy_tag_scan (0x21 :: 0x3c :: rest) info =
          some (0, { total_length := (rest.length : Int) + 2, handle_length := 0,
                     uri_length := u, prefix_length := 2, suffix_length := 1 })) ∧
      (¬ (0 ≤ u ∧ u + 1 = (rest.length : Int)) →
        fy_tag_scan (0x21 :: 0x3c :: rest) info = some (-1, info)) := by
  obtain ⟨u, hu, _, _⟩ := uri_length_total rest hbytes
  have key := tag_scan_verbatim_after_uri rest info u hu
  refine ⟨u, hu, ?_, ?_⟩
  · intro h
    rw [key, if_pos h]
  · intro h
    rw [key, if_neg h]

/-- C23 (amended), witness: "!<a" has nothing after the URI and is rejected. -/
theorem C23_tag_scan_verbatim_closing_byte_witness :
    (∀ b ∈ ([0x61] : List Nat), b < 256) ∧
    ∃ u, fy_tag_uri_length [0x61] = some u ∧
      ((0 ≤ u ∧ u + 1 = (([0x61] : List Nat).length : Int)) →
        fy_tag_scan (0x21 :: 0x3c :: [0x61]) ⟨0, 0, 0, 0, 0⟩ =
          some (0, { total_length := (([0x61] : List Nat).length : Int) + 2, handle_length := 0,
                     uri_length := u, prefix_length := 2, suffix_length := 1 })) ∧
      (¬ (0 ≤ u ∧ u + 1 = (([0x61] : List Nat).length : Int)) →
        fy_tag_scan (0x21 :: 0x3c :: [0x61]) ⟨0, 0, 0, 0, 0⟩ = some (-1, ⟨0, 0, 0, 0, 0⟩)) :=
  ⟨by decide, C23_tag_scan_verbatim_closing_byte [0x61] ⟨0, 0, 0, 0, 0⟩ (by decide)⟩

end Cfyaml
